import Mathlib

/-! Option resolution of StatisticalShapeModeling (`ssmOptionsBase.h`,
`ssmReferenceOptions.h`).

A shallow embedding of the option engine: the property tree the options live in
(`boost::property_tree::ptree` with `std::string` keys and data and `.` as the path
separator), the overlay of the parsed group onto the default values, the walk that
collects the required keys a file lacks, the top-level `ParseOptions`, the accessor
`Get` and the delimiter-separated vector reader `GetAsVector`.

Strings are `String`; character-level work is done on `String.data`.  Code that
throws returns a `Run` value whose `raised` case carries the exception.
-/

set_option autoImplicit false

namespace ssm

/-! ## Property tree -/

/-- Exceptions of the property tree (`pt::ptree_error`): a path that leads nowhere
and a payload the translator cannot decode. -/
inductive PtreeError where
  | ptree_bad_path
  | ptree_bad_data
  deriving DecidableEq, Repr

deriving instance DecidableEq for Except

/-- Outcome of running code that may throw or recurse without end: a returned
value, a raised exception, or exhausted fuel. -/
inductive Run (ε α : Type) where
  | done (a : α)
  | raised (e : ε)
  | outOfFuel
  deriving DecidableEq, Repr

/-- A `pt::ptree` node: its own data and the children in insertion order.  Several
children may carry the same key; lookups take the first. -/
inductive PTree where
  | node (data : String) (children : List (String × PTree))

namespace PTree

/-- Payload of the node, `ptree::data()`. -/
def data : PTree → String
  | node d _ => d

/-- Children in insertion order (what a range-for over the tree visits). -/
def children : PTree → List (String × PTree)
  | node _ cs => cs

/-- The test `ptree::empty()`: no children. -/
def empty (t : PTree) : Bool := t.children.isEmpty

/-- A node holding only data. -/
def leaf (d : String) : PTree := node d []

/-- Key lookup `ptree::find(key)`: the first child stored under exactly `key`
(no path splitting), `none` for `not_found()`. -/
def find (t : PTree) (key : String) : Option PTree := t.children.lookup key

/-- Pieces of a path between separators, the last piece included even when it is
empty: `a.b` gives `a, b`, `a.` gives `a` and the empty piece. -/
def splitAll : List Char → List (List Char)
  | [] => [[]]
  | c :: cs =>
    if c = '.' then [] :: splitAll cs
    else match splitAll cs with
      | [] => [[c]]
      | f :: fs => (c :: f) :: fs

/-- Fragments that repeated `path.reduce()` yields until `path.empty()`: the pieces
between separators, where a path that ends at a separator (or is empty) has no
last empty piece. -/
def fragments (path : String) : List String :=
  let fs := (splitAll path.data).map String.mk
  if fs.getLast? = some "" then fs.dropLast else fs

/-- Fragments that `force_path` followed by the final `reduce` of `put_child`
consume: all pieces, the trailing empty one included. -/
def forcedFragments (path : String) : List String :=
  (splitAll path.data).map String.mk

/-- Walk `walk_path`: follow the fragments through first-match key lookups. -/
def walk : List String → PTree → Option PTree
  | [], t => some t
  | f :: fs, t =>
    match t.find f with
    | none => none
    | some c => walk fs c

/-- Lookup `get_child_optional(path)`. -/
def getChildOptional (t : PTree) (path : String) : Option PTree :=
  walk (fragments path) t

/-- Lookup `get_child(path)`, which throws `ptree_bad_path` when the walk fails. -/
def getChild (t : PTree) (path : String) : Except PtreeError PTree :=
  match t.getChildOptional path with
  | some c => .ok c
  | none => .error .ptree_bad_path

/-- Apply `f` to the first child stored under `key`. -/
def modifyFirst (key : String) (f : PTree → PTree) :
    List (String × PTree) → List (String × PTree)
  | [] => []
  | (k, c) :: rest =>
    if k == key then (k, f c) :: rest else (k, c) :: modifyFirst key f rest

/-- Set the data of the node the fragments lead to (`put_value` on the node found
by `get_child_optional`). -/
def setData : List String → String → PTree → PTree
  | [], v, node _ cs => node v cs
  | f :: fs, v, node d cs => node d (modifyFirst f (setData fs v) cs)

/-- Insertion `put_child`: descend along all fragments but the last, creating the
missing parents at the back, then replace the child under the last fragment or
push a new one at the back. -/
def putChild : List String → PTree → PTree → PTree
  | [], _, t => t
  | [f], v, node d cs =>
    if (cs.lookup f).isSome then node d (modifyFirst f (fun _ => v) cs)
    else node d (cs ++ [(f, v)])
  | f :: g :: fs, v, node d cs =>
    if (cs.lookup f).isSome then node d (modifyFirst f (putChild (g :: fs) v) cs)
    else node d (cs ++ [(f, putChild (g :: fs) v (node "" []))])

/-- Store `ptree::put(path, value)` for a string value: when the path already leads
to a node its data is replaced, otherwise the node is created by `put_child` with
its missing parents. -/
def put (t : PTree) (path : String) (value : String) : PTree :=
  match t.getChildOptional path with
  | some _ => setData (fragments path) value t
  | none => putChild (forcedFragments path) (leaf value) t

/-- Read `get<std::string>(path)`: the data at the path, `ptree_bad_path` when the
path leads nowhere. -/
def getString (t : PTree) (path : String) : Except PtreeError String :=
  match t.getChildOptional path with
  | some c => .ok c.data
  | none => .error .ptree_bad_path

/-- Text the bool translator writes on `put(path, bool)` (`boolalpha`). -/
def boolText (b : Bool) : String := if b then "true" else "false"

/-- Read `get<bool>(path)`: `ptree_bad_path` when the path leads nowhere,
`ptree_bad_data` when the data is none of the texts the bool translator reads
(`true`, `false`, `1`, `0`; surrounding white space is not modelled). -/
def getBool (t : PTree) (path : String) : Except PtreeError Bool :=
  match t.getChildOptional path with
  | none => .error .ptree_bad_path
  | some c =>
    if c.data = "true" ∨ c.data = "1" then .ok true
    else if c.data = "false" ∨ c.data = "0" then .ok false
    else .error .ptree_bad_data

end PTree

/-! ## Overlay of the parsed group onto the defaults -/

/-- The loop of `ParseConfigFile` that adds the parsed values to a copy of the
default values: `ptree = defaults; for (it : parsed) ptree.put(it.first,
it.second.data())`. -/
def mergeDefaults (defaults parsed : PTree) : PTree :=
  parsed.children.foldl (fun acc it => acc.put it.1 it.2.data) defaults

/-! ## Required-key walk -/

/-- Sequencing of code that may throw: the continuation runs on a returned value. -/
def Run.bind {ε α β : Type} (r : Run ε α) (f : α → Run ε β) : Run ε β :=
  match r with
  | .done a => f a
  | .raised e => .raised e
  | .outOfFuel => .outOfFuel

/-- A library call that throws, seen as a run. -/
def Run.ofExcept {ε α : Type} : Except ε α → Run ε α
  | .ok a => .done a
  | .error e => .raised e

/-- Body of the loop `for (it : ptreeOfRequired)` of `checkParsedTree`, run over the
children still to visit, with `path` and `list` as the two reference parameters.
`self` stands for the recursive call. -/
def checkLoop (self : PTree → PTree → String → List String →
      Run PtreeError (String × List String))
    (ptreeOfRequired parsedPtree : PTree) :
    List (String × PTree) → String → List String →
      Run PtreeError (String × List String)
  | [], path, list => .done (path, list)
  | (name, tree) :: rest, path, list =>
    (if !tree.empty then
        (Run.ofExcept (ptreeOfRequired.getChild name)).bind fun sub =>
        (Run.ofExcept (parsedPtree.getChild name)).bind fun parsedSub =>
        self sub parsedSub (path ++ "." ++ name) list
      else .done (path, list)).bind fun (path1, list1) =>
    (if (parsedPtree.find name).isNone then
        (Run.ofExcept (ptreeOfRequired.getBool name)).bind fun required =>
        if required then .done (path1, list1 ++ [path1 ++ "." ++ name])
        else .done (path1, list1)
      else .done (path1, list1)).bind fun (path2, list2) =>
    checkLoop self ptreeOfRequired parsedPtree rest path2 list2

/-- The walk `checkParsedTree(ptreeOfRequired, parsedPtree, path, list)`; the result
holds the final contents of `path` and `list`.  `fuel` bounds the depth of the
recursion. -/
def checkParsedTree : Nat → PTree → PTree → String → List String →
    Run PtreeError (String × List String)
  | 0, _, _, _, _ => .outOfFuel
  | fuel + 1, ptreeOfRequired, parsedPtree, path, list =>
    if ptreeOfRequired.empty then .done (path, list)
    else checkLoop (checkParsedTree fuel) ptreeOfRequired parsedPtree
      ptreeOfRequired.children path list

/-! ## Options base class -/

/-- Exceptions that leave the accessors. -/
inductive Exn where
  | ptree (e : PtreeError)
  | bad_any_cast
  | invalid_argument
  | out_of_range
  deriving DecidableEq, Repr

/-- The C++ types options are declared with (`po::value<T>()`) and read as
(`Get<T>`). -/
inductive ValueType where
  | string
  | double
  | size_t
  | bool
  deriving DecidableEq, Repr

/-- A value held by a `po::variable_value`: the C++ type it was stored with and the
text that denotes it. -/
structure VmValue where
  type : ValueType
  text : String
  deriving DecidableEq, Repr

/-- One entry of a `po::options_description`: the long name, the one-letter name if
there is one, the type of the value, the text of the `default_value` if there is
one, and whether the option is a `bool_switch`, which takes no value. -/
structure OptionDescription where
  longName : String
  shortName : Option Char
  type : ValueType
  defaultText : Option String
  isSwitch : Bool

/-- Data members of `OptionsBase`.  The variables map `m_Vm` holds, per option name,
the stored value; a name without entry is an empty `variable_value`. -/
structure OptionsBase where
  m_Help : Bool
  m_ConfigIsEnabled : Bool
  m_Config : String
  m_NameOfGroup : String
  m_Dlm : Char
  m_ParsedPtree : PTree
  m_PtreeOfRequired : PTree
  m_PtreeOfDefaultValues : PTree
  m_Vm : List (String × VmValue)
  m_Description : List OptionDescription

namespace OptionsBase

/-- State after the constructor `OptionsBase()`. -/
def init : OptionsBase where
  m_Help := false
  m_ConfigIsEnabled := false
  m_Config := ""
  m_NameOfGroup := ""
  m_Dlm := ' '
  m_ParsedPtree := .node "" []
  m_PtreeOfRequired := .node "" []
  m_PtreeOfDefaultValues := .node "" []
  m_Vm := []
  m_Description :=
    [⟨"config", some 'c', .string, none, false⟩, ⟨"help", some 'h', .bool, some "false", true⟩]

/-- Accessor `ConfigIsEnabled()`. -/
def ConfigIsEnabled (self : OptionsBase) : Bool := self.m_ConfigIsEnabled

/-- Setter `SetNameOfGroup(str)`. -/
def SetNameOfGroup (self : OptionsBase) (str : String) : OptionsBase :=
  { self with m_NameOfGroup := str }

/-- Setter `SetConfigFileName(fileName)`. -/
def SetConfigFileName (self : OptionsBase) (fileName : String) : OptionsBase :=
  { self with m_Config := fileName }

/-- Registration `Put<T>(path, value, required)`; `value` is the text the translator
of `T` writes for the default value.  A call that leaves `required` out passes
`true`. -/
def Put (self : OptionsBase) (path : String) (value : String) (required : Bool) :
    OptionsBase :=
  let self1 := { self with
    m_PtreeOfRequired := self.m_PtreeOfRequired.put path (PTree.boolText required) }
  if !required then
    { self1 with m_PtreeOfDefaultValues := self1.m_PtreeOfDefaultValues.put path value }
  else self1

/-- Member `AddToDescription(options)`. -/
def AddToDescription (self : OptionsBase) (options : List OptionDescription) :
    OptionsBase :=
  { self with m_Description := self.m_Description ++ options }

/-- Reader `GetDefaultValue<T>(str)`; `decode` is the translator of `T`. -/
def GetDefaultValue {T : Type} (decode : String → Option T) (self : OptionsBase)
    (str : String) : Except Exn T :=
  match self.m_PtreeOfDefaultValues.getChildOptional str with
  | none => .error (.ptree .ptree_bad_path)
  | some c =>
    match decode c.data with
    | some v => .ok v
    | none => .error (.ptree .ptree_bad_data)

/-- Helper `Path(path)`. -/
def Path (self : OptionsBase) (path : String) : String :=
  self.m_NameOfGroup ++ "." ++ path

/-- What parsing, `po::store` and `po::notify` leave behind when they do not throw:
the stored variables and the value of the help switch. -/
structure CommandLine where
  vm : List (String × VmValue)
  help : Bool

/-- Whether `po::store` accepts an option the parser has read: the description has
it, and its text can be read as the option's type.  A switch takes no value; the
parser hands it over without text, which is written `true` here. -/
def storable (lexical : ValueType → String → Bool) (desc : List OptionDescription)
    (e : String × String) : Bool :=
  match desc.find? fun od => od.longName == e.1 with
  | some od => if od.isSwitch then e.2 == "true" else lexical od.type e.2
  | none => false

/-- Outcome of `po::store` and `po::notify` on the options the parser has read from
the command line, each with the text of its value (`true` for a switch that is
given).  `lexical` tells which texts `lexical_cast` reads as a type.  `none` stands
for a `po::error`: an option the description does not have, an option given twice,
or a value that cannot be read as the option's type.  Otherwise the variables hold
the values given, each with the type of its option, followed by the default of every
option that was not given and has one; the help switch is on when `help` was given.
The step before, which splits the argument strings into options and values, is not
modelled. -/
def store (lexical : ValueType → String → Bool) (desc : List OptionDescription)
    (parsed : List (String × String)) : Option CommandLine :=
  if (parsed.map Prod.fst).Nodup ∧ parsed.all (storable lexical desc) = true then
    some {
      vm := (parsed.filterMap fun e =>
          (desc.find? fun od => od.longName == e.1).map fun od =>
            (e.1, (⟨od.type, e.2⟩ : VmValue))) ++
        desc.filterMap fun od =>
          if (parsed.lookup od.longName).isSome then none
          else od.defaultText.map fun text => (od.longName, (⟨od.type, text⟩ : VmValue))
      help := (parsed.lookup "help").isSome }
  else none

/-- Member `ParseConfigFile()`.  `readIni` is the file system seen through
`read_ini`: `none` when it throws a `ptree_error`. -/
def ParseConfigFile (self : OptionsBase) (readIni : String → Option PTree) (fuel : Nat) :
    Run PtreeError (Bool × OptionsBase) :=
  match readIni self.m_Config with
  | none => .done (false, self)
  | some file =>
    let self1 := { self with m_ParsedPtree := file }
    if (self1.m_ParsedPtree.find self1.m_NameOfGroup).isNone then .done (false, self1)
    else
      (Run.ofExcept (self1.m_ParsedPtree.getChild self1.m_NameOfGroup)).bind fun group =>
      let self2 := { self1 with m_ParsedPtree := group }
      let ptree := mergeDefaults self2.m_PtreeOfDefaultValues self2.m_ParsedPtree
      let self3 := { self2 with m_ParsedPtree := ptree }
      (checkParsedTree fuel self3.m_PtreeOfRequired self3.m_ParsedPtree
          self3.m_NameOfGroup []).bind fun (_, list) =>
      if list.length > 0 then .done (false, self3)
      else .done (true, { self3 with m_Vm := [] })

/-- Member `ParseOptions(argc, argv)`.  `cmd` is the outcome of parsing, storing and
notifying the command line: `none` when a `po::error` is thrown. -/
def ParseOptions (self : OptionsBase) (cmd : Option CommandLine)
    (readIni : String → Option PTree) (fuel : Nat) : Run PtreeError (Bool × OptionsBase) :=
  match cmd with
  | none => .done (false, self)
  | some cl =>
    let self1 := { self with
      m_Vm := cl.vm
      m_Help := cl.help
      m_Config := ((cl.vm.lookup "config").map VmValue.text).getD self.m_Config }
    if self1.m_Help then .done (false, self1)
    else
      let self2 := { self1 with m_ConfigIsEnabled := (self1.m_Vm.lookup "config").isSome }
      if self2.m_ConfigIsEnabled then self2.ParseConfigFile readIni fuel
      else .done (true, self2)

/-- Index `path.find_last_of(c)`, `none` for `npos`. -/
def findLastOf (c : Char) : List Char → Option Nat
  | [] => none
  | x :: xs =>
    match findLastOf c xs with
    | some i => some (i + 1)
    | none => if x = c then some 0 else none

/-- Read `m_Vm[name].as<T>()`, an `any_cast` to exactly the type `T`, named by `ty`:
a name without stored value and a value stored with another type throw
`bad_any_cast`; a value stored with the type `T` is what `decode` reads from its
text. -/
def vmAs {T : Type} (ty : ValueType) (decode : String → Option T)
    (vm : List (String × VmValue)) (name : String) : Except Exn T :=
  match vm.lookup name with
  | none => .error .bad_any_cast
  | some stored =>
    if stored.type = ty then
      match decode stored.text with
      | some v => .ok v
      | none => .error .bad_any_cast
    else .error .bad_any_cast

/-- Accessor `Get<T>(path)`; `ty` names the type `T` and `decode` reads a value of
that type from a text (the translator of `T`). -/
def Get {T : Type} (ty : ValueType) (decode : String → Option T) (self : OptionsBase)
    (path : String) : Except Exn T :=
  if self.m_ConfigIsEnabled then
    match self.m_ParsedPtree.getChildOptional path with
    | none => .error (.ptree .ptree_bad_path)
    | some c =>
      match decode c.data with
      | some v => .ok v
      | none => .error (.ptree .ptree_bad_data)
  else
    match findLastOf '.' path.data with
    | some pos =>
      if pos < path.data.length then
        vmAs ty decode self.m_Vm (String.mk (path.data.drop (pos + 1)))
      else vmAs ty decode self.m_Vm path
    | none => vmAs ty decode self.m_Vm path

/-- Items that successive calls `std::getline(stream, item, dlm)` deliver until the
stream fails: the pieces between delimiters, without a last empty piece. -/
def getlineItems (dlm : Char) : List Char → List (List Char)
  | [] => []
  | c :: cs =>
    if c = dlm then [] :: getlineItems dlm cs
    else match getlineItems dlm cs with
      | [] => [[c]]
      | item :: items => (c :: item) :: items

/-- Body of the loop of `GetAsVector` over the items still to read. -/
def vectorLoop {T : Type} (stod : String → Except Exn T) :
    List (List Char) → List T → Except Exn (List T)
  | [], vector => .ok vector
  | item :: items, vector =>
    if item = [] then vectorLoop stod items vector
    else
      match stod (String.mk item) with
      | .ok v => vectorLoop stod items (vector ++ [v])
      | .error e => .error e

/-- Accessor `GetAsVector<T>(path)`; `stod` is `std::stod` followed by the conversion
to `T`. -/
def GetAsVector {T : Type} (stod : String → Except Exn T) (self : OptionsBase)
    (path : String) : Except Exn (List T) :=
  match self.Get .string some path with
  | .error e => .error e
  | .ok text => vectorLoop stod (getlineItems self.m_Dlm text.data) []

end OptionsBase

/-! ## `std::stod` -/

/-- White space in the sense of `isspace` in the C locale. -/
def isSpace (c : Char) : Bool :=
  c = ' ' || c = '\t' || c = '\n' || c = '\x0b' || c = '\x0c' || c = '\r'

/-- Start of a subject sequence `strtod` converts, sign already removed: a digit, a
point followed by a digit, or `inf` or `nan` in any case. -/
def numberStart : List Char → Bool
  | [] => false
  | c :: cs =>
    c.isDigit ||
    (c = '.' && (match cs with | d :: _ => d.isDigit | [] => false)) ||
    (match (c :: cs).map Char.toLower with
      | 'i' :: 'n' :: 'f' :: _ => true
      | 'n' :: 'a' :: 'n' :: _ => true
      | _ => false)

/-- Whether `std::stod` performs a conversion on the text: leading white space and
one sign are skipped, and a number must start there.  What follows the number is not
looked at. -/
def stodConverts (s : List Char) : Bool :=
  match s.dropWhile isSpace with
  | '+' :: cs => numberStart cs
  | '-' :: cs => numberStart cs
  | cs => numberStart cs

/-- Call `std::stod(item)` followed by the conversion to `T`: `invalid_argument` when
no conversion can be performed; otherwise the value `toDouble` gives for the text,
`out_of_range` when it gives none. -/
def stod {T : Type} (toDouble : String → Option T) (item : String) : Except Exn T :=
  if stodConverts item.data then
    match toDouble item with
    | some v => .ok v
    | none => .error .out_of_range
  else .error .invalid_argument

/-! ## Reference options -/

/-- State after the constructor `ReferenceOptions()`.  The default values are the
texts the translators write: `0` and `100` for the integers and for the double zero,
and the seventeen significant digits of the double nearest to `0.2`. -/
def ReferenceOptions : OptionsBase :=
  let self := ((((((((OptionsBase.init.SetNameOfGroup "REFERENCE").Put "input" "" true).Put
    "output" "" true).Put "report" "" true).Put "sigma" "0" false).Put
    "level" "0" false).Put "factor" "0.20000000000000001" false).Put
    "iterations" "100" false).Put "points" "0" false
  let mandatoryOptions : List OptionDescription :=
    [⟨"input", some 'i', .string, none, false⟩, ⟨"output", some 'o', .string, none, false⟩]
  let inputOptions : List OptionDescription :=
    [⟨"sigma", none, .double, (self.GetDefaultValue some "sigma").toOption, false⟩,
     ⟨"level", none, .double, (self.GetDefaultValue some "level").toOption, false⟩,
     ⟨"factor", none, .double, (self.GetDefaultValue some "factor").toOption, false⟩,
     ⟨"iterations", none, .size_t, (self.GetDefaultValue some "iterations").toOption, false⟩,
     ⟨"points", none, .size_t, (self.GetDefaultValue some "points").toOption, false⟩]
  let reportOptions : List OptionDescription := [⟨"report", some 'r', .string, none, false⟩]
  ((self.AddToDescription mandatoryOptions).AddToDescription inputOptions).AddToDescription
    reportOptions

/-- State after a sequence of calls `Put(path, value, required)` on `base`. -/
def registry (base : OptionsBase) (puts : List (String × String × Bool)) : OptionsBase :=
  puts.foldl (fun o x => o.Put x.1 x.2.1 x.2.2) base

/-- Text in which the tokens are joined by the delimiter: every token but the last is
followed by one delimiter and `n` more, the last token by `n` delimiters. -/
def joinTokens (dlm : Char) : List (List Char × Nat) → List Char
  | [] => []
  | [(t, n)] => t ++ List.replicate n dlm
  | (t, n) :: rest => t ++ List.replicate (n + 1) dlm ++ joinTokens dlm rest

/-- Keys that are single names: non-empty and free of the path separator. -/
def SimpleKeys (cs : List (String × PTree)) : Prop :=
  ∀ e ∈ cs, e.1 ≠ "" ∧ '.' ∉ e.1.data

instance (cs : List (String × PTree)) : Decidable (SimpleKeys cs) := by
  unfold SimpleKeys; infer_instance

/-- Effect of a put under a single name on the list of children: the data of the
first child of that name is replaced, or a new leaf goes to the back. -/
def upsert (k v : String) (cs : List (String × PTree)) : List (String × PTree) :=
  match cs.lookup k with
  | some _ => PTree.modifyFirst k (PTree.setData [] v) cs
  | none => cs ++ [(k, PTree.leaf v)]

/-- Key and children of an entry, the data left out. -/
def strip (e : String × PTree) : String × List (String × PTree) :=
  (e.1, e.2.children)

/-- A file tree with a `REFERENCE` section that holds `input`, `output` and
`report`. -/
def completeIni : PTree :=
  .node "" [("REFERENCE", .node "" [("input", .leaf "a.img"), ("output", .leaf "b.vtk"),
    ("report", .leaf "r.txt")])]

/-- State of `ReferenceOptions` after a successful `ParseOptions` on
`--config ref.ini` with the file `completeIni`. -/
def referenceConfigured : OptionsBase :=
  { ReferenceOptions with
    m_Vm := []
    m_Config := "ref.ini"
    m_ConfigIsEnabled := true
    m_ParsedPtree := mergeDefaults ReferenceOptions.m_PtreeOfDefaultValues
      (.node "" [("input", .leaf "a.img"), ("output", .leaf "b.vtk"),
        ("report", .leaf "r.txt")]) }

/-- What storing the options of `--input a.img --output b.vtk` against the description
of `ReferenceOptions` leaves: the two values given and the defaults. -/
def referenceCommandLine : OptionsBase.CommandLine :=
  ⟨[("input", ⟨.string, "a.img"⟩), ("output", ⟨.string, "b.vtk"⟩), ("help", ⟨.bool, "false"⟩),
    ("sigma", ⟨.double, "0"⟩), ("level", ⟨.double, "0"⟩),
    ("factor", ⟨.double, "0.20000000000000001"⟩), ("iterations", ⟨.size_t, "100"⟩),
    ("points", ⟨.size_t, "0"⟩)], false⟩

/-- State of `ReferenceOptions` after `ParseOptions` on `--input a.img --output b.vtk`. -/
def referenceParsed : OptionsBase :=
  { ReferenceOptions with m_Vm := referenceCommandLine.vm }

/-- A dotted path in the sense of the glossary: names separated by single separators,
no name empty. -/
def WellFormedPath (path : String) : Prop :=
  ∀ f ∈ PTree.forcedFragments path, f ≠ ""

instance (path : String) : Decidable (WellFormedPath path) := by
  unfold WellFormedPath; infer_instance

/-- Trees in which every key, at every depth, is a single name. -/
inductive SimpleTree : PTree → Prop where
  | mk (d : String) (cs : List (String × PTree)) :
      SimpleKeys cs → (∀ e ∈ cs, SimpleTree e.2) → SimpleTree (.node d cs)

/-- The shape invariant of a configuration tree: no node, at any depth, has both a
payload and children. -/
inductive ShapeOk : PTree → Prop where
  | mk (d : String) (cs : List (String × PTree)) :
      (d = "" ∨ cs = []) → (∀ e ∈ cs, ShapeOk e.2) → ShapeOk (.node d cs)

/-- A put along fragments: `ptree::put` for a path whose pieces are these fragments
and which does not end at a separator. -/
def putFrags (frs : List String) (v : String) (t : PTree) : PTree :=
  match PTree.walk frs t with
  | some _ => PTree.setData frs v t
  | none => PTree.putChild frs (PTree.leaf v) t

/-- What the two trees of a registry have in common: every node of the
required-schema tree holds no text, `true`, or `false`, and where it holds `false`
the default-value tree has a node at the same place. -/
def RegistryInv (o : OptionsBase) : Prop :=
  ∀ gs d, (PTree.walk gs o.m_PtreeOfRequired).map PTree.data = some d →
    d = "" ∨ d = "true" ∨
      (d = "false" ∧ (PTree.walk gs o.m_PtreeOfDefaultValues).isSome = true)

/-- A leaf of the required-schema tree that `get<bool>` reads as false. -/
def FalseLeaf (c : PTree) : Prop :=
  c.children = [] ∧ (c.data = "false" ∨ c.data = "0")

/-- Payload found at the end of a fragment walk, if the walk succeeds. -/
def dataAt (fs : List String) (t : PTree) : Option String :=
  (PTree.walk fs t).map PTree.data

/-- The object after `ParseConfigFile()` has run, whichever way the call ended: with a
result, with an exception that leaves it, or without end.  The members hold what had
been assigned when the call stopped. -/
def OptionsBase.ParseConfigFileState (self : OptionsBase) (readIni : String → Option PTree)
    (fuel : Nat) : OptionsBase :=
  match readIni self.m_Config with
  | none => self
  | some file =>
    let self1 := { self with m_ParsedPtree := file }
    if (self1.m_ParsedPtree.find self1.m_NameOfGroup).isNone then self1
    else
      match self1.m_ParsedPtree.getChild self1.m_NameOfGroup with
      | .error _ => self1
      | .ok group =>
        let self2 := { self1 with m_ParsedPtree := group }
        let ptree := mergeDefaults self2.m_PtreeOfDefaultValues self2.m_ParsedPtree
        let self3 := { self2 with m_ParsedPtree := ptree }
        match checkParsedTree fuel self3.m_PtreeOfRequired self3.m_ParsedPtree
            self3.m_NameOfGroup [] with
        | .done (_, list) => if list.length > 0 then self3 else { self3 with m_Vm := [] }
        | .raised _ => self3
        | .outOfFuel => self3

/-- The object after `ParseOptions(argc, argv)` has run, whichever way the call ended. -/
def OptionsBase.ParseOptionsState (self : OptionsBase) (cmd : Option OptionsBase.CommandLine)
    (readIni : String → Option PTree) (fuel : Nat) : OptionsBase :=
  match cmd with
  | none => self
  | some cl =>
    let self1 := { self with
      m_Vm := cl.vm
      m_Help := cl.help
      m_Config := ((cl.vm.lookup "config").map VmValue.text).getD self.m_Config }
    if self1.m_Help then self1
    else
      let self2 := { self1 with m_ConfigIsEnabled := (self1.m_Vm.lookup "config").isSome }
      if self2.m_ConfigIsEnabled then self2.ParseConfigFileState readIni fuel
      else self2

/-- A key or path whose last character is the path separator. -/
def EndsAtSeparator (k : String) : Prop :=
  k.data.getLast? = some '.'

instance (k : String) : Decidable (EndsAtSeparator k) := by
  unfold EndsAtSeparator; infer_instance

/-- Payload at the fragments `gs` after a put of `v` along the fragments `frs`, given
the payload there before: the value put when the two coincide; otherwise what was
there, and the empty payload of a parent that the put creates on its way. -/
def putAt (gs frs : List String) (v : String) (old : Option String) : Option String :=
  if gs = frs then some v
  else
    match old with
    | some x => some x
    | none => if gs <+: frs then some "" else none

/-- What the translator of `size_t` reads from a text of decimal digits: the number
they denote, when it fits 64 bits.  A sign and white space around the digits are not
modelled. -/
def readSize (text : String) : Option Nat :=
  if text.data ≠ [] ∧ text.data.all Char.isDigit = true then
    let n := text.data.foldl (fun acc c => 10 * acc + (c.toNat - '0'.toNat)) 0
    if n < 2 ^ 64 then some n else none
  else none

open PTree

/-! ## Lemmas on paths and single-name puts -/

namespace PTree

@[simp] theorem data_node (d : String) (cs : List (String × PTree)) :
    (node d cs).data = d := rfl

@[simp] theorem children_node (d : String) (cs : List (String × PTree)) :
    (node d cs).children = cs := rfl

@[simp] theorem find_node (d : String) (cs : List (String × PTree)) (k : String) :
    (node d cs).find k = List.lookup k cs := rfl

theorem splitAll_ne_nil (cs : List Char) : splitAll cs ≠ [] := by
  cases cs with
  | nil => simp [splitAll]
  | cons c cs =>
    simp only [splitAll]
    split
    · simp
    · split <;> simp

theorem splitAll_of_no_dot (cs : List Char) (h : '.' ∉ cs) : splitAll cs = [cs] := by
  induction cs with
  | nil => rfl
  | cons c cs ih =>
    have hc : c ≠ '.' := fun e => h (by simp [e])
    have hcs : '.' ∉ cs := fun e => h (by simp [e])
    simp [splitAll, hc, ih hcs]

theorem forcedFragments_simple (k : String) (hdot : '.' ∉ k.data) :
    forcedFragments k = [k] := by
  simp [forcedFragments, splitAll_of_no_dot _ hdot]

theorem fragments_simple (k : String) (hne : k ≠ "") (hdot : '.' ∉ k.data) :
    fragments k = [k] := by
  have h : (splitAll k.data).map String.mk = [k] := by
    simp [splitAll_of_no_dot _ hdot]
  simp only [fragments, h]
  simp [hne]

theorem lookup_modifyFirst (k k' : String) (f : PTree → PTree)
    (cs : List (String × PTree)) :
    List.lookup k' (modifyFirst k f cs) =
      if k' = k then (List.lookup k cs).map f else List.lookup k' cs := by
  induction cs with
  | nil => simp [modifyFirst]
  | cons e cs ih =>
    obtain ⟨a, c⟩ := e
    by_cases hak : a = k
    · subst hak
      by_cases hk : k' = a
      · subst hk; simp [modifyFirst, List.lookup]
      · have : (k' == a) = false := by simpa using hk
        simp [modifyFirst, List.lookup, this, hk]
    · have h1 : (a == k) = false := by simpa using hak
      have h2 : (k == a) = false := by simpa using fun e : k = a => hak e.symm
      by_cases hk : k' = k
      · subst hk
        simp [modifyFirst, h1, List.lookup, h2, ih]
      · simp only [modifyFirst, h1, List.lookup, ih, hk]
        simp

theorem lookup_append_single (k k' : String) (x : PTree) (cs : List (String × PTree)) :
    List.lookup k' (cs ++ [(k, x)]) =
      match List.lookup k' cs with
      | some c => some c
      | none => if k' = k then some x else none := by
  induction cs with
  | nil =>
    by_cases hk : k' = k
    · subst hk; simp [List.lookup]
    · have : (k' == k) = false := by simpa using hk
      simp [List.lookup, this, hk]
  | cons e cs ih =>
    obtain ⟨a, c⟩ := e
    by_cases hk : k' = a
    · subst hk; simp [List.lookup]
    · have : (k' == a) = false := by simpa using hk
      simp [List.lookup, this, ih]

/-- A put under a single name touches the first child of that name, or pushes a new
leaf at the back. -/
theorem put_simple (t : PTree) (k v : String) (hne : k ≠ "") (hdot : '.' ∉ k.data) :
    t.put k v =
      match t.find k with
      | some _ => node t.data (modifyFirst k (setData [] v) t.children)
      | none => node t.data (t.children ++ [(k, leaf v)]) := by
  obtain ⟨d, cs⟩ := t
  simp only [put, getChildOptional, fragments_simple k hne hdot,
    forcedFragments_simple k hdot, walk, find_node, children_node, data_node]
  cases h : List.lookup k cs with
  | none => simp [putChild, h]
  | some c => simp [setData]

theorem walk_node_data (d d' : String) (cs : List (String × PTree)) (f : String)
    (fs : List String) : walk (f :: fs) (node d cs) = walk (f :: fs) (node d' cs) := by
  simp [walk]

theorem setData_nil (v : String) (c : PTree) : setData [] v c = node v c.children := by
  cases c; rfl

end PTree

/-- Reading the name just put gives the value put. -/
theorem dataAt_put_same (t : PTree) (k v : String) (hne : k ≠ "") (hdot : '.' ∉ k.data) :
    dataAt [k] (t.put k v) = some v := by
  rw [put_simple t k v hne hdot]
  obtain ⟨d, cs⟩ := t
  simp only [find_node, data_node, children_node]
  cases h : List.lookup k cs with
  | none => simp [dataAt, walk, lookup_append_single, h, leaf]
  | some c => simp [dataAt, walk, lookup_modifyFirst, h, setData_nil]

/-- A put under a single name leaves the payload at every other path as it was. -/
theorem dataAt_put_other (t : PTree) (k v : String) (hne : k ≠ "") (hdot : '.' ∉ k.data)
    (fs : List String) (hfs : fs ≠ [k]) : dataAt fs (t.put k v) = dataAt fs t := by
  rw [put_simple t k v hne hdot]
  obtain ⟨d, cs⟩ := t
  simp only [find_node, data_node, children_node]
  cases fs with
  | nil => cases h : List.lookup k cs <;> simp [dataAt, walk]
  | cons f fs =>
    cases h : List.lookup k cs with
    | none =>
      simp only [dataAt, walk, find_node, lookup_append_single]
      cases h' : List.lookup f cs with
      | some c => simp
      | none =>
        by_cases hf : f = k
        · subst hf
          cases fs with
          | nil => exact absurd rfl hfs
          | cons g gs => simp [leaf, walk]
        · simp [hf]
    | some c =>
      simp only [dataAt, walk, find_node, lookup_modifyFirst]
      by_cases hf : f = k
      · subst hf
        cases fs with
        | nil => exact absurd rfl hfs
        | cons g gs =>
          simp only [h, if_true, Option.map_some']
          rw [setData_nil]
          obtain ⟨dc, cc⟩ := c
          simp [walk]
      · simp [hf]

/-! ## The overlay loop -/

theorem dataAt_foldl_put_other (es : List (String × PTree))
    (hk : ∀ e ∈ es, e.1 ≠ "" ∧ '.' ∉ e.1.data) (fs : List String)
    (hfs : ∀ e ∈ es, fs ≠ [e.1]) (d : PTree) :
    dataAt fs (es.foldl (fun acc it => acc.put it.1 it.2.data) d) = dataAt fs d := by
  induction es generalizing d with
  | nil => rfl
  | cons e es ih =>
    simp only [List.foldl_cons]
    rw [ih (fun x hx => hk x (List.mem_cons_of_mem _ hx))
      (fun x hx => hfs x (List.mem_cons_of_mem _ hx))]
    exact dataAt_put_other d e.1 e.2.data (hk e (List.mem_cons_self _ _)).1
      (hk e (List.mem_cons_self _ _)).2 fs (hfs e (List.mem_cons_self _ _))

theorem dataAt_foldl_put_mem (es : List (String × PTree))
    (hk : ∀ e ∈ es, e.1 ≠ "" ∧ '.' ∉ e.1.data) (hnd : (es.map Prod.fst).Nodup)
    (k : String) (c : PTree) (hmem : (k, c) ∈ es) (d : PTree) :
    dataAt [k] (es.foldl (fun acc it => acc.put it.1 it.2.data) d) = some c.data := by
  induction es generalizing d with
  | nil => cases hmem
  | cons e es ih =>
    simp only [List.foldl_cons]
    have hk' : ∀ x ∈ es, x.1 ≠ "" ∧ '.' ∉ x.1.data :=
      fun x hx => hk x (List.mem_cons_of_mem _ hx)
    simp only [List.map_cons, List.nodup_cons] at hnd
    rcases List.mem_cons.mp hmem with heq | hin
    · subst heq
      rw [dataAt_foldl_put_other es hk' [k]]
      · exact dataAt_put_same d k c.data (hk _ (List.mem_cons_self _ _)).1
          (hk _ (List.mem_cons_self _ _)).2
      · intro x hx hxe
        have hxk : x.1 = k := by simpa using hxe.symm
        have hm : x.1 ∈ es.map Prod.fst := List.mem_map_of_mem Prod.fst hx
        rw [hxk] at hm
        exact hnd.1 hm
    · exact ih hk' hnd.2 hin _

theorem mem_of_lookup {k : String} {c : PTree} {cs : List (String × PTree)}
    (h : List.lookup k cs = some c) : (k, c) ∈ cs := by
  induction cs with
  | nil => simp [List.lookup] at h
  | cons e cs ih =>
    obtain ⟨a, x⟩ := e
    by_cases hk : k = a
    · subst hk
      simp [List.lookup] at h
      simp [h]
    · have : (k == a) = false := by simpa using hk
      simp only [List.lookup, this] at h
      exact List.mem_cons_of_mem _ (ih h)

theorem lookup_isSome_of_mem {k : String} {c : PTree} {cs : List (String × PTree)}
    (h : (k, c) ∈ cs) : ∃ x, List.lookup k cs = some x := by
  induction cs with
  | nil => cases h
  | cons e cs ih =>
    obtain ⟨a, x⟩ := e
    by_cases hk : k = a
    · subst hk; exact ⟨x, by simp [List.lookup]⟩
    · have hb : (k == a) = false := by simpa using hk
      rcases List.mem_cons.mp h with heq | hin
      · exact absurd (congrArg Prod.fst heq) hk
      · obtain ⟨y, hy⟩ := ih hin
        exact ⟨y, by simp [List.lookup, hb, hy]⟩

/-- In a tree whose children are all leaves, a successful walk along a non-empty
path is a single step to a child. -/
theorem walk_flat {p : PTree} (hflat : ∀ e ∈ p.children, e.2.empty = true)
    {fs : List String} {c : PTree} (hne : fs ≠ []) (h : walk fs p = some c) :
    ∃ k, fs = [k] ∧ (k, c) ∈ p.children := by
  obtain ⟨d, cs⟩ := p
  cases fs with
  | nil => exact absurd rfl hne
  | cons f fs =>
    simp only [walk, find_node] at h
    cases hl : List.lookup f cs with
    | none => simp [hl] at h
    | some x =>
      simp only [hl] at h
      have hx := mem_of_lookup hl
      cases fs with
      | nil =>
        simp only [walk, Option.some.injEq] at h
        subst h
        exact ⟨f, rfl, hx⟩
      | cons g gs =>
        have hxe := hflat _ hx
        obtain ⟨dx, cx⟩ := x
        simp only [PTree.empty, children_node, List.isEmpty_iff] at hxe
        subst hxe
        simp [walk, List.lookup] at h

/-! ## C2: idempotence of the overlay -/

theorem put_eq_upsert (t : PTree) (k v : String) (hne : k ≠ "") (hdot : '.' ∉ k.data) :
    t.put k v = node t.data (upsert k v t.children) := by
  rw [put_simple t k v hne hdot]
  obtain ⟨d, cs⟩ := t
  simp only [find_node, data_node, children_node, upsert]
  cases List.lookup k cs <;> rfl

theorem foldl_put_eq_upsert (es : List (String × PTree)) (hk : SimpleKeys es) (t : PTree) :
    es.foldl (fun acc it => acc.put it.1 it.2.data) t =
      node t.data (es.foldl (fun acc it => upsert it.1 it.2.data acc) t.children) := by
  induction es generalizing t with
  | nil => cases t; rfl
  | cons e es ih =>
    simp only [List.foldl_cons]
    rw [ih (fun x hx => hk x (List.mem_cons_of_mem _ hx)),
      put_eq_upsert t e.1 e.2.data (hk e (List.mem_cons_self _ _)).1
        (hk e (List.mem_cons_self _ _)).2]
    simp

theorem lookup_eq_none_of_not_mem {k : String} {cs : List (String × PTree)}
    (h : k ∉ cs.map Prod.fst) : List.lookup k cs = none := by
  induction cs with
  | nil => rfl
  | cons e cs ih =>
    obtain ⟨a, x⟩ := e
    simp only [List.map_cons, List.mem_cons, not_or] at h
    have hb : (k == a) = false := by simpa using h.1
    simp [List.lookup, hb, ih h.2]

theorem not_mem_of_lookup_eq_none {k : String} {cs : List (String × PTree)}
    (h : List.lookup k cs = none) : k ∉ cs.map Prod.fst := by
  intro hmem
  obtain ⟨e, he, hek⟩ := List.mem_map.mp hmem
  obtain ⟨x, hx⟩ := lookup_isSome_of_mem (k := e.1) (c := e.2) he
  rw [hek, h] at hx
  cases hx

theorem keys_modifyFirst (k : String) (f : PTree → PTree) (cs : List (String × PTree)) :
    (modifyFirst k f cs).map Prod.fst = cs.map Prod.fst := by
  induction cs with
  | nil => rfl
  | cons e cs ih =>
    obtain ⟨a, x⟩ := e
    by_cases h : (a == k) = true
    · simp [modifyFirst, h]
    · simp [modifyFirst, h, ih]

theorem strip_modifyFirst_setData (k v : String) (cs : List (String × PTree)) :
    (modifyFirst k (setData [] v) cs).map strip = cs.map strip := by
  induction cs with
  | nil => rfl
  | cons e cs ih =>
    obtain ⟨a, x⟩ := e
    by_cases h : (a == k) = true
    · simp [modifyFirst, h, strip, setData_nil]
    · simp [modifyFirst, h, ih]

theorem upsert_hit (k v : String) (pre post : List (String × PTree)) (c : PTree)
    (hpre : k ∉ pre.map Prod.fst) :
    upsert k v (pre ++ (k, c) :: post) = pre ++ (k, node v c.children) :: post := by
  have hl : List.lookup k (pre ++ (k, c) :: post) = some c := by
    induction pre with
    | nil => simp [List.lookup]
    | cons e pre ih =>
      obtain ⟨a, x⟩ := e
      simp only [List.map_cons, List.mem_cons, not_or] at hpre
      have hb : (k == a) = false := by simpa using hpre.1
      simp [List.lookup, hb, ih hpre.2]
  simp only [upsert, hl]
  clear hl
  induction pre with
  | nil => simp [modifyFirst, setData_nil]
  | cons e pre ih =>
    obtain ⟨a, x⟩ := e
    simp only [List.map_cons, List.mem_cons, not_or] at hpre
    have hb : (a == k) = false := by simpa using fun h : a = k => hpre.1 h.symm
    simp [modifyFirst, hb, ih hpre.2]

theorem upsert_miss (k v : String) (cs : List (String × PTree))
    (h : k ∉ cs.map Prod.fst) : upsert k v cs = cs ++ [(k, PTree.leaf v)] := by
  simp [upsert, lookup_eq_none_of_not_mem h]

/-- Putting the entries of a list of leaves with fresh, distinct keys appends them. -/
theorem foldl_upsert_leaves (cs2 : List (String × PTree)) (acc : List (String × PTree))
    (hleaf : ∀ e ∈ cs2, e.2.children = [])
    (hnd : ((acc ++ cs2).map Prod.fst).Nodup) :
    cs2.foldl (fun a it => upsert it.1 it.2.data a) acc = acc ++ cs2 := by
  induction cs2 generalizing acc with
  | nil => simp
  | cons e cs2 ih =>
    obtain ⟨k, c⟩ := e
    obtain ⟨dc, cc⟩ := c
    have hcc : cc = [] := hleaf (k, node dc cc) (List.mem_cons_self _ _)
    subst hcc
    simp only [List.foldl_cons, data_node]
    have hk : k ∉ acc.map Prod.fst := by
      intro hmem
      simp only [List.map_append, List.map_cons] at hnd
      have := (List.nodup_append.mp hnd).2.2
      exact this hmem (List.mem_cons_self _ _)
    rw [upsert_miss k dc acc hk]
    have hnd' : (((acc ++ [(k, leaf dc)]) ++ cs2).map Prod.fst).Nodup := by
      simpa [List.append_assoc] using hnd
    rw [ih (acc ++ [(k, leaf dc)]) (fun x hx => hleaf x (List.mem_cons_of_mem _ hx)) hnd']
    simp [leaf]

/-- Putting back the entries of a list that has the keys and grandchildren of `cs0`
in front, followed by leaves, rebuilds that list. -/
theorem foldl_upsert_rebuild (cs0 : List (String × PTree)) :
    ∀ (pre acc : List (String × PTree)) (tail : List (String × List (String × PTree))),
      acc.map strip = cs0.map strip ++ tail → (∀ x ∈ tail, x.2 = []) →
      ((pre ++ acc).map Prod.fst).Nodup →
      acc.foldl (fun a it => upsert it.1 it.2.data a) (pre ++ cs0) = pre ++ acc := by
  induction cs0 with
  | nil =>
    intro pre acc tail hmap htail hnd
    simp only [List.map_nil, List.nil_append] at hmap
    simp only [List.append_nil]
    apply foldl_upsert_leaves acc pre _ hnd
    intro e he
    have : strip e ∈ tail := hmap ▸ List.mem_map_of_mem strip he
    exact htail _ this
  | cons a as ih =>
    intro pre acc tail hmap htail hnd
    cases acc with
    | nil => simp at hmap
    | cons b bs =>
      simp only [List.map_cons, List.cons_append, List.cons.injEq] at hmap
      obtain ⟨hab, hrest⟩ := hmap
      obtain ⟨ka, ca⟩ := a
      obtain ⟨kb, cb⟩ := b
      simp only [strip, Prod.mk.injEq] at hab
      obtain ⟨hk, hc⟩ := hab
      subst hk
      have hpre : kb ∉ pre.map Prod.fst := by
        intro hmem
        simp only [List.map_append, List.map_cons] at hnd
        exact (List.nodup_append.mp hnd).2.2 hmem (List.mem_cons_self _ _)
      simp only [List.foldl_cons]
      rw [upsert_hit kb cb.data pre as ca hpre]
      have hb : (kb, node cb.data ca.children) = (kb, cb) := by
        obtain ⟨d, c⟩ := cb
        simp only [children_node] at hc
        simp [hc]
      rw [hb]
      have := ih (pre ++ [(kb, cb)]) bs tail hrest htail (by simpa [List.append_assoc] using hnd)
      simpa [List.append_assoc] using this

/-- The children the overlay builds keep the keys and grandchildren of the defaults in
front, add only leaves behind them, and have distinct keys. -/
theorem foldl_upsert_shape (es : List (String × PTree)) (cs0 acc : List (String × PTree)) :
    (∃ tail, acc.map strip = cs0.map strip ++ tail ∧ ∀ x ∈ tail, x.2 = []) →
    (acc.map Prod.fst).Nodup →
    (∃ tail, (es.foldl (fun a it => upsert it.1 it.2.data a) acc).map strip =
        cs0.map strip ++ tail ∧ ∀ x ∈ tail, x.2 = []) ∧
    ((es.foldl (fun a it => upsert it.1 it.2.data a) acc).map Prod.fst).Nodup := by
  induction es generalizing acc with
  | nil => intro h hnd; exact ⟨h, hnd⟩
  | cons e es ih =>
    intro h hnd
    simp only [List.foldl_cons]
    apply ih
    · obtain ⟨tail, ht, hleaf⟩ := h
      cases hl : List.lookup e.1 acc with
      | some c =>
        refine ⟨tail, ?_, hleaf⟩
        simp only [upsert, hl, strip_modifyFirst_setData, ht]
      | none =>
        refine ⟨tail ++ [(e.1, [])], ?_, ?_⟩
        · simp [upsert, hl, ht, strip, leaf]
        · intro x hx
          rcases List.mem_append.mp hx with h1 | h1
          · exact hleaf x h1
          · simp at h1; simp [h1]
    · cases hl : List.lookup e.1 acc with
      | some c => simp only [upsert, hl, keys_modifyFirst]; exact hnd
      | none =>
        simp only [upsert, hl, List.map_append, List.map_cons, List.map_nil]
        have := not_mem_of_lookup_eq_none hl
        exact List.nodup_append.mpr ⟨hnd, by simp, by
          intro a ha hb
          simp at hb
          exact this (hb ▸ ha)⟩

theorem simpleKeys_upsert (k v : String) (cs : List (String × PTree))
    (hk : k ≠ "" ∧ '.' ∉ k.data) (hcs : SimpleKeys cs) : SimpleKeys (upsert k v cs) := by
  have key : ∀ e ∈ upsert k v cs, e.1 ∈ cs.map Prod.fst ∨ e.1 = k := by
    intro e he
    cases hl : List.lookup k cs with
    | some c =>
      simp only [upsert, hl] at he
      left
      rw [← keys_modifyFirst k (PTree.setData [] v) cs]
      exact List.mem_map_of_mem Prod.fst he
    | none =>
      simp only [upsert, hl] at he
      rcases List.mem_append.mp he with h1 | h1
      · left; exact List.mem_map_of_mem Prod.fst h1
      · right; simp at h1; simp [h1]
  intro e he
  rcases key e he with h | h
  · obtain ⟨x, hx, hxe⟩ := List.mem_map.mp h
    rw [← hxe]
    exact hcs x hx
  · rw [h]; exact hk

theorem simpleKeys_foldl_upsert (es acc : List (String × PTree))
    (hes : SimpleKeys es) (hacc : SimpleKeys acc) :
    SimpleKeys (es.foldl (fun a it => upsert it.1 it.2.data a) acc) := by
  induction es generalizing acc with
  | nil => exact hacc
  | cons e es ih =>
    simp only [List.foldl_cons]
    exact ih _ (fun x hx => hes x (List.mem_cons_of_mem _ hx))
      (simpleKeys_upsert e.1 e.2.data acc (hes e (List.mem_cons_self _ _)) hacc)

/-- C2 fails as stated: with no defaults and a section that holds the key `a.b`, which
`read_ini` delivers as it is written, the first overlay stores the text at the path
`a.b`, below a new node `a`; the second overlay visits `a`, puts its empty payload,
and the path `a.b` is gone. -/
theorem mergeDefaults_not_idempotent :
    (mergeDefaults (node "" []) (node "" [("a.b", leaf "1")])).getString "a.b" = .ok "1" ∧
    (mergeDefaults (node "" [])
        (mergeDefaults (node "" []) (node "" [("a.b", leaf "1")]))).getString "a.b" =
      .error .ptree_bad_path ∧
    mergeDefaults (node "" [])
        (mergeDefaults (node "" []) (node "" [("a.b", leaf "1")])) ≠
      mergeDefaults (node "" []) (node "" [("a.b", leaf "1")]) := by
  refine ⟨by decide, by decide, ?_⟩
  intro h
  have h1 := congrArg (fun t => t.getString "a.b") h
  revert h1
  decide

/-- C2, amended. Merge idempotence: overlaying the merged tree onto the defaults again
gives the merged tree, `Merge(d, Merge(d, p)) = Merge(d, p)`, for every default tree
whose top-level keys are distinct single names and every parsed tree whose keys are
single names, that is, not empty and without the path separator. -/
theorem mergeDefaults_idempotent (d p : PTree) (hd : SimpleKeys d.children)
    (hnd : (d.children.map Prod.fst).Nodup) (hp : SimpleKeys p.children) :
    mergeDefaults d (mergeDefaults d p) = mergeDefaults d p := by
  have hM : mergeDefaults d p =
      node d.data (p.children.foldl (fun a it => upsert it.1 it.2.data a) d.children) :=
    foldl_put_eq_upsert p.children hp d
  have hshape := foldl_upsert_shape p.children d.children d.children
    ⟨[], by simp, by simp⟩ hnd
  obtain ⟨⟨tail, ht, hleaf⟩, hndM⟩ := hshape
  have hsM := simpleKeys_foldl_upsert p.children d.children hp hd
  rw [hM]
  generalize p.children.foldl (fun a it => upsert it.1 it.2.data a) d.children = L at *
  have h2 : mergeDefaults d (node d.data L) =
      node d.data (L.foldl (fun a it => upsert it.1 it.2.data a) d.children) :=
    foldl_put_eq_upsert L hsM d
  rw [h2]
  have h3 := foldl_upsert_rebuild d.children [] L tail ht hleaf (by simpa using hndM)
  simp only [List.nil_append] at h3
  rw [h3]

/-- C2, amended, at a concrete pair: defaults `sigma`, `level`; file `output`,
`sigma`. -/
theorem mergeDefaults_idempotent_witness :
    SimpleKeys [("sigma", leaf "0"), ("level", leaf "0")] ∧
    mergeDefaults (node "" [("sigma", leaf "0"), ("level", leaf "0")])
        (mergeDefaults (node "" [("sigma", leaf "0"), ("level", leaf "0")])
          (node "" [("output", leaf "b.vtk"), ("sigma", leaf "2")])) =
      mergeDefaults (node "" [("sigma", leaf "0"), ("level", leaf "0")])
        (node "" [("output", leaf "b.vtk"), ("sigma", leaf "2")]) :=
  ⟨by decide,
   mergeDefaults_idempotent (node "" [("sigma", leaf "0"), ("level", leaf "0")])
     (node "" [("output", leaf "b.vtk"), ("sigma", leaf "2")])
     (by decide) (by decide) (by decide)⟩

/-! ## C3, C4: the required-key walk on a nested group the file lacks -/

/-- C3. Validation completeness fails on the code: with the schema `a.b` required and a
merged tree without the branch `a`, the walk does not report the missing key; it
leaves `checkParsedTree` with `ptree_bad_path`, thrown by `parsedPtree.get_child`,
whatever the recursion depth allowed. -/
theorem checkParsedTree_missing_branch_raises (fuel : Nat) :
    checkParsedTree (fuel + 1) (node "" [("a", node "" [("b", leaf "true")])])
      (node "" []) "G" [] = .raised .ptree_bad_path := by
  rfl

/-- C4. The list of all missing keys is not produced on the code: with `x`, `g.y` and
`z` required and an empty merged tree, the walk appends `x`, then throws
`ptree_bad_path` at the group `g`; `g.y` and `z` are never appended and no list is
returned. -/
theorem checkParsedTree_list_lost_at_group (fuel : Nat) :
    checkParsedTree (fuel + 1)
      (node "" [("x", leaf "true"), ("g", node "" [("y", leaf "true")]), ("z", leaf "true")])
      (node "" []) "G" [] = .raised .ptree_bad_path := by
  rfl

/-! ## C5: the file that lacks `input` -/

/-- C5. Scenario of a `REFERENCE` section holding only `output = b.vtk`:
`ParseConfigFile` returns false, and the list it computes holds `REFERENCE.input` and
also `REFERENCE.report`, since the constructor registers `report` without a
`required` argument. -/
theorem ReferenceOptions_only_output_missing_keys :
    (∀ fuel : Nat, checkParsedTree (fuel + 1) ReferenceOptions.m_PtreeOfRequired
        (mergeDefaults ReferenceOptions.m_PtreeOfDefaultValues
          (node "" [("output", leaf "b.vtk")]))
        "REFERENCE" [] = .done ("REFERENCE", ["REFERENCE.input", "REFERENCE.report"])) ∧
    (∀ fuel : Nat, ∃ s, (ReferenceOptions.SetConfigFileName "ref.ini").ParseConfigFile
        (fun _ => some (node "" [("REFERENCE", node "" [("output", leaf "b.vtk")])]))
        (fuel + 1) = .done (false, s)) :=
  ⟨fun _ => rfl, fun _ => ⟨_, rfl⟩⟩

/-! ## C6: vector round trip -/

namespace OptionsBase

theorem getlineItems_token_dlm (dlm : Char) (t rest : List Char) (ht : dlm ∉ t) :
    getlineItems dlm (t ++ dlm :: rest) = t :: getlineItems dlm rest := by
  induction t with
  | nil => simp [getlineItems]
  | cons c t ih =>
    have hc : c ≠ dlm := fun e => ht (by simp [e])
    have ht' : dlm ∉ t := fun e => ht (by simp [e])
    simp [getlineItems, hc, ih ht']

theorem getlineItems_token (dlm : Char) (t : List Char) (hne : t ≠ []) (ht : dlm ∉ t) :
    getlineItems dlm t = [t] := by
  induction t with
  | nil => exact absurd rfl hne
  | cons c t ih =>
    have hc : c ≠ dlm := fun e => ht (by simp [e])
    have ht' : dlm ∉ t := fun e => ht (by simp [e])
    cases t with
    | nil => simp [getlineItems, hc]
    | cons d t =>
      have h := ih (by simp) ht'
      rw [getlineItems, if_neg hc, h]

theorem getlineItems_replicate (dlm : Char) (n : Nat) (rest : List Char) :
    getlineItems dlm (List.replicate n dlm ++ rest) =
      List.replicate n [] ++ getlineItems dlm rest := by
  induction n with
  | zero => simp
  | succ n ih => simp [List.replicate_succ, getlineItems, ih]

theorem vectorLoop_empty_items {T : Type} (stod : String → Except Exn T) (n : Nat)
    (items : List (List Char)) (acc : List T) :
    vectorLoop stod (List.replicate n [] ++ items) acc = vectorLoop stod items acc := by
  induction n with
  | zero => simp
  | succ n ih => simp [List.replicate_succ, vectorLoop, ih]

/-- The loop over the items of a joined text appends the value of every token. -/
theorem vectorLoop_joinTokens {T : Type} (stod : String → Except Exn T) (dlm : Char)
    (val : List Char → T) (toks : List (List Char × Nat))
    (htok : ∀ t ∈ toks, t.1 ≠ [] ∧ dlm ∉ t.1 ∧ stod (String.mk t.1) = .ok (val t.1))
    (acc : List T) :
    vectorLoop stod (getlineItems dlm (joinTokens dlm toks)) acc =
      .ok (acc ++ toks.map fun t => val t.1) := by
  induction toks generalizing acc with
  | nil => simp [joinTokens, getlineItems, vectorLoop]
  | cons t toks ih =>
    obtain ⟨tok, n⟩ := t
    obtain ⟨hne, hdl, hval⟩ := htok (tok, n) (List.mem_cons_self _ _)
    simp only at hne hdl hval
    cases toks with
    | nil =>
      cases n with
      | zero =>
        simp [joinTokens, getlineItems_token dlm tok hne hdl, vectorLoop, hne, hval]
      | succ n =>
        have h1 : joinTokens dlm [(tok, n + 1)] =
            tok ++ dlm :: (List.replicate n dlm ++ []) := by
          simp [joinTokens, List.replicate_succ]
        rw [h1, getlineItems_token_dlm dlm tok _ hdl, getlineItems_replicate]
        simp only [vectorLoop, hne, if_false, hval]
        rw [vectorLoop_empty_items]
        simp [getlineItems, vectorLoop]
    | cons u us =>
      have h1 : joinTokens dlm ((tok, n) :: u :: us) =
          tok ++ dlm :: (List.replicate n dlm ++ joinTokens dlm (u :: us)) := by
        simp [joinTokens, List.replicate_succ]
      rw [h1, getlineItems_token_dlm dlm tok _ hdl, getlineItems_replicate]
      simp only [vectorLoop, hne, if_false, hval]
      rw [vectorLoop_empty_items,
        ih (fun x hx => htok x (List.mem_cons_of_mem _ hx)) (acc ++ [val tok])]
      simp

/-- C6. Vector round trip: when the text stored at `path` is made of `N >= 0` tokens,
each non-empty, free of the delimiter and converted by `stod`, joined by one or more
delimiters with any number of delimiters in front and behind, `GetAsVector` returns
exactly the `N` converted values in token order; the empty items between repeated
delimiters add no element. -/
theorem GetAsVector_roundtrip {T : Type} (stod : String → Except Exn T)
    (self : OptionsBase) (path text : String) (val : List Char → T) (lead : Nat)
    (toks : List (List Char × Nat))
    (hget : self.Get .string some path = .ok text)
    (htext : text.data = List.replicate lead self.m_Dlm ++ joinTokens self.m_Dlm toks)
    (htok : ∀ t ∈ toks, t.1 ≠ [] ∧ self.m_Dlm ∉ t.1 ∧
      stod (String.mk t.1) = .ok (val t.1)) :
    self.GetAsVector stod path = .ok (toks.map fun t => val t.1) := by
  simp only [GetAsVector, hget, htext, getlineItems_replicate, vectorLoop_empty_items]
  rw [vectorLoop_joinTokens stod self.m_Dlm val toks htok []]
  simp

/-- C6 at the text `1  2` with a double space: the two values, no element for the
empty item. -/
theorem GetAsVector_roundtrip_witness :
    GetAsVector (ssm.stod some)
      { init with m_ConfigIsEnabled := true,
                  m_ParsedPtree := .node "" [("v", .leaf "1  2")] } "v" =
      .ok ["1", "2"] :=
  GetAsVector_roundtrip (ssm.stod some)
    { init with m_ConfigIsEnabled := true,
                m_ParsedPtree := .node "" [("v", .leaf "1  2")] }
    "v" "1  2" String.mk 0 [(['1'], 1), (['2'], 0)] (by decide) (by decide) (by decide)

/-! ## C7: tokens that only start with a number -/

/-- C7. The scenario text `1 x 3` fails with `invalid_argument` at `x`, but the
text `1x 3`, whose first token is no numeric literal, makes `GetAsVector` return a
vector of two values: `std::stod` converts the leading `1` of `1x` and the rest of
the token is never looked at. -/
theorem GetAsVector_malformed_tokens {T : Type} (toDouble : String → T) :
    GetAsVector (ssm.stod fun s => some (toDouble s))
      { init with m_ConfigIsEnabled := true,
                  m_ParsedPtree := .node "" [("points_list", .leaf "1 x 3")] }
      "points_list" = .error .invalid_argument ∧
    GetAsVector (ssm.stod fun s => some (toDouble s))
      { init with m_ConfigIsEnabled := true,
                  m_ParsedPtree := .node "" [("points_list", .leaf "1x 3")] }
      "points_list" = .ok [toDouble "1x", toDouble "3"] :=
  ⟨rfl, rfl⟩

/-! ## C8, C9: exceptions that leave `ParseOptions` and `ParseConfigFile` -/

/-- C8. The return contract of `ParseOptions` fails on the code for a missing required
key below a group: with `a.b` registered as required and a file whose group `G`
holds only `x = 1`, `ParseOptions` returns neither true nor false; the
`ptree_bad_path` thrown inside `checkParsedTree` leaves it. -/
theorem ParseOptions_missing_nested_key_raises (fuel : Nat) :
    ((init.SetNameOfGroup "G").Put "a.b" "" true).ParseOptions
      (some ⟨[("config", ⟨.string, "f.ini"⟩)], false⟩)
      (fun _ => some (.node "" [("G", .node "" [("x", .leaf "1")])]))
      (fuel + 1) = .raised .ptree_bad_path := by
  rfl

/-- C9. Group extraction fails on the code for a group name holding the path
separator: the file has the top-level key `A.B`, so the test with `find` passes,
but `get_child` splits the name at the separator, finds no child `A` and throws
`ptree_bad_path`; nothing is merged. -/
theorem ParseConfigFile_dotted_group_raises (fuel : Nat) :
    ((PTree.node "" [("A.B", .node "" [("x", .leaf "1")])]).find "A.B").isSome = true ∧
    (init.SetNameOfGroup "A.B").ParseConfigFile
      (fun _ => some (.node "" [("A.B", .node "" [("x", .leaf "1")])]))
      fuel = .raised .ptree_bad_path :=
  ⟨rfl, rfl⟩

/-- For a group name that is a single name, the test with `find` and the lookup with
`get_child` agree: without such a top-level key `ParseConfigFile` returns false
before any merge, and with it the tree that is merged and validated is the child
stored under the key. -/
theorem ParseConfigFile_simple_group (self : OptionsBase) (readIni : String → Option PTree)
    (fuel : Nat) (file : PTree) (hread : readIni self.m_Config = some file)
    (hne : self.m_NameOfGroup ≠ "") (hdot : '.' ∉ self.m_NameOfGroup.data) :
    (file.find self.m_NameOfGroup = none →
      self.ParseConfigFile readIni fuel = .done (false, { self with m_ParsedPtree := file })) ∧
    (∀ sub, file.find self.m_NameOfGroup = some sub →
      self.ParseConfigFile readIni fuel =
        (checkParsedTree fuel self.m_PtreeOfRequired
          (mergeDefaults self.m_PtreeOfDefaultValues sub) self.m_NameOfGroup []).bind
          fun r =>
            if r.2.length > 0 then
              .done (false, { self with
                m_ParsedPtree := mergeDefaults self.m_PtreeOfDefaultValues sub })
            else
              .done (true, { self with
                m_ParsedPtree := mergeDefaults self.m_PtreeOfDefaultValues sub,
                m_Vm := [] })) := by
  constructor
  · intro h
    simp [ParseConfigFile, hread, h]
  · intro sub h
    have hg : file.getChild self.m_NameOfGroup = .ok sub := by
      simp [PTree.getChild, PTree.getChildOptional,
        PTree.fragments_simple _ hne hdot, PTree.walk, h]
    simp [ParseConfigFile, hread, h, hg, Run.ofExcept, Run.bind]

/-- The true result of `ParseOptions`: it is returned exactly when the command line
was parsed, help was not requested, and either no `config` value was stored or
`ParseConfigFile` returned true. -/
theorem ParseOptions_true_iff (self : OptionsBase) (cmd : Option CommandLine)
    (readIni : String → Option PTree) (fuel : Nat) :
    (∃ s, self.ParseOptions cmd readIni fuel = .done (true, s)) ↔
      ∃ cl, cmd = some cl ∧ cl.help = false ∧
        (cl.vm.lookup "config" = none ∨
          ∃ s, ({ self with
              m_Vm := cl.vm
              m_Help := cl.help
              m_Config := ((cl.vm.lookup "config").map VmValue.text).getD self.m_Config
              m_ConfigIsEnabled := true } : OptionsBase).ParseConfigFile readIni fuel =
            .done (true, s)) := by
  cases cmd with
  | none => simp [ParseOptions]
  | some cl =>
    obtain ⟨vm, help⟩ := cl
    cases help with
    | true => simp [ParseOptions]
    | false =>
      cases hc : vm.lookup "config" with
      | none =>
        constructor
        · intro _
          exact ⟨⟨vm, false⟩, rfl, rfl, Or.inl hc⟩
        · intro _
          exact ⟨_, by simp only [ParseOptions, hc]; rfl⟩
      | some v =>
        constructor
        · rintro ⟨s, hs⟩
          refine ⟨⟨vm, false⟩, rfl, rfl, Or.inr ⟨s, ?_⟩⟩
          simpa only [ParseOptions, hc, Option.getD_some, Option.isSome_some, if_true,
            Bool.false_eq_true, if_false] using hs
        · rintro ⟨cl, hcl, _, h⟩
          cases hcl
          rcases h with h | ⟨s, hs⟩
          · rw [hc] at h; cases h
          · refine ⟨s, ?_⟩
            simpa only [ParseOptions, hc, Option.getD_some, Option.isSome_some, if_true,
              Bool.false_eq_true, if_false] using hs

/-! ## C10: command-line lookup -/

theorem findLastOf_none (c : Char) (s : List Char) (h : c ∉ s) : findLastOf c s = none := by
  induction s with
  | nil => rfl
  | cons x xs ih =>
    have hx : x ≠ c := fun e => h (by simp [e])
    have hxs : c ∉ xs := fun e => h (by simp [e])
    simp [findLastOf, ih hxs, hx]

theorem findLastOf_last (c : Char) (pre suf : List Char) (h : c ∉ suf) :
    findLastOf c (pre ++ c :: suf) = some pre.length := by
  induction pre with
  | nil => simp [findLastOf, findLastOf_none c suf h]
  | cons x xs ih => simp [findLastOf, ih]

/-- C10. Command-line mode lookup: when no config file is active, `Get` reads the
variables map at the text after the last separator of the path, at the whole path
when it holds no separator; so `REFERENCE.input` and `input` give the same result, the
one stored under `input`. -/
theorem Get_commandLine_lastSegment {T : Type} (ty : ValueType) (decode : String → Option T)
    (self : OptionsBase) (h : self.m_ConfigIsEnabled = false) :
    (∀ pre suf : List Char, '.' ∉ suf →
      self.Get ty decode (String.mk (pre ++ '.' :: suf)) =
        vmAs ty decode self.m_Vm (String.mk suf)) ∧
    (∀ path : String, '.' ∉ path.data →
      self.Get ty decode path = vmAs ty decode self.m_Vm path) ∧
    self.Get ty decode "REFERENCE.input" = vmAs ty decode self.m_Vm "input" ∧
    self.Get ty decode "input" = vmAs ty decode self.m_Vm "input" := by
  have h1 : ∀ pre suf : List Char, '.' ∉ suf →
      self.Get ty decode (String.mk (pre ++ '.' :: suf)) =
        vmAs ty decode self.m_Vm (String.mk suf) := by
    intro pre suf hs
    simp [Get, h, findLastOf_last '.' pre suf hs]
  have h2 : ∀ path : String, '.' ∉ path.data →
      self.Get ty decode path = vmAs ty decode self.m_Vm path := by
    intro path hp
    simp [Get, h, findLastOf_none '.' path.data hp]
  exact ⟨h1, h2, h1 "REFERENCE".data "input".data (by decide), h2 "input" (by decide)⟩

/-- C10 on the command line `--input a.img --output b.vtk`: both spellings of the
path read `a.img`. -/
theorem Get_commandLine_lastSegment_witness :
    Get .string some
        { init with m_Vm := [("input", ⟨.string, "a.img"⟩), ("output", ⟨.string, "b.vtk"⟩)] }
        "REFERENCE.input" = .ok "a.img" ∧
    Get .string some
        { init with m_Vm := [("input", ⟨.string, "a.img"⟩), ("output", ⟨.string, "b.vtk"⟩)] }
        "input" = .ok "a.img" :=
  ⟨(Get_commandLine_lastSegment .string some
      { init with m_Vm := [("input", ⟨.string, "a.img"⟩), ("output", ⟨.string, "b.vtk"⟩)] }
      rfl).2.2.1,
   (Get_commandLine_lastSegment .string some
      { init with m_Vm := [("input", ⟨.string, "a.img"⟩), ("output", ⟨.string, "b.vtk"⟩)] }
      rfl).2.2.2⟩

end OptionsBase

/-! ## C14, C15: what the walk reports below and after a group -/

/-- C14. Reported paths are wrong after a nested group: with `grp.y` and `z` required
and a merged tree that holds `grp` but neither `grp.y` nor `z`, the walk appends
`G.grp.y` and then `G.grp.z` for the top-level key `z`, whose dotted path is `G.z`:
`path` is extended before the recursion and never restored. -/
theorem checkParsedTree_path_not_restored (fuel : Nat) :
    checkParsedTree (fuel + 2)
      (node "" [("grp", node "" [("y", leaf "true")]), ("z", leaf "true")])
      (node "" [("grp", leaf "1")]) "G" [] =
      .done ("G.grp", ["G.grp.y", "G.grp.z"]) := by
  rfl

/-- C15. The walk is not total: with the group `g` of the schema non-empty and a merged
tree that holds only `z`, `checkParsedTree` does not return a list; the lookup
`parsedPtree.get_child` raises `ptree_bad_path`. -/
theorem checkParsedTree_not_total (fuel : Nat) :
    checkParsedTree (fuel + 1) (node "" [("g", node "" [("y", leaf "true")])])
      (node "" [("z", leaf "1")]) "G" [] = .raised .ptree_bad_path := by
  rfl

theorem getString_congr_dataAt (t t' : PTree) (path : String)
    (h : dataAt (fragments path) t = dataAt (fragments path) t') :
    t.getString path = t'.getString path := by
  simp only [dataAt] at h
  simp only [getString, getChildOptional]
  cases h1 : walk (fragments path) t <;> cases h2 : walk (fragments path) t' <;>
    simp_all

/-! ## C19, C20: the command line in config-file mode -/

namespace OptionsBase

/-- What a true result of `ParseConfigFile` looks like: the file was read, the group
was found, the walk returned an empty list, and the state holds the merged tree and
an empty variables map. -/
theorem ParseConfigFile_true (self : OptionsBase) (readIni : String → Option PTree)
    (fuel : Nat) (s : OptionsBase)
    (h : self.ParseConfigFile readIni fuel = .done (true, s)) :
    ∃ file group path,
      readIni self.m_Config = some file ∧
      (file.find self.m_NameOfGroup).isNone = false ∧
      file.getChild self.m_NameOfGroup = .ok group ∧
      checkParsedTree fuel self.m_PtreeOfRequired
        (mergeDefaults self.m_PtreeOfDefaultValues group) self.m_NameOfGroup [] =
        .done (path, []) ∧
      s = { self with
        m_ParsedPtree := mergeDefaults self.m_PtreeOfDefaultValues group
        m_Vm := [] } := by
  simp only [ParseConfigFile] at h
  cases hr : readIni self.m_Config with
  | none => simp [hr] at h
  | some file =>
    simp only [hr] at h
    split at h
    · simp at h
    · rename_i hfind
      cases hg : file.getChild self.m_NameOfGroup with
      | error e => simp [hg, Run.ofExcept, Run.bind] at h
      | ok group =>
        simp only [hg, Run.ofExcept, Run.bind] at h
        cases hc : checkParsedTree fuel self.m_PtreeOfRequired
            (mergeDefaults self.m_PtreeOfDefaultValues group) self.m_NameOfGroup [] with
        | raised e => simp [hc] at h
        | outOfFuel => simp [hc] at h
        | done r =>
          obtain ⟨path, list⟩ := r
          simp only [hc] at h
          cases list with
          | cons x xs => simp at h
          | nil =>
            simp only [List.length_nil, gt_iff_lt, lt_self_iff_false, if_false,
              Run.done.injEq, Prod.mk.injEq, true_and] at h
            exact ⟨file, group, path, rfl, Bool.eq_false_iff.mpr hfind, hg, hc, h.symm⟩

/-- The converse: these conditions make `ParseConfigFile` return true. -/
theorem ParseConfigFile_true_of (self : OptionsBase) (readIni : String → Option PTree)
    (fuel : Nat) (file group : PTree) (path : String)
    (hr : readIni self.m_Config = some file)
    (hf : (file.find self.m_NameOfGroup).isNone = false)
    (hg : file.getChild self.m_NameOfGroup = .ok group)
    (hc : checkParsedTree fuel self.m_PtreeOfRequired
        (mergeDefaults self.m_PtreeOfDefaultValues group) self.m_NameOfGroup [] =
        .done (path, [])) :
    self.ParseConfigFile readIni fuel = .done (true, { self with
        m_ParsedPtree := mergeDefaults self.m_PtreeOfDefaultValues group
        m_Vm := [] }) := by
  simp [ParseConfigFile, hr, hf, hg, hc, Run.ofExcept, Run.bind]

end OptionsBase

namespace OptionsBase

/-- C19. Config-file mode ignores the values on the command line: of two runs with the
same registry and file system whose command lines store the same `config` value and
no help request, if the first returns true then so does the second, both end with an
empty variables map, and `Get` gives the same result for every path and type. -/
theorem ParseOptions_config_mode_ignores_vm (self : OptionsBase) (cl1 cl2 : CommandLine)
    (readIni : String → Option PTree) (fuel : Nat) (s1 : OptionsBase)
    (hcfg : cl1.vm.lookup "config" = cl2.vm.lookup "config")
    (hen : (cl1.vm.lookup "config").isSome = true)
    (hh1 : cl1.help = false) (hh2 : cl2.help = false)
    (hrun : self.ParseOptions (some cl1) readIni fuel = .done (true, s1)) :
    ∃ s2, self.ParseOptions (some cl2) readIni fuel = .done (true, s2) ∧
      s1.m_Vm = [] ∧ s2.m_Vm = [] ∧
      ∀ (T : Type) (ty : ValueType) (decode : String → Option T) (path : String),
        s1.Get ty decode path = s2.Get ty decode path := by
  have hen2 : (cl2.vm.lookup "config").isSome = true := hcfg ▸ hen
  simp only [ParseOptions, hh1, hen, Bool.false_eq_true, if_false, if_true] at hrun
  obtain ⟨file, group, path, hr, hf, hg, hc, hs⟩ := ParseConfigFile_true _ readIni fuel s1 hrun
  simp only at hr hf hg hc
  have hrun2 := ParseConfigFile_true_of
    ({ self with
        m_Vm := cl2.vm
        m_Help := cl2.help
        m_Config := ((cl2.vm.lookup "config").map VmValue.text).getD self.m_Config
        m_ConfigIsEnabled := true } : OptionsBase)
    readIni fuel file group path (by simpa only [← hcfg] using hr) hf hg hc
  refine ⟨{ self with
      m_Vm := []
      m_Help := cl2.help
      m_Config := ((cl2.vm.lookup "config").map VmValue.text).getD self.m_Config
      m_ConfigIsEnabled := true
      m_ParsedPtree := mergeDefaults self.m_PtreeOfDefaultValues group }, ?_, ?_, rfl, ?_⟩
  · simp only [ParseOptions, hh2, hen2, Bool.false_eq_true, if_false, if_true]
    simpa only [hh2] using hrun2
  · rw [hs]
  · intro T ty decode p
    rw [hs]
    simp [Get]

end OptionsBase

namespace OptionsBase

/-- C19 on `--config ref.ini` against `--config ref.ini --sigma 5`. -/
theorem ParseOptions_config_mode_ignores_vm_witness :
    ∃ s2, ReferenceOptions.ParseOptions
        (some ⟨[("config", ⟨.string, "ref.ini"⟩), ("sigma", ⟨.double, "5"⟩)], false⟩)
        (fun _ => some completeIni) 1 = .done (true, s2) ∧
      referenceConfigured.m_Vm = [] ∧ s2.m_Vm = [] ∧
      ∀ (T : Type) (ty : ValueType) (decode : String → Option T) (path : String),
        referenceConfigured.Get ty decode path = s2.Get ty decode path :=
  ParseOptions_config_mode_ignores_vm ReferenceOptions
    ⟨[("config", ⟨.string, "ref.ini"⟩), ("sigma", ⟨.double, "0"⟩)], false⟩
    ⟨[("config", ⟨.string, "ref.ini"⟩), ("sigma", ⟨.double, "5"⟩)], false⟩
    (fun _ => some completeIni) 1 referenceConfigured rfl rfl rfl rfl rfl

theorem ParseConfigFile_keeps_enabled (self : OptionsBase) (readIni : String → Option PTree)
    (fuel : Nat) (b : Bool) (s : OptionsBase)
    (h : self.ParseConfigFile readIni fuel = .done (b, s)) :
    s.m_ConfigIsEnabled = self.m_ConfigIsEnabled := by
  simp only [ParseConfigFile] at h
  cases hr : readIni self.m_Config with
  | none =>
    simp only [hr, Run.done.injEq, Prod.mk.injEq] at h
    rw [← h.2]
  | some file =>
    simp only [hr] at h
    split at h
    · simp only [Run.done.injEq, Prod.mk.injEq] at h
      rw [← h.2]
    · cases hg : file.getChild self.m_NameOfGroup with
      | error e => simp [hg, Run.ofExcept, Run.bind] at h
      | ok group =>
        simp only [hg, Run.ofExcept, Run.bind] at h
        cases hc : checkParsedTree fuel self.m_PtreeOfRequired
            (mergeDefaults self.m_PtreeOfDefaultValues group) self.m_NameOfGroup [] with
        | raised e => simp [hc] at h
        | outOfFuel => simp [hc] at h
        | done r =>
          obtain ⟨path, list⟩ := r
          simp only [hc] at h
          split at h
          · simp only [Run.done.injEq, Prod.mk.injEq] at h
            rw [← h.2]
          · simp only [Run.done.injEq, Prod.mk.injEq] at h
            rw [← h.2]

end OptionsBase

/-! ## Puts along dotted paths -/

namespace PTree

theorem splitAll_no_dot (cs : List Char) : ∀ piece ∈ splitAll cs, '.' ∉ piece := by
  induction cs with
  | nil => simp [splitAll]
  | cons c cs ih =>
    simp only [splitAll]
    split
    · intro piece hp
      rcases List.mem_cons.mp hp with h | h
      · subst h; simp
      · exact ih piece h
    · rename_i hc
      split
      · intro piece hp
        simp only [List.mem_singleton] at hp
        subst hp
        simpa using fun h : '.' = c => hc h.symm
      · rename_i f fs heq
        intro piece hp
        rcases List.mem_cons.mp hp with h | h
        · subst h
          have hf := ih f (by rw [heq]; exact List.mem_cons_self _ _)
          intro hm
          rcases List.mem_cons.mp hm with h1 | h1
          · exact hc h1.symm
          · exact hf h1
        · exact ih piece (by rw [heq]; exact List.mem_cons_of_mem _ h)

theorem forcedFragments_ne_nil (path : String) : forcedFragments path ≠ [] := by
  simp [forcedFragments, splitAll_ne_nil]

theorem forcedFragments_no_dot (path : String) :
    ∀ f ∈ forcedFragments path, '.' ∉ f.data := by
  intro f hf
  simp only [forcedFragments, List.mem_map] at hf
  obtain ⟨piece, hp, rfl⟩ := hf
  exact splitAll_no_dot _ piece hp

theorem fragments_wellFormed (path : String) (h : WellFormedPath path) :
    fragments path = forcedFragments path := by
  simp only [fragments, forcedFragments]
  split
  · rename_i hl
    exact absurd rfl (h "" (List.mem_of_getLast?_eq_some hl))
  · rfl

theorem put_wellFormed (t : PTree) (path v : String) (h : WellFormedPath path) :
    t.put path v = putFrags (forcedFragments path) v t := by
  simp only [put, getChildOptional, fragments_wellFormed path h, putFrags]

theorem dataAt_setData_same (v : String) (frs : List String) :
    ∀ (t c : PTree), walk frs t = some c → dataAt frs (setData frs v t) = some v := by
  induction frs with
  | nil =>
    intro t c _
    obtain ⟨d, cs⟩ := t
    simp [setData, dataAt, walk]
  | cons f rest ih =>
    intro t c h
    obtain ⟨d, cs⟩ := t
    simp only [walk, find_node] at h
    cases hl : List.lookup f cs with
    | none => simp [hl] at h
    | some c1 =>
      simp only [hl] at h
      have := ih c1 c h
      simp only [dataAt] at this
      simp [setData, dataAt, walk, lookup_modifyFirst, hl, this]

theorem dataAt_putChild_same (v : String) (frs : List String) :
    ∀ (t : PTree), frs ≠ [] → walk frs t = none →
      dataAt frs (putChild frs (leaf v) t) = some v := by
  induction frs with
  | nil => intro t h; exact absurd rfl h
  | cons f rest ih =>
    intro t _ h
    obtain ⟨d, cs⟩ := t
    cases rest with
    | nil =>
      simp only [walk, find_node] at h
      cases hl : List.lookup f cs with
      | some c1 => simp [hl] at h
      | none => simp [putChild, hl, dataAt, walk, lookup_append_single, leaf]
    | cons g rest' =>
      cases hl : List.lookup f cs with
      | some c1 =>
        have h1 : walk (g :: rest') c1 = none := by
          simpa [walk, hl] using h
        have := ih c1 (by simp) h1
        simp only [dataAt] at this
        simp only [putChild, hl, Option.isSome_some, if_true, dataAt]
        rw [walk, find_node, lookup_modifyFirst]
        simp [hl, this]
      | none =>
        have h1 : walk (g :: rest') (node "" []) = none := by simp [walk, List.lookup]
        have := ih (node "" []) (by simp) h1
        simp only [dataAt] at this
        simp only [putChild, hl, Option.isSome_none, Bool.false_eq_true, if_false, dataAt]
        rw [walk, find_node, lookup_append_single]
        simp [hl, this]

theorem dataAt_putFrags_same (v : String) (frs : List String) (t : PTree) :
    dataAt frs (putFrags frs v t) = some v := by
  simp only [putFrags]
  cases h : walk frs t with
  | some c => exact dataAt_setData_same v frs t c h
  | none =>
    have hne : frs ≠ [] := by
      intro e; subst e; simp [walk] at h
    exact dataAt_putChild_same v frs t hne h

end PTree

namespace PTree

theorem dataAt_setData_other (v : String) (frs : List String) :
    ∀ (gs : List String) (t : PTree), gs ≠ frs →
      dataAt gs (setData frs v t) = dataAt gs t := by
  induction frs with
  | nil =>
    intro gs t hne
    obtain ⟨d, cs⟩ := t
    cases gs with
    | nil => exact absurd rfl hne
    | cons g gs => simp [setData, dataAt, walk]
  | cons f rest ih =>
    intro gs t hne
    obtain ⟨d, cs⟩ := t
    cases gs with
    | nil => simp [setData, dataAt, walk]
    | cons g gs =>
      simp only [setData, dataAt, walk, find_node, lookup_modifyFirst]
      by_cases hg : g = f
      · subst hg
        have hne' : gs ≠ rest := fun e => hne (by rw [e])
        cases hl : List.lookup g cs with
        | none => simp
        | some c1 =>
          have := ih gs c1 hne'
          simp only [dataAt] at this
          simp [this]
      · simp [hg]

theorem dataAt_putChild_other (v : String) (frs : List String) :
    ∀ (t : PTree) (gs : List String), walk frs t = none → gs ≠ frs →
      dataAt gs (putChild frs (leaf v) t) = dataAt gs t ∨
      (dataAt gs t = none ∧ dataAt gs (putChild frs (leaf v) t) = some "") := by
  induction frs with
  | nil => intro t gs h; simp [walk] at h
  | cons f rest ih =>
    intro t gs h hne
    obtain ⟨d, cs⟩ := t
    cases gs with
    | nil =>
      left
      cases rest with
      | nil => simp only [putChild]; split <;> simp [dataAt, walk]
      | cons g' rest' => simp only [putChild]; split <;> simp [dataAt, walk]
    | cons g gs =>
      cases rest with
      | nil =>
        have hl : List.lookup f cs = none := by
          cases hl : List.lookup f cs with
          | none => rfl
          | some c1 => simp [walk, hl] at h
        left
        simp only [putChild, hl, Option.isSome_none, Bool.false_eq_true, if_false, dataAt,
          walk, find_node, lookup_append_single]
        cases hg : List.lookup g cs with
        | some c1 => simp
        | none =>
          by_cases hgf : g = f
          · subst hgf
            cases gs with
            | nil => exact absurd rfl hne
            | cons x xs => simp [leaf, walk, List.lookup]
          · simp [hgf]
      | cons g' rest' =>
        cases hl : List.lookup f cs with
        | some c1 =>
          have h1 : walk (g' :: rest') c1 = none := by
            simpa [walk, hl] using h
          simp only [putChild, hl, Option.isSome_some, if_true, dataAt, walk, find_node,
            lookup_modifyFirst]
          by_cases hgf : g = f
          · subst hgf
            have hne' : gs ≠ g' :: rest' := fun e => hne (by rw [e])
            have := ih c1 gs h1 hne'
            simp only [dataAt] at this
            simpa [hl] using this
          · left; simp [hgf]
        | none =>
          simp only [putChild, hl, Option.isSome_none, Bool.false_eq_true, if_false, dataAt,
            walk, find_node, lookup_append_single]
          cases hg : List.lookup g cs with
          | some c1 => left; simp
          | none =>
            by_cases hgf : g = f
            · subst hgf
              have hne' : gs ≠ g' :: rest' := fun e => hne (by rw [e])
              have h1 : walk (g' :: rest') (node "" []) = none := by
                simp [walk, List.lookup]
              have := ih (node "" []) gs h1 hne'
              simp only [dataAt] at this
              cases gs with
              | nil =>
                right
                rcases this with h2 | h2
                · simp [walk] at h2 ⊢
                  simpa using h2
                · simp [walk] at h2
              | cons x xs =>
                have h3 : walk (x :: xs) (node "" []) = none := by simp [walk, List.lookup]
                rcases this with h2 | h2
                · left; simpa [h3] using h2
                · right; simpa using h2.2
            · left; simp [hgf]

theorem dataAt_putFrags_other (v : String) (frs gs : List String) (t : PTree)
    (hne : gs ≠ frs) :
    dataAt gs (putFrags frs v t) = dataAt gs t ∨
    (dataAt gs t = none ∧ dataAt gs (putFrags frs v t) = some "") := by
  simp only [putFrags]
  cases h : walk frs t with
  | some c => left; exact dataAt_setData_other v frs gs t hne
  | none => exact dataAt_putChild_other v frs t gs h hne

end PTree

namespace PTree

theorem forcedFragments_eq (path : String) :
    forcedFragments path = fragments path ∨
    forcedFragments path = fragments path ++ [""] := by
  simp only [fragments, forcedFragments]
  split
  · rename_i hl
    right
    exact (List.dropLast_append_getLast? _ hl).symm
  · left; rfl

theorem walk_append_none (more : List String) (frs : List String) :
    ∀ t : PTree, walk frs t = none → walk (frs ++ more) t = none := by
  induction frs with
  | nil => intro t h; simp [walk] at h
  | cons f rest ih =>
    intro t h
    simp only [List.cons_append, walk] at h ⊢
    cases hl : t.find f with
    | none => simp
    | some c =>
      simp only [hl] at h ⊢
      exact ih c h

theorem isSome_walk_iff_dataAt (gs : List String) (t : PTree) :
    (walk gs t).isSome = (dataAt gs t).isSome := by
  simp [dataAt]

/-- A put, along any path, removes no node. -/
theorem walk_put_isSome (t : PTree) (path v : String) (gs : List String)
    (h : (walk gs t).isSome = true) : (walk gs (t.put path v)).isSome = true := by
  rw [isSome_walk_iff_dataAt] at h ⊢
  simp only [put, getChildOptional]
  cases hw : walk (fragments path) t with
  | some c =>
    simp only
    by_cases hg : gs = fragments path
    · rw [hg, dataAt_setData_same v _ t c hw]; rfl
    · rw [dataAt_setData_other v _ gs t hg]; exact h
  | none =>
    simp only
    have hw' : walk (forcedFragments path) t = none := by
      rcases forcedFragments_eq path with e | e
      · rw [e]; exact hw
      · rw [e]; exact walk_append_none _ _ t hw
    have hg : gs ≠ forcedFragments path := by
      intro e
      rw [e, ← isSome_walk_iff_dataAt, hw'] at h
      cases h
    rcases dataAt_putChild_other v _ t gs hw' hg with h1 | h1
    · rw [h1]; exact h
    · rw [h1.1] at h; cases h

end PTree

/-- The overlay removes no node of the defaults, whatever the keys of the parsed
tree. -/
theorem walk_mergeDefaults_isSome (d p : PTree) (gs : List String)
    (h : (walk gs d).isSome = true) : (walk gs (mergeDefaults d p)).isSome = true := by
  simp only [mergeDefaults]
  generalize p.children = es
  induction es generalizing d with
  | nil => exact h
  | cons e es ih =>
    simp only [List.foldl_cons]
    exact ih _ (walk_put_isSome d e.1 e.2.data gs h)

/-! ## C13: registering a path twice -/

namespace OptionsBase

theorem getString_putFrags (t : PTree) (path v : String) (h : WellFormedPath path) :
    (t.put path v).getString path = .ok v := by
  have h1 := PTree.dataAt_putFrags_same v (forcedFragments path) t
  rw [← PTree.put_wellFormed t path v h] at h1
  simp only [dataAt, Option.map_eq_some'] at h1
  obtain ⟨c, hc, hd⟩ := h1
  simp [getString, getChildOptional, PTree.fragments_wellFormed path h, hc, hd]

/-- C13 fails as stated: registering `sigma` a second time raises nothing and changes
the default-value tree, whose entry goes from `0` to `5`. -/
theorem Put_twice_overwrites :
    (init.Put "sigma" "0" false).m_PtreeOfDefaultValues.getString "sigma" = .ok "0" ∧
    ((init.Put "sigma" "0" false).Put "sigma" "5" false).m_PtreeOfDefaultValues.getString
      "sigma" = .ok "5" ∧
    ((init.Put "sigma" "0" false).Put "sigma" "5" false).m_PtreeOfDefaultValues ≠
      (init.Put "sigma" "0" false).m_PtreeOfDefaultValues := by
  refine ⟨by decide, by decide, ?_⟩
  intro h
  have h1 : ((init.Put "sigma" "0" false).Put "sigma" "5" false).m_PtreeOfDefaultValues.getString
      "sigma" = (init.Put "sigma" "0" false).m_PtreeOfDefaultValues.getString "sigma" := by
    rw [h]
  revert h1
  decide

/-- C13, amended. `Put` never fails; registering a dotted path, already registered or
not, overwrites: afterwards the required-schema tree holds the new flag at the path,
the default-value tree holds the new value when the option is not required, and is
left as it was when the option is required. -/
theorem Put_overwrites (self : OptionsBase) (path value : String) (required : Bool)
    (h : WellFormedPath path) :
    (self.Put path value required).m_PtreeOfRequired.getString path =
      .ok (boolText required) ∧
    (required = false →
      (self.Put path value required).m_PtreeOfDefaultValues.getString path = .ok value) ∧
    (required = true →
      (self.Put path value required).m_PtreeOfDefaultValues = self.m_PtreeOfDefaultValues) := by
  cases required with
  | true =>
    refine ⟨?_, by simp, fun _ => rfl⟩
    exact getString_putFrags _ path _ h
  | false =>
    refine ⟨?_, fun _ => ?_, by simp⟩
    · exact getString_putFrags _ path _ h
    · exact getString_putFrags _ path _ h

/-- C13, amended, on the second registration of `sigma`. -/
theorem Put_overwrites_witness :
    WellFormedPath "sigma" ∧
    ((init.Put "sigma" "0" false).Put "sigma" "5" false).m_PtreeOfRequired.getString "sigma" =
      .ok "false" ∧
    ((init.Put "sigma" "0" false).Put "sigma" "5" false).m_PtreeOfDefaultValues.getString
      "sigma" = .ok "5" :=
  ⟨by decide, (Put_overwrites (init.Put "sigma" "0" false) "sigma" "5" false (by decide)).1,
   (Put_overwrites (init.Put "sigma" "0" false) "sigma" "5" false (by decide)).2.1 rfl⟩

end OptionsBase

/-! ## C17: the two trees of the registry -/

namespace OptionsBase

theorem Put_required (o : OptionsBase) (path value : String) (required : Bool) :
    (o.Put path value required).m_PtreeOfRequired =
      o.m_PtreeOfRequired.put path (boolText required) := by
  cases required <;> rfl

theorem Put_defaults (o : OptionsBase) (path value : String) (required : Bool) :
    (o.Put path value required).m_PtreeOfDefaultValues =
      if required then o.m_PtreeOfDefaultValues
      else o.m_PtreeOfDefaultValues.put path value := by
  cases required <;> rfl

theorem registryInv_Put (o : OptionsBase) (path value : String) (required : Bool)
    (hwf : WellFormedPath path) (h : RegistryInv o) :
    RegistryInv (o.Put path value required) := by
  intro gs d hd
  rw [Put_required, PTree.put_wellFormed _ _ _ hwf] at hd
  have hD : ∀ gs', (walk gs' o.m_PtreeOfDefaultValues).isSome = true →
      (walk gs' (o.Put path value required).m_PtreeOfDefaultValues).isSome = true := by
    intro gs' h'
    rw [Put_defaults]
    cases required with
    | true => exact h'
    | false => exact PTree.walk_put_isSome _ _ _ _ h'
  by_cases hg : gs = forcedFragments path
  · subst hg
    have := PTree.dataAt_putFrags_same (boolText required) (forcedFragments path)
      o.m_PtreeOfRequired
    simp only [dataAt] at this
    rw [this] at hd
    cases required with
    | true => right; left; simpa [boolText] using hd.symm
    | false =>
      right; right
      refine ⟨by simpa [boolText] using hd.symm, ?_⟩
      rw [Put_defaults]
      simp only [Bool.false_eq_true, if_false]
      rw [PTree.put_wellFormed _ _ _ hwf, PTree.isSome_walk_iff_dataAt,
        PTree.dataAt_putFrags_same]
      rfl
  · rcases PTree.dataAt_putFrags_other (boolText required) (forcedFragments path) gs
      o.m_PtreeOfRequired hg with h1 | h1
    · simp only [dataAt] at h1
      rw [h1] at hd
      rcases h gs d hd with h2 | h2 | h2
      · exact Or.inl h2
      · exact Or.inr (Or.inl h2)
      · exact Or.inr (Or.inr ⟨h2.1, hD gs h2.2⟩)
    · simp only [dataAt] at h1
      rw [h1.2] at hd
      left
      exact (Option.some.inj hd).symm

theorem registryInv_registry (puts : List (String × String × Bool)) (base : OptionsBase)
    (hwf : ∀ x ∈ puts, WellFormedPath x.1) (h : RegistryInv base) :
    RegistryInv (registry base puts) := by
  induction puts generalizing base with
  | nil => exact h
  | cons x xs ih =>
    simp only [registry, List.foldl_cons]
    exact ih _ (fun y hy => hwf y (List.mem_cons_of_mem _ hy))
      (registryInv_Put base x.1 x.2.1 x.2.2 (hwf x (List.mem_cons_self _ _)) h)

theorem registryInv_fresh (base : OptionsBase)
    (hR : base.m_PtreeOfRequired = .node "" []) : RegistryInv base := by
  intro gs d hd
  rw [hR] at hd
  cases gs with
  | nil => left; simpa [walk] using hd.symm
  | cons g gs => simp [walk, List.lookup] at hd

end OptionsBase

namespace OptionsBase

theorem registry_other_name (puts : List (String × String × Bool)) (base : OptionsBase)
    (k : String) (hk : ∀ x ∈ puts, x.1 ≠ k ∧ x.1 ≠ "" ∧ '.' ∉ x.1.data) :
    dataAt [k] (registry base puts).m_PtreeOfRequired = dataAt [k] base.m_PtreeOfRequired ∧
    dataAt [k] (registry base puts).m_PtreeOfDefaultValues =
      dataAt [k] base.m_PtreeOfDefaultValues := by
  induction puts generalizing base with
  | nil => exact ⟨rfl, rfl⟩
  | cons x xs ih =>
    simp only [registry, List.foldl_cons]
    have hx := hk x (List.mem_cons_self _ _)
    have hne : [k] ≠ [x.1] := by
      intro e
      exact hx.1 (List.singleton_inj.mp e).symm
    have := ih (base.Put x.1 x.2.1 x.2.2) (fun y hy => hk y (List.mem_cons_of_mem _ hy))
    simp only [registry] at this
    rw [this.1, this.2, Put_required, Put_defaults]
    refine ⟨dataAt_put_other _ _ _ hx.2.1 hx.2.2 _ hne, ?_⟩
    cases x.2.2 with
    | true => rfl
    | false => exact dataAt_put_other _ _ _ hx.2.1 hx.2.2 _ hne

/-- In a registry of distinct single names over fresh trees, every name holds its own
flag in the required-schema tree, and its own default value, or nothing when it is
required, in the default-value tree. -/
theorem registry_distinct_names (puts : List (String × String × Bool)) (base : OptionsBase)
    (hk : ∀ x ∈ puts, x.1 ≠ "" ∧ '.' ∉ x.1.data) (hnd : (puts.map (·.1)).Nodup)
    (hfresh : ∀ x ∈ puts, dataAt [x.1] base.m_PtreeOfDefaultValues = none) :
    ∀ x ∈ puts,
      dataAt [x.1] (registry base puts).m_PtreeOfRequired = some (boolText x.2.2) ∧
      dataAt [x.1] (registry base puts).m_PtreeOfDefaultValues =
        if x.2.2 then none else some x.2.1 := by
  induction puts generalizing base with
  | nil => intro x hx; cases hx
  | cons y ys ih =>
    intro x hx
    simp only [List.map_cons, List.nodup_cons] at hnd
    have hy := hk y (List.mem_cons_self _ _)
    have hys : ∀ z ∈ ys, z.1 ≠ y.1 ∧ z.1 ≠ "" ∧ '.' ∉ z.1.data := by
      intro z hz
      refine ⟨?_, hk z (List.mem_cons_of_mem _ hz)⟩
      intro e
      exact hnd.1 (e ▸ List.mem_map_of_mem (·.1) hz)
    have hreg : registry base (y :: ys) = registry (base.Put y.1 y.2.1 y.2.2) ys := rfl
    rw [hreg]
    rcases List.mem_cons.mp hx with hxy | hxs
    · subst hxy
      have := registry_other_name ys (base.Put x.1 x.2.1 x.2.2) x.1 hys
      rw [this.1, this.2, Put_required, Put_defaults]
      refine ⟨dataAt_put_same _ _ _ hy.1 hy.2, ?_⟩
      cases x.2.2 with
      | true => simpa using hfresh x (List.mem_cons_self _ _)
      | false => simpa using dataAt_put_same _ _ _ hy.1 hy.2
    · apply ih (base.Put y.1 y.2.1 y.2.2) (fun z hz => hk z (List.mem_cons_of_mem _ hz))
        hnd.2 _ x hxs
      intro z hz
      rw [Put_defaults]
      cases y.2.2 with
      | true => simpa using hfresh z (List.mem_cons_of_mem _ hz)
      | false =>
        have hne : [z.1] ≠ [y.1] := by
          intro e
          exact (hys z hz).1 (List.singleton_inj.mp e)
        simp only [Bool.false_eq_true, if_false]
        rw [dataAt_put_other _ _ _ hy.1 hy.2 _ hne]
        exact hfresh z (List.mem_cons_of_mem _ hz)

end OptionsBase

theorem getString_ok_iff (t : PTree) (path v : String) :
    t.getString path = .ok v ↔ dataAt (fragments path) t = some v := by
  simp only [getString, getChildOptional, dataAt]
  cases walk (fragments path) t <;> simp

namespace OptionsBase

/-- C17 fails as stated: after `sigma` is registered as optional and then again as
required, the default-value tree still has its entry while the leaf in the
required-schema tree is `true`. -/
theorem Put_required_keeps_default :
    ((init.Put "sigma" "0" false).Put "sigma" "0" true).m_PtreeOfDefaultValues.getString
      "sigma" = .ok "0" ∧
    ((init.Put "sigma" "0" false).Put "sigma" "0" true).m_PtreeOfRequired.getString
      "sigma" = .ok "true" := by
  decide

end OptionsBase

/-! ## C16: the shape invariant under the overlay -/

theorem shapeOk_leaf (v : String) : ShapeOk (leaf v) :=
  ShapeOk.mk v [] (Or.inr rfl) (by intro e he; cases he)

theorem shapeOk_children {t : PTree} (h : ShapeOk t) : ∀ e ∈ t.children, ShapeOk e.2 := by
  cases h with
  | mk d cs _ h2 => exact h2

theorem shapeOk_setData_nil (v : String) (c : PTree) (h : ShapeOk c)
    (hv : v = "" ∨ c.children = []) : ShapeOk (setData [] v c) := by
  rw [PTree.setData_nil]
  exact ShapeOk.mk v c.children hv (shapeOk_children h)

theorem mem_modifyFirst {k : String} {f : PTree → PTree} {cs : List (String × PTree)}
    {e : String × PTree} (h : e ∈ modifyFirst k f cs) :
    e ∈ cs ∨ ∃ c1, List.lookup k cs = some c1 ∧ e = (k, f c1) := by
  induction cs with
  | nil => simp [modifyFirst] at h
  | cons x xs ih =>
    obtain ⟨a, c⟩ := x
    by_cases hak : a = k
    · subst hak
      simp only [modifyFirst, beq_self_eq_true, if_true] at h
      rcases List.mem_cons.mp h with h1 | h1
      · right; exact ⟨c, by simp [List.lookup], h1⟩
      · left; exact List.mem_cons_of_mem _ h1
    · have hb : (a == k) = false := by simpa using hak
      have hb' : (k == a) = false := by simpa using fun e : k = a => hak e.symm
      simp only [modifyFirst, hb, Bool.false_eq_true, if_false] at h
      rcases List.mem_cons.mp h with h1 | h1
      · left; rw [h1]; exact List.mem_cons_self _ _
      · rcases ih h1 with h2 | ⟨c1, h2, h3⟩
        · left; exact List.mem_cons_of_mem _ h2
        · right; exact ⟨c1, by simp [List.lookup, hb', h2], h3⟩

/-- One put of the overlay keeps the children well shaped, and keeps every child
either childless or with the children its namesake has in the defaults. -/
theorem upsert_shape (d0 : List (String × PTree)) (k v : String)
    (acc : List (String × PTree))
    (hcol : v = "" ∨ ∀ c, List.lookup k d0 = some c → c.children = [])
    (h1 : ∀ e ∈ acc, ShapeOk e.2)
    (h2 : ∀ k' c, List.lookup k' acc = some c →
      c.children = [] ∨ ∃ c0, List.lookup k' d0 = some c0 ∧ c0.children = c.children) :
    (∀ e ∈ upsert k v acc, ShapeOk e.2) ∧
    (∀ k' c, List.lookup k' (upsert k v acc) = some c →
      c.children = [] ∨ ∃ c0, List.lookup k' d0 = some c0 ∧ c0.children = c.children) := by
  cases hl : List.lookup k acc with
  | none =>
    simp only [upsert, hl]
    constructor
    · intro e he
      rcases List.mem_append.mp he with h | h
      · exact h1 e h
      · simp only [List.mem_singleton] at h
        rw [h]; exact shapeOk_leaf v
    · intro k' c hc
      rw [PTree.lookup_append_single] at hc
      cases hl' : List.lookup k' acc with
      | some c' =>
        simp only [hl'] at hc
        cases hc
        exact h2 k' _ hl'
      | none =>
        simp only [hl'] at hc
        split at hc
        · cases hc; left; rfl
        · cases hc
  | some c1 =>
    simp only [upsert, hl]
    have hc1 : c1.children = [] ∨ v = "" := by
      rcases hcol with hv | hv
      · exact Or.inr hv
      · rcases h2 k c1 hl with h | ⟨c0, h, h'⟩
        · exact Or.inl h
        · left; rw [← h']; exact hv c0 h
    constructor
    · intro e he
      rcases mem_modifyFirst he with h | ⟨c', hc', rfl⟩
      · exact h1 e h
      · rw [hl] at hc'
        cases hc'
        exact shapeOk_setData_nil v c1 (h1 (k, c1) (mem_of_lookup hl)) hc1.symm
    · intro k' c hc
      rw [PTree.lookup_modifyFirst] at hc
      split at hc
      · rename_i hkk
        subst hkk
        rw [hl] at hc
        simp only [Option.map_some', Option.some.injEq] at hc
        subst hc
        rw [PTree.setData_nil]
        exact h2 k' c1 hl
      · exact h2 k' c hc

theorem foldl_upsert_shape_ok (d0 : List (String × PTree)) (es : List (String × PTree))
    (acc : List (String × PTree))
    (hcol : ∀ e ∈ es, e.2.data = "" ∨ ∀ c, List.lookup e.1 d0 = some c → c.children = [])
    (h1 : ∀ e ∈ acc, ShapeOk e.2)
    (h2 : ∀ k' c, List.lookup k' acc = some c →
      c.children = [] ∨ ∃ c0, List.lookup k' d0 = some c0 ∧ c0.children = c.children) :
    ∀ e ∈ es.foldl (fun a it => upsert it.1 it.2.data a) acc, ShapeOk e.2 := by
  induction es generalizing acc with
  | nil => exact h1
  | cons x xs ih =>
    simp only [List.foldl_cons]
    have := upsert_shape d0 x.1 x.2.data acc (hcol x (List.mem_cons_self _ _)) h1 h2
    exact ih _ (fun e he => hcol e (List.mem_cons_of_mem _ he)) this.1 this.2

/-- C16 fails as stated: the defaults hold the group `a` with the leaf `a.b`, the
parsed section holds the leaf `a`; both trees keep payload and children apart, but
in the merged tree the node `a` has the payload `1` and the child `b`. -/
theorem mergeDefaults_breaks_shape :
    ShapeOk (node "" [("a", node "" [("b", leaf "x")])]) ∧
    ShapeOk (node "" [("a", leaf "1")]) ∧
    ¬ ShapeOk (mergeDefaults (node "" [("a", node "" [("b", leaf "x")])])
      (node "" [("a", leaf "1")])) := by
  refine ⟨?_, ?_, ?_⟩
  · refine ShapeOk.mk _ _ (Or.inl rfl) ?_
    intro e he
    simp only [List.mem_singleton] at he
    subst he
    refine ShapeOk.mk _ _ (Or.inl rfl) ?_
    intro e he
    simp only [List.mem_singleton] at he
    subst he
    exact shapeOk_leaf _
  · refine ShapeOk.mk _ _ (Or.inl rfl) ?_
    intro e he
    simp only [List.mem_singleton] at he
    subst he
    exact shapeOk_leaf _
  · have hm : mergeDefaults (node "" [("a", node "" [("b", leaf "x")])])
        (node "" [("a", leaf "1")]) = node "" [("a", node "1" [("b", leaf "x")])] := rfl
    rw [hm]
    intro h
    have h2 := shapeOk_children h ("a", node "1" [("b", leaf "x")]) (by simp)
    cases h2 with
    | mk _ _ hor _ =>
      rcases hor with h3 | h3
      · exact absurd h3 (by decide)
      · cases h3

/-- C16, amended. If no node of the default tree has both a payload and children, its
root has no payload, the keys of the parsed tree are single names, and no parsed
entry with a non-empty payload has the key of a default node that has children, then
no node of the merged tree has both a payload and children. -/
theorem mergeDefaults_shapeOk (d p : PTree) (hd : ShapeOk d) (hroot : d.data = "")
    (hk : SimpleKeys p.children)
    (hcol : ∀ e ∈ p.children, e.2.data = "" ∨ ∀ c, d.find e.1 = some c → c.children = []) :
    ShapeOk (mergeDefaults d p) := by
  have hM : mergeDefaults d p =
      node d.data (p.children.foldl (fun a it => upsert it.1 it.2.data a) d.children) :=
    foldl_put_eq_upsert p.children hk d
  rw [hM]
  refine ShapeOk.mk _ _ (Or.inl hroot) ?_
  apply foldl_upsert_shape_ok d.children p.children d.children
  · intro e he
    exact hcol e he
  · exact shapeOk_children hd
  · intro k' c hc
    right
    exact ⟨c, hc, rfl⟩

/-- C16, amended, on flat defaults and a section that overrides `sigma`. -/
theorem mergeDefaults_shapeOk_witness :
    ShapeOk (mergeDefaults (node "" [("sigma", leaf "0"), ("level", leaf "0")])
      (node "" [("output", leaf "b.vtk"), ("sigma", leaf "2")])) :=
  mergeDefaults_shapeOk (node "" [("sigma", leaf "0"), ("level", leaf "0")])
    (node "" [("output", leaf "b.vtk"), ("sigma", leaf "2")])
    (ShapeOk.mk _ _ (Or.inl rfl) (by
      intro e he
      simp only [List.mem_cons, List.mem_singleton, List.not_mem_nil, or_false] at he
      rcases he with h | h <;> subst h <;> exact shapeOk_leaf _))
    rfl (by decide)
    (by
      intro e he
      right
      intro c hc
      simp only [children_node, List.mem_cons, List.mem_singleton, List.not_mem_nil,
        or_false] at he
      rcases he with h | h
      · subst h; cases hc
      · subst h
        have : c = leaf "0" := (Option.some.inj hc).symm
        rw [this]; rfl)

/-! ## C12: the registry after a successful validation -/

theorem simpleTree_keys {t : PTree} (h : SimpleTree t) : SimpleKeys t.children := by
  cases h with
  | mk d cs h1 _ => exact h1

theorem simpleTree_children {t : PTree} (h : SimpleTree t) :
    ∀ e ∈ t.children, SimpleTree e.2 := by
  cases h with
  | mk d cs _ h2 => exact h2

theorem simpleTree_leaf (v : String) : SimpleTree (leaf v) :=
  SimpleTree.mk v [] (by intro e he; cases he) (by intro e he; cases he)

theorem simpleTree_modifyFirst (k : String) (f : PTree → PTree) (d : String)
    (cs : List (String × PTree)) (h : SimpleTree (node d cs))
    (hf : ∀ c, SimpleTree c → SimpleTree (f c)) :
    SimpleTree (node d (modifyFirst k f cs)) := by
  have hk := simpleTree_keys h
  have hc := simpleTree_children h
  simp only [children_node] at hk hc
  refine SimpleTree.mk _ _ ?_ ?_
  · intro e he
    rcases mem_modifyFirst he with h1 | ⟨c1, h1, rfl⟩
    · exact hk e h1
    · exact hk (k, c1) (mem_of_lookup h1)
  · intro e he
    rcases mem_modifyFirst he with h1 | ⟨c1, h1, rfl⟩
    · exact hc e h1
    · exact hf c1 (hc (k, c1) (mem_of_lookup h1))

theorem simpleTree_append (d : String) (cs : List (String × PTree)) (k : String) (x : PTree)
    (h : SimpleTree (node d cs)) (hk : k ≠ "" ∧ '.' ∉ k.data) (hx : SimpleTree x) :
    SimpleTree (node d (cs ++ [(k, x)])) := by
  have hks := simpleTree_keys h
  have hc := simpleTree_children h
  simp only [children_node] at hks hc
  refine SimpleTree.mk _ _ ?_ ?_
  · intro e he
    rcases List.mem_append.mp he with h1 | h1
    · exact hks e h1
    · simp only [List.mem_singleton] at h1
      rw [h1]; exact hk
  · intro e he
    rcases List.mem_append.mp he with h1 | h1
    · exact hc e h1
    · simp only [List.mem_singleton] at h1
      rw [h1]; exact hx

theorem simpleTree_setData (v : String) (frs : List String) :
    ∀ t : PTree, SimpleTree t → SimpleTree (setData frs v t) := by
  induction frs with
  | nil =>
    intro t h
    rw [PTree.setData_nil]
    exact SimpleTree.mk _ _ (simpleTree_keys h) (simpleTree_children h)
  | cons f rest ih =>
    intro t h
    obtain ⟨d, cs⟩ := t
    simp only [setData]
    exact simpleTree_modifyFirst f _ d cs h ih

theorem simpleTree_putChild (x : PTree) (hx : SimpleTree x) (frs : List String) :
    ∀ t : PTree, SimpleTree t → (∀ f ∈ frs, f ≠ "" ∧ '.' ∉ f.data) →
      SimpleTree (putChild frs x t) := by
  induction frs with
  | nil => intro t h _; obtain ⟨d, cs⟩ := t; simpa [putChild] using h
  | cons f rest ih =>
    intro t h hfs
    obtain ⟨d, cs⟩ := t
    have hf := hfs f (List.mem_cons_self _ _)
    have hrest : ∀ g ∈ rest, g ≠ "" ∧ '.' ∉ g.data :=
      fun g hg => hfs g (List.mem_cons_of_mem _ hg)
    cases rest with
    | nil =>
      simp only [putChild]
      split
      · exact simpleTree_modifyFirst f _ d cs h (fun _ _ => hx)
      · exact simpleTree_append d cs f x h hf hx
    | cons g rest' =>
      simp only [putChild]
      split
      · exact simpleTree_modifyFirst f _ d cs h (fun c hc => ih c hc hrest)
      · exact simpleTree_append d cs f _ h hf
          (ih (node "" []) (SimpleTree.mk _ _ (by intro e he; cases he)
            (by intro e he; cases he)) hrest)

theorem simpleTree_put (t : PTree) (path v : String) (hwf : WellFormedPath path)
    (h : SimpleTree t) : SimpleTree (t.put path v) := by
  rw [PTree.put_wellFormed t path v hwf]
  simp only [putFrags]
  split
  · exact simpleTree_setData v _ t h
  · apply simpleTree_putChild (leaf v) (simpleTree_leaf v) _ t h
    intro f hf
    exact ⟨hwf f hf, PTree.forcedFragments_no_dot path f hf⟩

theorem simpleTree_registry (puts : List (String × String × Bool)) (base : OptionsBase)
    (hwf : ∀ x ∈ puts, WellFormedPath x.1) (h : SimpleTree base.m_PtreeOfRequired) :
    SimpleTree (registry base puts).m_PtreeOfRequired := by
  induction puts generalizing base with
  | nil => exact h
  | cons x xs ih =>
    simp only [registry, List.foldl_cons]
    apply ih _ (fun y hy => hwf y (List.mem_cons_of_mem _ hy))
    rw [OptionsBase.Put_required]
    exact simpleTree_put _ _ _ (hwf x (List.mem_cons_self _ _)) h

theorem registry_has_path (puts : List (String × String × Bool)) (base : OptionsBase)
    (hwf : ∀ x ∈ puts, WellFormedPath x.1) :
    ∀ x ∈ puts,
      (walk (fragments x.1) (registry base puts).m_PtreeOfRequired).isSome = true := by
  induction puts generalizing base with
  | nil => intro x hx; cases hx
  | cons y ys ih =>
    intro x hx
    have hreg : registry base (y :: ys) =
        registry (base.Put y.1 y.2.1 y.2.2) ys := rfl
    rw [hreg]
    rcases List.mem_cons.mp hx with hxy | hxs
    · subst hxy
      have h1 : (walk (fragments x.1) (base.Put x.1 x.2.1 x.2.2).m_PtreeOfRequired).isSome
          = true := by
        rw [OptionsBase.Put_required, PTree.put_wellFormed _ _ _ (hwf x (List.mem_cons_self _ _)),
          PTree.fragments_wellFormed _ (hwf x (List.mem_cons_self _ _)),
          PTree.isSome_walk_iff_dataAt, PTree.dataAt_putFrags_same]
        rfl
      clear hx ih hreg
      generalize base.Put x.1 x.2.1 x.2.2 = b at h1
      induction ys generalizing b with
      | nil => exact h1
      | cons z zs ih2 =>
        have hreg2 : registry b (z :: zs) =
            registry (b.Put z.1 z.2.1 z.2.2) zs := rfl
        rw [hreg2]
        apply ih2 (fun w hw => hwf w (by
          rcases List.mem_cons.mp hw with h | h
          · exact h ▸ List.mem_cons_self _ _
          · exact List.mem_cons_of_mem _ (List.mem_cons_of_mem _ h)))
        rw [OptionsBase.Put_required]
        exact PTree.walk_put_isSome _ _ _ _ h1
    · exact ih _ (fun z hz => hwf z (List.mem_cons_of_mem _ hz)) x hxs

theorem Run.bind_eq_done {ε α β : Type} (r : Run ε α) (f : α → Run ε β) (b : β)
    (h : r.bind f = .done b) : ∃ a, r = .done a ∧ f a = .done b := by
  cases r with
  | done a => exact ⟨a, rfl, h⟩
  | raised e => simp [Run.bind] at h
  | outOfFuel => simp [Run.bind] at h

theorem getChild_simple (t : PTree) (k : String) (hne : k ≠ "") (hdot : '.' ∉ k.data) :
    t.getChild k = match t.find k with
      | some c => .ok c
      | none => .error .ptree_bad_path := by
  simp only [getChild, getChildOptional, PTree.fragments_simple k hne hdot, walk]
  cases t.find k <;> rfl

/-- What a returned run of the loop of `checkParsedTree` tells: the list only grows,
and when it did not grow, every child visited had its group walked without a new
entry and, when the parsed tree lacks its key, was read as not required. -/
theorem checkLoop_done (self : PTree → PTree → String → List String →
      Run PtreeError (String × List String))
    (hmono : ∀ R M p l p' l', self R M p l = .done (p', l') → ∃ ext, l' = l ++ ext)
    (R M : PTree) :
    ∀ (cs : List (String × PTree)) (path : String) (list : List String) (p' : String)
      (l' : List String),
      checkLoop self R M cs path list = .done (p', l') →
      (∃ ext, l' = list ++ ext) ∧
      (l' = list → ∀ e ∈ cs,
        (e.2.empty = false → ∃ sub msub p0 p1, R.getChild e.1 = .ok sub ∧
          M.getChild e.1 = .ok msub ∧ self sub msub p0 list = .done (p1, list)) ∧
        ((M.find e.1).isNone = true → R.getBool e.1 = .ok false)) := by
  intro cs
  induction cs with
  | nil =>
    intro path list p' l' h
    simp only [checkLoop, Run.done.injEq, Prod.mk.injEq] at h
    exact ⟨⟨[], by simp [h.2]⟩, fun _ e he => by cases he⟩
  | cons x rest ih =>
    intro path list p' l' h
    obtain ⟨name, tree⟩ := x
    simp only [checkLoop] at h
    obtain ⟨⟨p1, l1⟩, hs1, h⟩ := Run.bind_eq_done _ _ _ h
    simp only at h
    obtain ⟨⟨p2, l2⟩, hs2, h⟩ := Run.bind_eq_done _ _ _ h
    simp only at h
    obtain ⟨⟨e3, he3⟩, hrest⟩ := ih p2 l2 p' l' h
    -- first step: the group
    have h1 : (∃ e1, l1 = list ++ e1) ∧
        (l1 = list → tree.empty = false → ∃ sub msub p0 p1, R.getChild name = .ok sub ∧
          M.getChild name = .ok msub ∧ self sub msub p0 list = .done (p1, list)) := by
      cases hte : tree.empty with
      | true =>
        simp only [hte, Bool.not_true, Bool.false_eq_true, if_false, Run.done.injEq,
          Prod.mk.injEq] at hs1
        exact ⟨⟨[], by simp [hs1.2]⟩, fun _ hf => by cases hf⟩
      | false =>
        simp only [hte, Bool.not_false, if_true] at hs1
        obtain ⟨sub, hsub, hs1⟩ := Run.bind_eq_done _ _ _ hs1
        obtain ⟨msub, hmsub, hs1⟩ := Run.bind_eq_done _ _ _ hs1
        have hsub' : R.getChild name = .ok sub := by
          cases hr : R.getChild name with
          | ok a => simp only [hr, Run.ofExcept, Run.done.injEq] at hsub; rw [hsub]
          | error e => simp [hr, Run.ofExcept] at hsub
        have hmsub' : M.getChild name = .ok msub := by
          cases hr : M.getChild name with
          | ok a => simp only [hr, Run.ofExcept, Run.done.injEq] at hmsub; rw [hmsub]
          | error e => simp [hr, Run.ofExcept] at hmsub
        refine ⟨hmono _ _ _ _ _ _ hs1, fun hl _ => ?_⟩
        rw [hl] at hs1
        exact ⟨sub, msub, _, _, hsub', hmsub', hs1⟩
    -- second step: the key itself
    have h2 : (∃ e2, l2 = l1 ++ e2) ∧
        (l2 = l1 → (M.find name).isNone = true → R.getBool name = .ok false) := by
      cases hf : (M.find name).isNone with
      | false =>
        simp only [hf, Bool.false_eq_true, if_false, Run.done.injEq, Prod.mk.injEq] at hs2
        exact ⟨⟨[], by simp [hs2.2]⟩, fun _ hc => by cases hc⟩
      | true =>
        simp only [hf, if_true] at hs2
        obtain ⟨req, hreq, hs2⟩ := Run.bind_eq_done _ _ _ hs2
        have hreq' : R.getBool name = .ok req := by
          cases hr : R.getBool name with
          | ok a => simp only [hr, Run.ofExcept, Run.done.injEq] at hreq; rw [hreq]
          | error e => simp [hr, Run.ofExcept] at hreq
        cases req with
        | true =>
          simp only [if_true, Run.done.injEq, Prod.mk.injEq] at hs2
          refine ⟨⟨[p1 ++ "." ++ name], hs2.2.symm⟩, fun hl _ => ?_⟩
          rw [hl] at hs2
          have := hs2.2
          simp at this
        | false =>
          simp only [Bool.false_eq_true, if_false, Run.done.injEq, Prod.mk.injEq] at hs2
          exact ⟨⟨[], by simp [hs2.2]⟩, fun _ _ => hreq'⟩
    obtain ⟨⟨e1, he1⟩, h1s⟩ := h1
    obtain ⟨⟨e2, he2⟩, h2s⟩ := h2
    refine ⟨⟨e1 ++ e2 ++ e3, by rw [he3, he2, he1]; simp⟩, ?_⟩
    intro hl
    have hlen : e1 = [] ∧ e2 = [] ∧ e3 = [] := by
      rw [he3, he2, he1] at hl
      have : (list ++ e1 ++ e2 ++ e3).length = list.length := by rw [hl]
      simp only [List.length_append] at this
      refine ⟨?_, ?_, ?_⟩ <;> apply List.eq_nil_of_length_eq_zero <;> omega
    obtain ⟨h1e, h2e, h3e⟩ := hlen
    subst h1e h2e h3e
    simp only [List.append_nil] at he1 he2 he3
    subst he1
    subst he2
    intro e he
    rcases List.mem_cons.mp he with hx | hx
    · subst hx
      exact ⟨h1s rfl, h2s rfl⟩
    · exact hrest he3 e hx

/-- A returned walk only extends the list; and when the list comes back as it went
in, every node of the required-schema tree is present in the parsed tree, or is a
leaf read as not required. -/
theorem checkParsedTree_done :
    ∀ (fuel : Nat) (R M : PTree) (path : String) (list : List String) (p' : String)
      (l' : List String),
      checkParsedTree fuel R M path list = .done (p', l') →
      (∃ ext, l' = list ++ ext) ∧
      (l' = list → SimpleTree R → ∀ gs c, gs ≠ [] → walk gs R = some c →
        (walk gs M).isSome = true ∨ FalseLeaf c) := by
  intro fuel
  induction fuel with
  | zero => intro R M path list p' l' h; simp [checkParsedTree] at h
  | succ fuel ih =>
    intro R M path list p' l' h
    simp only [checkParsedTree] at h
    cases hRe : R.empty with
    | true =>
      simp only [hRe, if_true, Run.done.injEq, Prod.mk.injEq] at h
      refine ⟨⟨[], by simp [h.2]⟩, ?_⟩
      intro _ _ gs c hgs hw
      exfalso
      obtain ⟨d, cs⟩ := R
      simp only [PTree.empty, children_node, List.isEmpty_iff] at hRe
      subst hRe
      cases gs with
      | nil => exact hgs rfl
      | cons g gs' => simp [walk, List.lookup] at hw
    | false =>
      simp only [hRe, Bool.false_eq_true, if_false] at h
      have hloop := checkLoop_done (checkParsedTree fuel)
        (fun R M p l p' l' hh => (ih R M p l p' l' hh).1) R M R.children path list p' l' h
      refine ⟨hloop.1, ?_⟩
      intro hl hsimple gs c hgs hw
      have hfacts := hloop.2 hl
      cases gs with
      | nil => exact absurd rfl hgs
      | cons g gs' =>
        simp only [walk] at hw ⊢
        cases hfind : R.find g with
        | none => simp [hfind] at hw
        | some t1 =>
          simp only [hfind] at hw
          have hmem : (g, t1) ∈ R.children := mem_of_lookup hfind
          have hg := simpleTree_keys hsimple (g, t1) hmem
          have ht1 := simpleTree_children hsimple (g, t1) hmem
          obtain ⟨hgroup, hkey⟩ := hfacts (g, t1) hmem
          simp only at hgroup hkey hg ht1
          have hRg : R.getChild g = .ok t1 := by
            rw [getChild_simple R g hg.1 hg.2, hfind]
          cases hte : t1.empty with
          | true =>
            -- a leaf of the schema
            obtain ⟨d1, c1⟩ := t1
            simp only [PTree.empty, children_node, List.isEmpty_iff] at hte
            subst hte
            cases gs' with
            | cons g' rest' => simp [walk, List.lookup] at hw
            | nil =>
              simp only [walk, Option.some.injEq] at hw
              subst hw
              cases hM : M.find g with
              | some m => left; simp [walk]
              | none =>
                right
                have hb := hkey (by simp [hM])
                simp only [getBool, getChildOptional, PTree.fragments_simple g hg.1 hg.2,
                  walk, hfind, data_node] at hb
                refine ⟨rfl, ?_⟩
                simp only [data_node]
                split at hb
                · cases hb
                · split at hb
                  · assumption
                  · cases hb
          | false =>
            obtain ⟨sub, msub, p0, p1, hsub, hmsub, hself⟩ := hgroup hte
            rw [hRg] at hsub
            cases hsub
            have hMg : M.find g = some msub := by
              rw [getChild_simple M g hg.1 hg.2] at hmsub
              cases hM : M.find g with
              | none => simp [hM] at hmsub
              | some m => simp only [hM, Except.ok.injEq] at hmsub; rw [hmsub]
            simp only [hMg]
            cases gs' with
            | nil => left; simp [walk]
            | cons g' rest' =>
              exact (ih _ msub p0 list p1 list hself).2 rfl ht1 (g' :: rest') c (by simp) hw

namespace OptionsBase

theorem registry_keeps_fields (puts : List (String × String × Bool)) (base : OptionsBase) :
    (registry base puts).m_ConfigIsEnabled = base.m_ConfigIsEnabled := by
  induction puts generalizing base with
  | nil => rfl
  | cons x xs ih =>
    have hreg : registry base (x :: xs) = registry (base.Put x.1 x.2.1 x.2.2) xs := rfl
    rw [hreg, ih]
    cases x.2.2 <;> rfl

/-- C12. No missing key after a successful validation: for every registry built by
`Put` calls with dotted paths on a fresh required-schema tree and every file system, if
`ParseConfigFile` returns true then every registered path, required or optional, has
a node in the merged tree, so `Get<std::string>` in config-file mode returns its
text and raises no lookup error. -/
theorem ParseConfigFile_true_registered_present (puts : List (String × String × Bool))
    (base : OptionsBase) (readIni : String → Option PTree) (fuel : Nat) (s : OptionsBase)
    (hR : base.m_PtreeOfRequired = .node "" [])
    (hwf : ∀ x ∈ puts, WellFormedPath x.1)
    (hmode : base.m_ConfigIsEnabled = true)
    (hrun : (registry base puts).ParseConfigFile readIni fuel = .done (true, s)) :
    ∀ x ∈ puts, ∃ text, s.Get .string some x.1 = .ok text := by
  intro x hx
  obtain ⟨file, group, path, _, _, _, hc, hs⟩ := ParseConfigFile_true _ readIni fuel s hrun
  have hsimple : SimpleTree (registry base puts).m_PtreeOfRequired := by
    apply simpleTree_registry puts base hwf
    rw [hR]
    exact SimpleTree.mk _ _ (by intro e he; cases he) (by intro e he; cases he)
  have hinv := registryInv_registry puts base hwf (registryInv_fresh base hR)
  have hpath := registry_has_path puts base hwf x hx
  have hne : fragments x.1 ≠ [] := by
    rw [PTree.fragments_wellFormed _ (hwf x hx)]
    exact PTree.forcedFragments_ne_nil _
  cases hw : walk (fragments x.1) (registry base puts).m_PtreeOfRequired with
  | none => rw [hw] at hpath; cases hpath
  | some c =>
    have hM : (walk (fragments x.1)
        (mergeDefaults (registry base puts).m_PtreeOfDefaultValues group)).isSome = true := by
      rcases (checkParsedTree_done fuel _ _ _ _ _ _ hc).2 rfl hsimple _ c hne hw with h | h
      · exact h
      · apply walk_mergeDefaults_isSome
        have hdata : (walk (fragments x.1) (registry base puts).m_PtreeOfRequired).map
            PTree.data = some c.data := by rw [hw]; rfl
        rcases hinv _ _ hdata with h1 | h1 | h1
        · rcases h.2 with h2 | h2 <;> rw [h2] at h1 <;> exact absurd h1 (by decide)
        · rcases h.2 with h2 | h2 <;> rw [h2] at h1 <;> exact absurd h1 (by decide)
        · exact h1.2
    cases hm : walk (fragments x.1)
        (mergeDefaults (registry base puts).m_PtreeOfDefaultValues group) with
    | none => rw [hm] at hM; cases hM
    | some m =>
      refine ⟨m.data, ?_⟩
      rw [hs]
      simp [Get, registry_keeps_fields, hmode, getChildOptional, hm]

/-- C12 on a registry of `input`, `output` and `sigma` and a file that holds the two
required keys. -/
theorem ParseConfigFile_true_registered_present_witness :
    ∃ text, Get .string some
      { registry { init.SetNameOfGroup "REFERENCE" with m_ConfigIsEnabled := true }
          [("input", "", true), ("output", "", true), ("sigma", "0", false)] with
        m_ParsedPtree := mergeDefaults (.node "" [("sigma", .leaf "0")])
          (.node "" [("input", .leaf "a.img"), ("output", .leaf "b.vtk"),
            ("report", .leaf "r.txt")])
        m_Vm := [] } "sigma" = .ok text :=
  ParseConfigFile_true_registered_present
    [("input", "", true), ("output", "", true), ("sigma", "0", false)]
    { init.SetNameOfGroup "REFERENCE" with m_ConfigIsEnabled := true }
    (fun _ => some completeIni) 1 _ rfl (by decide) rfl rfl
    ("sigma", "0", false) (by simp)

end OptionsBase

/-! ## Puts under arbitrary keys -/

namespace PTree

theorem splitAll_injective : ∀ cs cs' : List Char, splitAll cs = splitAll cs' → cs = cs' := by
  intro cs
  induction cs with
  | nil =>
    intro cs' h
    cases cs' with
    | nil => rfl
    | cons c' cs' =>
      simp only [splitAll] at h
      split at h
      · have := splitAll_ne_nil cs'
        simp only [List.cons.injEq, true_and] at h
        exact absurd h.symm this
      · split at h <;> simp at h
  | cons c cs ih =>
    intro cs' h
    cases cs' with
    | nil =>
      simp only [splitAll] at h
      split at h
      · have := splitAll_ne_nil cs
        simp only [List.cons.injEq, true_and] at h
        exact absurd h this
      · split at h <;> simp at h
    | cons c' cs' =>
      by_cases hc : c = '.'
      · by_cases hc' : c' = '.'
        · subst hc; subst hc'
          simp only [splitAll, if_true, List.cons.injEq, true_and] at h
          rw [ih cs' h]
        · subst hc
          simp only [splitAll, if_true, hc', if_false] at h
          split at h <;> simp at h
      · by_cases hc' : c' = '.'
        · subst hc'
          simp only [splitAll, if_true, hc, if_false] at h
          split at h <;> simp at h
        · simp only [splitAll, hc, hc', if_false] at h
          have h1 : splitAll cs ≠ [] := splitAll_ne_nil cs
          have h2 : splitAll cs' ≠ [] := splitAll_ne_nil cs'
          cases hs : splitAll cs with
          | nil => exact absurd hs h1
          | cons f fs =>
            cases hs' : splitAll cs' with
            | nil => exact absurd hs' h2
            | cons f' fs' =>
              simp only [hs, hs', List.cons.injEq] at h
              obtain ⟨⟨hcc, hf⟩, hfs⟩ := h
              have : splitAll cs = splitAll cs' := by rw [hs, hs', hf, hfs]
              rw [hcc, ih cs' this]

theorem splitAll_getLast (cs : List Char) (h : (splitAll cs).getLast? = some []) :
    cs = [] ∨ cs.getLast? = some '.' := by
  induction cs with
  | nil => left; rfl
  | cons c cs ih =>
    right
    have hne := splitAll_ne_nil cs
    by_cases hc : c = '.'
    · subst hc
      simp only [splitAll, if_true] at h
      cases hs : splitAll cs with
      | nil => exact absurd hs hne
      | cons f fs =>
        rw [hs, List.getLast?_cons_cons] at h
        rw [← hs] at h
        rcases ih h with h1 | h1
        · subst h1; rfl
        · cases cs with
          | nil => simp at h1
          | cons x xs => rw [List.getLast?_cons_cons]; exact h1
    · simp only [splitAll, hc, if_false] at h
      cases hs : splitAll cs with
      | nil => exact absurd hs hne
      | cons f fs =>
        simp only [hs] at h
        cases fs with
        | nil => simp at h
        | cons g gs =>
          rw [List.getLast?_cons_cons] at h
          have h' : (splitAll cs).getLast? = some [] := by
            rw [hs, List.getLast?_cons_cons]; exact h
          rcases ih h' with h1 | h1
          · subst h1
            simp [splitAll] at hs
          · cases cs with
            | nil => simp at h1
            | cons x xs => rw [List.getLast?_cons_cons]; exact h1

/-- A key that is not empty and does not end at the separator is consumed by a put
piece by piece, with no empty piece at the end. -/
theorem fragments_eq_forced (k : String) (hne : k ≠ "") (h : ¬ EndsAtSeparator k) :
    fragments k = forcedFragments k := by
  simp only [fragments, forcedFragments]
  split
  · rename_i hl
    exfalso
    rw [List.getLast?_map] at hl
    cases hs : (splitAll k.data).getLast? with
    | none => simp [hs] at hl
    | some piece =>
      simp only [hs, Option.map_some', Option.some.injEq] at hl
      have hp : piece = [] := by
        have := congrArg String.data hl
        simpa using this
      subst hp
      rcases splitAll_getLast k.data hs with h1 | h1
      · apply hne
        apply String.ext
        exact h1
      · exact h h1
  · rfl

theorem fragments_empty : fragments "" = [] := by decide

/-- A put under a key that does not end at the separator is a put along the fragments
of the key. -/
theorem put_eq_putFrags (t : PTree) (k v : String) (h : ¬ EndsAtSeparator k) :
    t.put k v = putFrags (fragments k) v t := by
  by_cases hne : k = ""
  · subst hne
    simp only [put, getChildOptional, fragments_empty, putFrags, walk]
  · simp only [put, getChildOptional, fragments_eq_forced k hne h, putFrags]

/-- Keys that do not end at the separator and have the same fragments are the same
key. -/
theorem fragments_injective (k k' : String) (h : ¬ EndsAtSeparator k)
    (h' : ¬ EndsAtSeparator k') (heq : fragments k = fragments k') : k = k' := by
  by_cases hne : k = ""
  · by_cases hne' : k' = ""
    · rw [hne, hne']
    · subst hne
      rw [fragments_empty, fragments_eq_forced k' hne' h'] at heq
      exact absurd heq.symm (forcedFragments_ne_nil k')
  · by_cases hne' : k' = ""
    · subst hne'
      rw [fragments_empty, fragments_eq_forced k hne h] at heq
      exact absurd heq (forcedFragments_ne_nil k)
    · rw [fragments_eq_forced k hne h, fragments_eq_forced k' hne' h'] at heq
      simp only [forcedFragments] at heq
      have hinj : Function.Injective String.mk := by
        intro a b hab
        have := congrArg String.data hab
        simpa using this
      have := List.map_injective_iff.mpr hinj heq
      apply String.ext
      exact splitAll_injective _ _ this

theorem fragments_ne_nil (k : String) (hne : k ≠ "") (h : ¬ EndsAtSeparator k) :
    fragments k ≠ [] := by
  rw [fragments_eq_forced k hne h]
  exact forcedFragments_ne_nil k

end PTree

namespace PTree

theorem walk_prefix_isSome (gs more : List String) :
    ∀ t : PTree, (walk (gs ++ more) t).isSome = true → (walk gs t).isSome = true := by
  induction gs with
  | nil => intro t _; rfl
  | cons g gs ih =>
    intro t h
    simp only [List.cons_append, walk] at h ⊢
    cases hl : t.find g with
    | none => simp [hl] at h
    | some c =>
      simp only [hl] at h ⊢
      exact ih c h

/-- Where `put_child` makes a node appear that was not there, the node is a parent on
the way to the new child. -/
theorem dataAt_putChild_frame (v : String) (frs : List String) :
    ∀ (t : PTree) (gs : List String), walk frs t = none → gs ≠ frs →
      dataAt gs (putChild frs (leaf v) t) = dataAt gs t ∨
      (dataAt gs t = none ∧ dataAt gs (putChild frs (leaf v) t) = some "" ∧ gs <+: frs) := by
  induction frs with
  | nil => intro t gs h; simp [walk] at h
  | cons f rest ih =>
    intro t gs h hne
    obtain ⟨d, cs⟩ := t
    cases gs with
    | nil =>
      left
      cases rest with
      | nil => simp only [putChild]; split <;> simp [dataAt, walk]
      | cons g' rest' => simp only [putChild]; split <;> simp [dataAt, walk]
    | cons g gs =>
      cases rest with
      | nil =>
        have hl : List.lookup f cs = none := by
          cases hl : List.lookup f cs with
          | none => rfl
          | some c1 => simp [walk, hl] at h
        left
        simp only [putChild, hl, Option.isSome_none, Bool.false_eq_true, if_false, dataAt,
          walk, find_node, lookup_append_single]
        cases hg : List.lookup g cs with
        | some c1 => simp
        | none =>
          by_cases hgf : g = f
          · subst hgf
            cases gs with
            | nil => exact absurd rfl hne
            | cons x xs => simp [leaf, walk, List.lookup]
          · simp [hgf]
      | cons g' rest' =>
        cases hl : List.lookup f cs with
        | some c1 =>
          have h1 : walk (g' :: rest') c1 = none := by
            simpa [walk, hl] using h
          simp only [putChild, hl, Option.isSome_some, if_true, dataAt, walk, find_node,
            lookup_modifyFirst]
          by_cases hgf : g = f
          · subst hgf
            have hne' : gs ≠ g' :: rest' := fun e => hne (by rw [e])
            have := ih c1 gs h1 hne'
            simp only [dataAt] at this
            rcases this with h2 | h2
            · left; simpa [hl] using h2
            · right
              refine ⟨by simpa [hl] using h2.1, by simpa [hl] using h2.2.1, ?_⟩
              exact List.cons_prefix_cons.mpr ⟨rfl, h2.2.2⟩
          · left; simp [hgf]
        | none =>
          simp only [putChild, hl, Option.isSome_none, Bool.false_eq_true, if_false, dataAt,
            walk, find_node, lookup_append_single]
          cases hg : List.lookup g cs with
          | some c1 => left; simp
          | none =>
            by_cases hgf : g = f
            · subst hgf
              have hne' : gs ≠ g' :: rest' := fun e => hne (by rw [e])
              have h1 : walk (g' :: rest') (node "" []) = none := by
                simp [walk, List.lookup]
              have := ih (node "" []) gs h1 hne'
              simp only [dataAt] at this
              cases gs with
              | nil =>
                right
                refine ⟨by simp, ?_, List.cons_prefix_cons.mpr ⟨rfl, List.nil_prefix⟩⟩
                rcases this with h2 | h2
                · simp [walk] at h2 ⊢
                  simpa using h2
                · simp [walk] at h2
              | cons x xs =>
                have h3 : walk (x :: xs) (node "" []) = none := by simp [walk, List.lookup]
                rcases this with h2 | h2
                · left; simpa [h3] using h2
                · right
                  refine ⟨by simp, by simpa using h2.2.1, ?_⟩
                  exact List.cons_prefix_cons.mpr ⟨rfl, h2.2.2⟩
            · left; simp [hgf]

/-- The payload at any fragments after a put along fragments, from the payload there
before. -/
theorem dataAt_putFrags (v : String) (frs gs : List String) (t : PTree) :
    dataAt gs (putFrags frs v t) = putAt gs frs v (dataAt gs t) := by
  by_cases hg : gs = frs
  · subst hg
    simp [putAt, dataAt_putFrags_same]
  · simp only [putAt, hg, if_false]
    cases hw : walk frs t with
    | some c =>
      simp only [putFrags, hw]
      rw [dataAt_setData_other v frs gs t hg]
      cases hold : dataAt gs t with
      | some x => rfl
      | none =>
        simp only
        have : ¬ gs <+: frs := by
          intro hp
          obtain ⟨more, hm⟩ := hp
          have h1 : (walk (gs ++ more) t).isSome = true := by rw [hm, hw]; rfl
          have h2 := walk_prefix_isSome gs more t h1
          rw [isSome_walk_iff_dataAt, hold] at h2
          cases h2
        simp [this]
    | none =>
      have hsame : dataAt frs (putFrags frs v t) = some v := dataAt_putFrags_same v frs t
      simp only [putFrags, hw] at hsame ⊢
      rcases dataAt_putChild_frame v frs t gs hw hg with h1 | h1
      · rw [h1]
        cases hold : dataAt gs t with
        | some x => rfl
        | none =>
          simp only
          have : ¬ gs <+: frs := by
            intro hp
            obtain ⟨more, hm⟩ := hp
            have h3 : (walk (gs ++ more) (putChild frs (leaf v) t)).isSome = true := by
              rw [hm, isSome_walk_iff_dataAt, hsame]; rfl
            have h2 := walk_prefix_isSome gs more _ h3
            rw [isSome_walk_iff_dataAt, h1, hold] at h2
            cases h2
          simp [this]
      · rw [h1.1, h1.2.1]
        simp [h1.2.2]

/-- A put, under any key, leaves the payload of every node that exists at other
fragments than those of the key. -/
theorem dataAt_put_keep (t : PTree) (key v : String) (gs : List String) (x : String)
    (hold : dataAt gs t = some x) (hne : gs ≠ fragments key) :
    dataAt gs (t.put key v) = some x := by
  simp only [put, getChildOptional]
  cases hw : walk (fragments key) t with
  | some c =>
    simp only
    rw [dataAt_setData_other v _ gs t hne]; exact hold
  | none =>
    simp only
    have hw' : walk (forcedFragments key) t = none := by
      rcases forcedFragments_eq key with e | e
      · rw [e]; exact hw
      · rw [e]; exact walk_append_none _ _ t hw
    have hg : gs ≠ forcedFragments key := by
      intro e
      have : (dataAt gs t).isSome = true := by rw [hold]; rfl
      rw [e, ← isSome_walk_iff_dataAt, hw'] at this
      cases this
    rcases dataAt_putChild_other v _ t gs hw' hg with h1 | h1
    · rw [h1]; exact hold
    · rw [h1.1] at hold; cases hold

end PTree

/-- The overlay leaves the payload of every node of the defaults whose fragments no key
of the parsed tree has. -/
theorem dataAt_mergeDefaults_keep (d p : PTree) (gs : List String) (x : String)
    (hold : dataAt gs d = some x) (hne : ∀ e ∈ p.children, gs ≠ fragments e.1) :
    dataAt gs (mergeDefaults d p) = some x := by
  simp only [mergeDefaults]
  generalize p.children = es at hne
  induction es generalizing d with
  | nil => exact hold
  | cons e es ih =>
    simp only [List.foldl_cons]
    exact ih _ (PTree.dataAt_put_keep d e.1 e.2.data gs x hold (hne e (List.mem_cons_self _ _)))
      (fun y hy => hne y (List.mem_cons_of_mem _ hy))

/-- The payload at any fragments after the overlay loop over entries whose keys do not
end at the separator. -/
theorem dataAt_foldl_put (es : List (String × PTree))
    (hdot : ∀ e ∈ es, ¬ EndsAtSeparator e.1) (gs : List String) (t : PTree) :
    dataAt gs (es.foldl (fun acc it => acc.put it.1 it.2.data) t) =
      es.foldl (fun o it => putAt gs (fragments it.1) it.2.data o) (dataAt gs t) := by
  induction es generalizing t with
  | nil => rfl
  | cons e es ih =>
    simp only [List.foldl_cons]
    rw [ih (fun y hy => hdot y (List.mem_cons_of_mem _ hy)),
      PTree.put_eq_putFrags t e.1 e.2.data (hdot e (List.mem_cons_self _ _)),
      PTree.dataAt_putFrags]

theorem putAt_comm (gs frs frs' : List String) (v v' : String) (o : Option String)
    (hne : frs ≠ frs') :
    putAt gs frs' v' (putAt gs frs v o) = putAt gs frs v (putAt gs frs' v' o) := by
  simp only [putAt]
  by_cases h1 : gs = frs
  · have h2 : gs ≠ frs' := fun e => hne (h1 ▸ e)
    simp [h1, h2, hne]
  · by_cases h2 : gs = frs'
    · have h3 : frs' ≠ frs := fun e => hne e.symm
      simp [h2, h3]
    · simp only [h1, h2, if_false]
      cases o with
      | some x => rfl
      | none =>
        by_cases p1 : gs <+: frs <;> by_cases p2 : gs <+: frs' <;> simp [p1, p2]

theorem foldl_putAt_some (es : List (String × PTree)) (gs : List String) (x : String)
    (hne : ∀ e ∈ es, gs ≠ fragments e.1) :
    es.foldl (fun o it => putAt gs (fragments it.1) it.2.data o) (some x) = some x := by
  induction es with
  | nil => rfl
  | cons e es ih =>
    simp only [List.foldl_cons]
    have : putAt gs (fragments e.1) e.2.data (some x) = some x := by
      simp [putAt, hne e (List.mem_cons_self _ _)]
    rw [this]
    exact ih (fun y hy => hne y (List.mem_cons_of_mem _ hy))

theorem foldl_putAt_none (es : List (String × PTree)) (gs : List String)
    (hne : ∀ e ∈ es, ¬ gs <+: fragments e.1) :
    es.foldl (fun o it => putAt gs (fragments it.1) it.2.data o) none = none := by
  induction es with
  | nil => rfl
  | cons e es ih =>
    simp only [List.foldl_cons]
    have h1 := hne e (List.mem_cons_self _ _)
    have h2 : gs ≠ fragments e.1 := fun h => h1 (h ▸ List.prefix_refl _)
    have : putAt gs (fragments e.1) e.2.data none = none := by
      simp [putAt, h1, h2]
    rw [this]
    exact ih (fun y hy => hne y (List.mem_cons_of_mem _ hy))

theorem fragments_ne_of_key_ne (es : List (String × PTree))
    (hdot : ∀ e ∈ es, ¬ EndsAtSeparator e.1) (k : String) (hk : ¬ EndsAtSeparator k)
    (hnot : k ∉ es.map Prod.fst) : ∀ e ∈ es, fragments k ≠ fragments e.1 := by
  intro e he heq
  have := PTree.fragments_injective k e.1 hk (hdot e he) heq
  exact hnot (this ▸ List.mem_map_of_mem Prod.fst he)

theorem foldl_putAt_mem (es : List (String × PTree))
    (hdot : ∀ e ∈ es, ¬ EndsAtSeparator e.1) (hnd : (es.map Prod.fst).Nodup)
    (e : String × PTree) (he : e ∈ es) (o : Option String) :
    es.foldl (fun o it => putAt (fragments e.1) (fragments it.1) it.2.data o) o =
      some e.2.data := by
  induction es generalizing o with
  | nil => cases he
  | cons y ys ih =>
    simp only [List.foldl_cons]
    simp only [List.map_cons, List.nodup_cons] at hnd
    have hdot' : ∀ z ∈ ys, ¬ EndsAtSeparator z.1 := fun z hz => hdot z (List.mem_cons_of_mem _ hz)
    rcases List.mem_cons.mp he with heq | hin
    · subst heq
      have : putAt (fragments e.1) (fragments e.1) e.2.data o = some e.2.data := by
        simp [putAt]
      rw [this]
      exact foldl_putAt_some ys _ _
        (fragments_ne_of_key_ne ys hdot' e.1 (hdot e (List.mem_cons_self _ _)) hnd.1)
    · exact ih hdot' hnd.2 hin _

/-! ## C1: override correctness -/

/-- C1 fails as stated: a section with the keys `a` and `a.`, which `read_ini` delivers
as two leaves under distinct keys, has the payload `1` at `a`, while the merged tree
has `2` there, since both keys lead a put to the same node; and a section with the
single key `a.` leaves the merged tree with an empty payload at `a.`, the text `2`
being stored one level below. -/
theorem mergeDefaults_override_fails :
    ((node "" [("a", leaf "1"), ("a.", leaf "2")]).children.map Prod.fst).Nodup ∧
    (∀ e ∈ (node "" [("a", leaf "1"), ("a.", leaf "2")]).children, e.2.empty = true) ∧
    (node "" [("a", leaf "1"), ("a.", leaf "2")]).getString "a" = .ok "1" ∧
    (mergeDefaults (node "" []) (node "" [("a", leaf "1"), ("a.", leaf "2")])).getString "a" =
      .ok "2" ∧
    ((node "" [("a.", leaf "2")]).find "a.").map PTree.data = some "2" ∧
    (mergeDefaults (node "" []) (node "" [("a.", leaf "2")])).getString "a." = .ok "" := by
  decide

/-- C1, amended. Override correctness of the merge step of `ParseConfigFile`: for every
default tree `d` and every parsed group `p` with distinct keys none of which ends at
the path separator, every key of `p` leads, in the merged tree, to exactly the
payload `p` holds under it, whether or not `d` has the path; so does every path
into `p` when `p` is a section of leaves under non-empty keys; and every path present
in `d` that no key of `p` spells carries the payload of `d` (this part for every
`p`). -/
theorem mergeDefaults_override (d p : PTree)
    (hnd : (p.children.map Prod.fst).Nodup)
    (hdot : ∀ e ∈ p.children, ¬ EndsAtSeparator e.1) :
    (∀ e ∈ p.children, (mergeDefaults d p).getString e.1 = .ok e.2.data) ∧
    ((∀ e ∈ p.children, e.2.empty = true ∧ e.1 ≠ "") →
      ∀ (path : String) (c : PTree), fragments path ≠ [] →
        p.getChildOptional path = some c →
        (mergeDefaults d p).getString path = .ok c.data) ∧
    (∀ (q : PTree) (path : String) (c : PTree), d.getChildOptional path = some c →
        (∀ e ∈ q.children, fragments e.1 ≠ fragments path) →
        (mergeDefaults d q).getString path = .ok c.data) := by
  have hkey : ∀ e ∈ p.children, dataAt (fragments e.1) (mergeDefaults d p) = some e.2.data := by
    intro e he
    simp only [mergeDefaults]
    rw [dataAt_foldl_put p.children hdot]
    exact foldl_putAt_mem p.children hdot hnd e he _
  refine ⟨?_, ?_, ?_⟩
  · intro e he
    exact (getString_ok_iff _ _ _).mpr (hkey e he)
  · intro hflat path c hne hc
    obtain ⟨k, hk, hmem⟩ := walk_flat (fun e he => (hflat e he).1) hne hc
    have hkne : k ≠ "" := (hflat (k, c) hmem).2
    have hkdot : '.' ∉ k.data := by
      have hmemk : k ∈ fragments path := by rw [hk]; exact List.mem_singleton_self k
      have hsub : ∀ f ∈ fragments path, f ∈ forcedFragments path := by
        intro f hf
        rcases PTree.forcedFragments_eq path with e | e
        · rw [e]; exact hf
        · rw [e]; exact List.mem_append_left _ hf
      exact PTree.forcedFragments_no_dot path k (hsub k hmemk)
    have h := hkey (k, c) hmem
    simp only [PTree.fragments_simple k hkne hkdot] at h
    rw [getString_ok_iff, hk]
    exact h
  · intro q path c hd hno
    rw [getString_ok_iff]
    apply dataAt_mergeDefaults_keep
    · simp only [getChildOptional] at hd
      simp [dataAt, hd]
    · intro e he heq
      exact hno e he heq.symm

/-- C1, amended, at a concrete file: the section holds `output`, `sigma` and the
dotted key `grp.x`, the defaults hold `sigma`, `level` and `grp.x`; `output`, `sigma`
and `grp.x` come from the file, `level` from the defaults. -/
theorem mergeDefaults_override_witness :
    (mergeDefaults
        (node "" [("sigma", leaf "0"), ("level", leaf "0"), ("grp", node "" [("x", leaf "1")])])
        (node "" [("output", leaf "b.vtk"), ("sigma", leaf "2"), ("grp.x", leaf "3")])
      ).getString "grp.x" = .ok "3" ∧
    (mergeDefaults
        (node "" [("sigma", leaf "0"), ("level", leaf "0"), ("grp", node "" [("x", leaf "1")])])
        (node "" [("output", leaf "b.vtk"), ("sigma", leaf "2"), ("grp.x", leaf "3")])
      ).getString "sigma" = .ok "2" ∧
    (mergeDefaults
        (node "" [("sigma", leaf "0"), ("level", leaf "0"), ("grp", node "" [("x", leaf "1")])])
        (node "" [("output", leaf "b.vtk"), ("sigma", leaf "2"), ("grp.x", leaf "3")])
      ).getString "level" = .ok "0" :=
  ⟨(mergeDefaults_override
      (node "" [("sigma", leaf "0"), ("level", leaf "0"), ("grp", node "" [("x", leaf "1")])])
      (node "" [("output", leaf "b.vtk"), ("sigma", leaf "2"), ("grp.x", leaf "3")])
      (by decide) (by decide)).1 ("grp.x", leaf "3") (by simp),
   (mergeDefaults_override
      (node "" [("sigma", leaf "0"), ("level", leaf "0"), ("grp", node "" [("x", leaf "1")])])
      (node "" [("output", leaf "b.vtk"), ("sigma", leaf "2"), ("grp.x", leaf "3")])
      (by decide) (by decide)).1 ("sigma", leaf "2") (by simp),
   (mergeDefaults_override
      (node "" [("sigma", leaf "0"), ("level", leaf "0"), ("grp", node "" [("x", leaf "1")])])
      (node "" [("output", leaf "b.vtk"), ("sigma", leaf "2"), ("grp.x", leaf "3")])
      (by decide) (by decide)).2.2
      (node "" [("output", leaf "b.vtk"), ("sigma", leaf "2"), ("grp.x", leaf "3")])
      "level" (leaf "0") rfl (by decide)⟩

/-- A dotted key of the file is a path for the overlay: with the defaults holding `x` at
`a.b` and a section holding the key `a.b`, the section has nothing at the path `a.b`,
yet the merged tree holds the text of the file there, not that of the defaults. -/
theorem mergeDefaults_override_dotted_key :
    ((node "" [("a.b", leaf "1")]).getChildOptional "a.b").isNone = true ∧
    (node "" [("a", node "" [("b", leaf "x")])]).getString "a.b" = .ok "x" ∧
    (mergeDefaults (node "" [("a", node "" [("b", leaf "x")])])
        (node "" [("a.b", leaf "1")])).getString "a.b" = .ok "1" := by
  decide

/-! ## C18: order of the parsed entries -/

theorem eq_of_key_eq {es : List (String × PTree)} (hnd : (es.map Prod.fst).Nodup)
    {x y : String × PTree} (hx : x ∈ es) (hy : y ∈ es) (h : x.1 = y.1) : x = y := by
  induction es with
  | nil => cases hx
  | cons z zs ih =>
    simp only [List.map_cons, List.nodup_cons] at hnd
    rcases List.mem_cons.mp hx with h1 | h1
    · rcases List.mem_cons.mp hy with h2 | h2
      · rw [h1, h2]
      · exfalso
        apply hnd.1
        rw [← h1, h]
        exact List.mem_map_of_mem Prod.fst h2
    · rcases List.mem_cons.mp hy with h2 | h2
      · exfalso
        apply hnd.1
        rw [← h2, ← h]
        exact List.mem_map_of_mem Prod.fst h1
      · exact ih hnd.2 h1 h2

/-- C18 fails as stated: the sections that hold the entries `a = 1` and `a. = 2` in the
two orders, both of which `read_ini` delivers, give `2` and `1` at the path `a` of the
merged tree. -/
theorem mergeDefaults_order_matters :
    (node "" [("a", leaf "1"), ("a.", leaf "2")]).children.Perm
      (node "" [("a.", leaf "2"), ("a", leaf "1")]).children ∧
    ((node "" [("a", leaf "1"), ("a.", leaf "2")]).children.map Prod.fst).Nodup ∧
    (mergeDefaults (node "" []) (node "" [("a", leaf "1"), ("a.", leaf "2")])).getString "a" =
      .ok "2" ∧
    (mergeDefaults (node "" []) (node "" [("a.", leaf "2"), ("a", leaf "1")])).getString "a" =
      .ok "1" :=
  ⟨List.Perm.swap _ _ _, by decide, by decide, by decide⟩

/-- C18, amended. The merge does not depend on the order of the parsed entries: for
every default tree and every two parsed trees that hold the same entries in a
different order, under distinct keys none of which ends at the path separator, the
merged trees give the same result at every path. -/
theorem mergeDefaults_order_independent (d p p' : PTree)
    (hperm : p.children.Perm p'.children) (hnd : (p.children.map Prod.fst).Nodup)
    (hdot : ∀ e ∈ p.children, ¬ EndsAtSeparator e.1) (path : String) :
    (mergeDefaults d p).getString path = (mergeDefaults d p').getString path := by
  have hdot' : ∀ e ∈ p'.children, ¬ EndsAtSeparator e.1 :=
    fun e he => hdot e (hperm.mem_iff.mpr he)
  apply getString_congr_dataAt
  simp only [mergeDefaults]
  rw [dataAt_foldl_put p.children hdot, dataAt_foldl_put p'.children hdot']
  apply List.Perm.foldl_eq' hperm
  intro x hx y hy o
  by_cases hxy : x = y
  · rw [hxy]
  · have hne : fragments x.1 ≠ fragments y.1 := by
      intro heq
      exact hxy (eq_of_key_eq hnd hx hy
        (PTree.fragments_injective x.1 y.1 (hdot x hx) (hdot y hy) heq))
    exact putAt_comm (fragments path) (fragments x.1) (fragments y.1) x.2.data y.2.data o hne

/-- C18, amended, on a section read as `output`, `grp.x`, `sigma` and as `sigma`,
`output`, `grp.x`. -/
theorem mergeDefaults_order_independent_witness :
    (mergeDefaults (node "" [("sigma", leaf "0"), ("level", leaf "0")])
        (node "" [("output", leaf "b.vtk"), ("grp.x", leaf "1"), ("sigma", leaf "2")])
      ).getString "grp" =
    (mergeDefaults (node "" [("sigma", leaf "0"), ("level", leaf "0")])
        (node "" [("sigma", leaf "2"), ("output", leaf "b.vtk"), ("grp.x", leaf "1")])
      ).getString "grp" :=
  mergeDefaults_order_independent (node "" [("sigma", leaf "0"), ("level", leaf "0")])
    (node "" [("output", leaf "b.vtk"), ("grp.x", leaf "1"), ("sigma", leaf "2")])
    (node "" [("sigma", leaf "2"), ("output", leaf "b.vtk"), ("grp.x", leaf "1")])
    (((List.Perm.swap _ _ _).cons _).trans (List.Perm.swap _ _ _)) (by decide) (by decide)
    "grp"

/-- Keys that spell distinct paths do not suffice for C18 when one of them ends at the
separator: with the entries `a. = 1` and `a.b = 2` the payload at `a` is empty in one
order and `1` in the other. -/
theorem mergeDefaults_order_matters_trailing :
    fragments "a." ≠ fragments "a.b" ∧
    (mergeDefaults (node "" []) (node "" [("a.", leaf "1"), ("a.b", leaf "2")])).getString "a" =
      .ok "" ∧
    (mergeDefaults (node "" []) (node "" [("a.b", leaf "2"), ("a.", leaf "1")])).getString "a" =
      .ok "1" := by
  decide

/-! ## C17: the two trees of the registry, for dotted paths -/

theorem foldl_putAt_blank (es : List (String × PTree)) (gs : List String)
    (hne : ∀ e ∈ es, gs ≠ fragments e.1) (o : Option String) (ho : o = none ∨ o = some "") :
    es.foldl (fun o it => putAt gs (fragments it.1) it.2.data o) o = none ∨
    es.foldl (fun o it => putAt gs (fragments it.1) it.2.data o) o = some "" := by
  induction es generalizing o with
  | nil => exact ho
  | cons e es ih =>
    simp only [List.foldl_cons]
    apply ih (fun y hy => hne y (List.mem_cons_of_mem _ hy))
    have h1 := hne e (List.mem_cons_self _ _)
    rcases ho with h | h
    · subst h
      by_cases hp : gs <+: fragments e.1
      · right; simp [putAt, h1, hp]
      · left; simp [putAt, h1, hp]
    · subst h
      right; simp [putAt, h1]

theorem getBool_of_dataAt (t : PTree) (path : String) (b : Bool)
    (h : dataAt (fragments path) t = some (boolText b)) : t.getBool path = .ok b := by
  simp only [dataAt, Option.map_eq_some'] at h
  obtain ⟨c, hc, hd⟩ := h
  simp only [getBool, getChildOptional, hc, hd]
  cases b <;> simp [boolText]

theorem getBool_false_dataAt (t : PTree) (path : String) (h : t.getBool path = .ok false) :
    dataAt (fragments path) t = some "false" ∨ dataAt (fragments path) t = some "0" := by
  simp only [getBool, getChildOptional] at h
  cases hw : walk (fragments path) t with
  | none => simp [hw] at h
  | some c =>
    simp only [hw] at h
    split at h
    · cases h
    · split at h
      · rename_i hf
        simp only [dataAt, hw, Option.map_some', Option.some.injEq]
        exact hf
      · cases h

namespace OptionsBase

theorem registry_required_eq (puts : List (String × String × Bool)) (base : OptionsBase) :
    (registry base puts).m_PtreeOfRequired =
      (puts.map fun x => (x.1, leaf (boolText x.2.2))).foldl
        (fun acc it => acc.put it.1 it.2.data) base.m_PtreeOfRequired := by
  induction puts generalizing base with
  | nil => rfl
  | cons x xs ih =>
    simp only [registry, List.foldl_cons, List.map_cons]
    have := ih (base.Put x.1 x.2.1 x.2.2)
    simp only [registry] at this
    rw [this, Put_required]
    rfl

theorem registry_defaults_eq (puts : List (String × String × Bool)) (base : OptionsBase) :
    (registry base puts).m_PtreeOfDefaultValues =
      ((puts.filter fun x => !x.2.2).map fun x => (x.1, leaf x.2.1)).foldl
        (fun acc it => acc.put it.1 it.2.data) base.m_PtreeOfDefaultValues := by
  induction puts generalizing base with
  | nil => rfl
  | cons x xs ih =>
    simp only [registry, List.foldl_cons]
    have := ih (base.Put x.1 x.2.1 x.2.2)
    simp only [registry] at this
    rw [this, Put_defaults]
    cases hx : x.2.2 with
    | true => simp [List.filter_cons, hx]
    | false => simp [List.filter_cons, hx, leaf]

/-- C17 also fails for distinct paths when a path registered as required lies above a
path registered as optional: after `a` is registered as required and `a.b` as
optional, the default-value tree has a node at `a`, which reads as the empty text,
while the leaf of `a` in the required-schema tree is `true`. -/
theorem Put_below_required_gives_default :
    (registry init [("a", "", true), ("a.b", "0", false)]).m_PtreeOfDefaultValues.getString
      "a" = .ok "" ∧
    (registry init [("a", "", true), ("a.b", "0", false)]).m_PtreeOfRequired.getBool
      "a" = .ok true := by
  decide

/-- C17, amended. After every sequence of `Put` calls on fresh trees: when the paths are
dotted paths, every path whose node in the required-schema tree is `false` has an
entry in the default-value tree.  When the sequence registers distinct paths, none
empty or ending at the separator, and no path as required that lies above a path
registered as optional: every registered path holds its own flag in the
required-schema tree; it has an entry in the default-value tree if and only if its
leaf in the required-schema tree is false; the entry of an optional path is its
declared default; and the equivalence also holds at every other path that does not
lie above a path registered as optional. -/
theorem registry_default_iff_optional (puts : List (String × String × Bool))
    (base : OptionsBase) (hR : base.m_PtreeOfRequired = .node "" [])
    (hD : base.m_PtreeOfDefaultValues = .node "" []) :
    ((∀ x ∈ puts, WellFormedPath x.1) →
      ∀ path, (registry base puts).m_PtreeOfRequired.getString path = .ok "false" →
        ∃ v, (registry base puts).m_PtreeOfDefaultValues.getString path = .ok v) ∧
    ((∀ x ∈ puts, x.1 ≠ "" ∧ ¬ EndsAtSeparator x.1) → (puts.map (·.1)).Nodup →
      (∀ x ∈ puts, ∀ y ∈ puts, x.2.2 = true → y.2.2 = false →
        ¬ fragments x.1 <+: fragments y.1) →
      (∀ x ∈ puts,
        (registry base puts).m_PtreeOfRequired.getBool x.1 = .ok x.2.2 ∧
        ((∃ v, (registry base puts).m_PtreeOfDefaultValues.getString x.1 = .ok v) ↔
          (registry base puts).m_PtreeOfRequired.getBool x.1 = .ok false) ∧
        (x.2.2 = false →
          (registry base puts).m_PtreeOfDefaultValues.getString x.1 = .ok x.2.1)) ∧
      (∀ path : String, fragments path ≠ [] →
        (∀ y ∈ puts, y.2.2 = false → fragments path <+: fragments y.1 →
          fragments path = fragments y.1) →
        ((∃ v, (registry base puts).m_PtreeOfDefaultValues.getString path = .ok v) ↔
          (registry base puts).m_PtreeOfRequired.getBool path = .ok false))) := by
  constructor
  · intro hwf path hpath
    have hinv := registryInv_registry puts base hwf (registryInv_fresh base hR)
    rw [getString_ok_iff] at hpath
    rcases hinv (fragments path) "false" hpath with h | h | h
    · exact absurd h (by decide)
    · exact absurd h (by decide)
    · have h2 := h.2
      cases hw : walk (fragments path) (registry base puts).m_PtreeOfDefaultValues with
      | none => rw [hw] at h2; cases h2
      | some c => exact ⟨c.data, by simp [getString, getChildOptional, hw]⟩
  intro hkey hnd hbelow
  -- the two trees as overlays of lists of leaves
  have hdotR : ∀ e ∈ puts.map (fun x => (x.1, leaf (boolText x.2.2))),
      ¬ EndsAtSeparator e.1 := by
    intro e he
    obtain ⟨x, hx, rfl⟩ := List.mem_map.mp he
    exact (hkey x hx).2
  have hdotD : ∀ e ∈ (puts.filter fun x => !x.2.2).map (fun x => (x.1, leaf x.2.1)),
      ¬ EndsAtSeparator e.1 := by
    intro e he
    obtain ⟨x, hx, rfl⟩ := List.mem_map.mp he
    exact (hkey x (List.mem_of_mem_filter hx)).2
  have hndR : ((puts.map (fun x => (x.1, leaf (boolText x.2.2)))).map Prod.fst).Nodup := by
    simpa [List.map_map, Function.comp_def] using hnd
  have hndD : (((puts.filter fun x => !x.2.2).map (fun x => (x.1, leaf x.2.1))).map
      Prod.fst).Nodup := by
    have h1 : ((puts.filter fun x => !x.2.2).map (·.1)).Nodup :=
      List.Nodup.sublist (List.Sublist.map _ (List.filter_sublist _)) hnd
    simpa [List.map_map, Function.comp_def] using h1
  have hfreshR : ∀ gs : List String, gs ≠ [] → dataAt gs base.m_PtreeOfRequired = none := by
    intro gs hgs
    rw [hR]
    cases gs with
    | nil => exact absurd rfl hgs
    | cons g gs => simp [dataAt, walk, List.lookup]
  have hfreshD : ∀ gs : List String, gs ≠ [] →
      dataAt gs base.m_PtreeOfDefaultValues = none := by
    intro gs hgs
    rw [hD]
    cases gs with
    | nil => exact absurd rfl hgs
    | cons g gs => simp [dataAt, walk, List.lookup]
  -- payloads at a registered path
  have hRx : ∀ x ∈ puts, dataAt (fragments x.1) (registry base puts).m_PtreeOfRequired =
      some (boolText x.2.2) := by
    intro x hx
    rw [registry_required_eq, dataAt_foldl_put _ hdotR]
    exact foldl_putAt_mem _ hdotR hndR (x.1, leaf (boolText x.2.2))
      (List.mem_map.mpr ⟨x, hx, rfl⟩) _
  have hDopt : ∀ x ∈ puts, x.2.2 = false →
      dataAt (fragments x.1) (registry base puts).m_PtreeOfDefaultValues = some x.2.1 := by
    intro x hx hopt
    rw [registry_defaults_eq, dataAt_foldl_put _ hdotD]
    exact foldl_putAt_mem _ hdotD hndD (x.1, leaf x.2.1)
      (List.mem_map.mpr ⟨x, List.mem_filter.mpr ⟨hx, by simp [hopt]⟩, rfl⟩) _
  have hDnone : ∀ gs : List String, gs ≠ [] →
      (∀ y ∈ puts, y.2.2 = false → ¬ gs <+: fragments y.1) →
      dataAt gs (registry base puts).m_PtreeOfDefaultValues = none := by
    intro gs hgs hno
    rw [registry_defaults_eq, dataAt_foldl_put _ hdotD, hfreshD gs hgs]
    apply foldl_putAt_none
    intro e he
    obtain ⟨y, hy, rfl⟩ := List.mem_map.mp he
    have hy' := List.mem_filter.mp hy
    exact hno y hy'.1 (by simpa using hy'.2)
  have hfirst : ∀ x ∈ puts,
      (registry base puts).m_PtreeOfRequired.getBool x.1 = .ok x.2.2 ∧
      ((∃ v, (registry base puts).m_PtreeOfDefaultValues.getString x.1 = .ok v) ↔
        (registry base puts).m_PtreeOfRequired.getBool x.1 = .ok false) ∧
      (x.2.2 = false →
        (registry base puts).m_PtreeOfDefaultValues.getString x.1 = .ok x.2.1) := by
    intro x hx
    have hb := getBool_of_dataAt _ x.1 x.2.2 (hRx x hx)
    refine ⟨hb, ?_, fun hopt => (getString_ok_iff _ _ _).mpr (hDopt x hx hopt)⟩
    rw [hb]
    cases hreq : x.2.2 with
    | false =>
      simp only [iff_true]
      exact ⟨x.2.1, (getString_ok_iff _ _ _).mpr (hDopt x hx hreq)⟩
    | true =>
      have hnone := hDnone (fragments x.1)
        (PTree.fragments_ne_nil x.1 (hkey x hx).1 (hkey x hx).2)
        (fun y hy hopt => hbelow x hx y hy hreq hopt)
      constructor
      · rintro ⟨v, hv⟩
        rw [getString_ok_iff, hnone] at hv
        cases hv
      · intro h
        cases h
  refine ⟨hfirst, ?_⟩
  intro path hne hgroup
  by_cases hreg : ∃ x ∈ puts, fragments x.1 = fragments path
  · obtain ⟨x, hx, hfx⟩ := hreg
    obtain ⟨h1, h2, _⟩ := hfirst x hx
    have e1 : ∀ t : PTree, t.getString path = t.getString x.1 := by
      intro t; simp only [getString, getChildOptional, hfx]
    have e2 : ∀ t : PTree, t.getBool path = t.getBool x.1 := by
      intro t; simp only [getBool, getChildOptional, hfx]
    simp only [e1, e2]
    exact h2
  · have hD0 : dataAt (fragments path) (registry base puts).m_PtreeOfDefaultValues = none := by
      apply hDnone _ hne
      intro y hy hopt hp
      exact hreg ⟨y, hy, (hgroup y hy hopt hp).symm⟩
    have hR0 : dataAt (fragments path) (registry base puts).m_PtreeOfRequired = none ∨
        dataAt (fragments path) (registry base puts).m_PtreeOfRequired = some "" := by
      rw [registry_required_eq, dataAt_foldl_put _ hdotR]
      apply foldl_putAt_blank
      · intro e he heq
        obtain ⟨x, hx, rfl⟩ := List.mem_map.mp he
        exact hreg ⟨x, hx, heq.symm⟩
      · left; exact hfreshR _ hne
    constructor
    · rintro ⟨v, hv⟩
      rw [getString_ok_iff, hD0] at hv
      cases hv
    · intro h
      rcases getBool_false_dataAt _ _ h with h1 | h1 <;> rcases hR0 with h2 | h2 <;>
        · rw [h2] at h1
          exact absurd h1 (by decide)

/-- C17, amended, on the registrations of `grp.a` as optional, `grp.b` and `input` as
required. -/
theorem registry_default_iff_optional_witness :
    ((∃ v, (registry init [("grp.a", "0", false), ("grp.b", "", true), ("input", "", true)]
        ).m_PtreeOfDefaultValues.getString "grp.b" = .ok v) ↔
      (registry init [("grp.a", "0", false), ("grp.b", "", true), ("input", "", true)]
        ).m_PtreeOfRequired.getBool "grp.b" = .ok false) ∧
    (registry init [("grp.a", "0", false), ("grp.b", "", true), ("input", "", true)]
        ).m_PtreeOfDefaultValues.getString "grp.a" = .ok "0" :=
  ⟨(((registry_default_iff_optional
      [("grp.a", "0", false), ("grp.b", "", true), ("input", "", true)] init rfl rfl).2
      (by decide) (by decide) (by decide)).1 ("grp.b", "", true) (by simp)).2.1,
   (((registry_default_iff_optional
      [("grp.a", "0", false), ("grp.b", "", true), ("input", "", true)] init rfl rfl).2
      (by decide) (by decide) (by decide)).1 ("grp.a", "0", false) (by simp)).2.2 rfl⟩

end OptionsBase

/-! ## C20: when config-file mode is switched on -/

namespace OptionsBase

/-- A result of `ParseConfigFile` comes with the object the call leaves behind. -/
theorem ParseConfigFile_state (self : OptionsBase) (readIni : String → Option PTree)
    (fuel : Nat) (b : Bool) (s : OptionsBase)
    (h : self.ParseConfigFile readIni fuel = .done (b, s)) :
    s = self.ParseConfigFileState readIni fuel := by
  simp only [ParseConfigFile] at h
  simp only [ParseConfigFileState]
  cases hr : readIni self.m_Config with
  | none =>
    simp only [hr, Run.done.injEq, Prod.mk.injEq] at h
    exact h.2.symm
  | some file =>
    simp only [hr] at h ⊢
    split at h
    · rename_i hfind
      simp only [Run.done.injEq, Prod.mk.injEq] at h
      simp only [hfind, if_true]
      exact h.2.symm
    · rename_i hfind
      simp only [hfind, if_false]
      cases hg : file.getChild self.m_NameOfGroup with
      | error e => simp [hg, Run.ofExcept, Run.bind] at h
      | ok group =>
        simp only [hg, Run.ofExcept, Run.bind] at h ⊢
        cases hc : checkParsedTree fuel self.m_PtreeOfRequired
            (mergeDefaults self.m_PtreeOfDefaultValues group) self.m_NameOfGroup [] with
        | raised e => simp [hc] at h
        | outOfFuel => simp [hc] at h
        | done r =>
          obtain ⟨path, list⟩ := r
          simp only [hc] at h ⊢
          split at h
          · rename_i hlen
            simp only [Run.done.injEq, Prod.mk.injEq] at h
            simp only [hlen, if_true]
            exact h.2.symm
          · rename_i hlen
            simp only [Run.done.injEq, Prod.mk.injEq] at h
            simp only [hlen, if_false]
            exact h.2.symm

/-- Whichever way `ParseConfigFile` ends, it leaves the config flag as it was. -/
theorem ParseConfigFileState_enabled (self : OptionsBase) (readIni : String → Option PTree)
    (fuel : Nat) :
    (self.ParseConfigFileState readIni fuel).m_ConfigIsEnabled = self.m_ConfigIsEnabled := by
  simp only [ParseConfigFileState]
  split
  · rfl
  · split
    · rfl
    · split
      · rfl
      · split
        · split <;> rfl
        · rfl
        · rfl

/-- C20 fails as stated: when the parser has read the option `config` with the empty
string as its value (the command line `--config ""`), the stored path is the empty
string, `read_ini` cannot open it and `ParseOptions` returns false, yet
`ConfigIsEnabled` is true. -/
theorem ConfigIsEnabled_with_empty_path :
    ∃ cl s, store (fun _ _ => true) init.m_Description [("config", "")] = some cl ∧
      init.ParseOptions (some cl) (fun _ => none) 0 = .done (false, s) ∧
      s.m_Config = "" ∧
      ¬ (s.ConfigIsEnabled = true ↔
          ∃ path, (cl.vm.lookup "config").map VmValue.text = some path ∧ path ≠ "") := by
  refine ⟨⟨[("config", ⟨.string, ""⟩), ("help", ⟨.bool, "false"⟩)], false⟩,
    { init with
      m_Vm := [("config", ⟨.string, ""⟩), ("help", ⟨.bool, "false"⟩)]
      m_ConfigIsEnabled := true }, rfl, rfl, rfl, ?_⟩
  intro h
  obtain ⟨path, hp, hne⟩ := h.mp rfl
  have : path = "" := by
    have h1 : (some "" : Option String) = some path := hp
    exact (Option.some.inj h1).symm
  exact hne this

/-- C20, amended. After `ParseOptions` has parsed a command line without a help
request, `ConfigIsEnabled` is true exactly when a value is stored under `config`, the
empty string included.  This holds of the object the call leaves behind whichever way
the call ends: with a result, which then comes with that object, with an exception
from the validation, or without end; and without such a value the call returns true. -/
theorem ConfigIsEnabled_iff_config_stored (self : OptionsBase) (cl : CommandLine)
    (readIni : String → Option PTree) (fuel : Nat) (hhelp : cl.help = false) :
    ((self.ParseOptionsState (some cl) readIni fuel).ConfigIsEnabled = true ↔
      (cl.vm.lookup "config").isSome = true) ∧
    (∀ b s, self.ParseOptions (some cl) readIni fuel = .done (b, s) →
      s = self.ParseOptionsState (some cl) readIni fuel) ∧
    (cl.vm.lookup "config" = none →
      ∃ s, self.ParseOptions (some cl) readIni fuel = .done (true, s) ∧
        s.ConfigIsEnabled = false) := by
  refine ⟨?_, ?_, ?_⟩
  · cases hc : cl.vm.lookup "config" with
    | none => simp [ParseOptionsState, hhelp, hc, ConfigIsEnabled]
    | some v =>
      simp only [ParseOptionsState, hhelp, hc, Bool.false_eq_true, if_false,
        Option.isSome_some, if_true, ConfigIsEnabled, iff_true]
      rw [ParseConfigFileState_enabled]
  · intro b s hrun
    cases hc : cl.vm.lookup "config" with
    | none =>
      simp only [ParseOptions, hhelp, hc, Bool.false_eq_true, if_false, Option.isSome_none,
        Run.done.injEq, Prod.mk.injEq] at hrun
      simp only [ParseOptionsState, hhelp, hc, Bool.false_eq_true, if_false,
        Option.isSome_none]
      exact hrun.2.symm
    | some v =>
      simp only [ParseOptions, hhelp, hc, Bool.false_eq_true, if_false, Option.isSome_some,
        if_true] at hrun
      simp only [ParseOptionsState, hhelp, hc, Bool.false_eq_true, if_false,
        Option.isSome_some, if_true]
      exact ParseConfigFile_state _ readIni fuel b s hrun
  · intro hnone
    refine ⟨{ self with
      m_Vm := cl.vm
      m_Help := cl.help
      m_Config := self.m_Config
      m_ConfigIsEnabled := false }, ?_, rfl⟩
    simp only [ParseOptions, hhelp, hnone]
    rfl

/-- C20, amended, on the command line that stores the empty string under `config`. -/
theorem ConfigIsEnabled_iff_config_stored_witness :
    (init.ParseOptionsState (some ⟨[("config", ⟨.string, ""⟩)], false⟩) (fun _ => none)
        0).ConfigIsEnabled = true ↔
      (List.lookup "config" [("config", (⟨.string, ""⟩ : VmValue))]).isSome = true :=
  (ConfigIsEnabled_iff_config_stored init ⟨[("config", ⟨.string, ""⟩)], false⟩ (fun _ => none)
    0 rfl).1

/-- The flag is set before the validation runs: on a file whose group lacks the branch
of a nested required key the call leaves with `ptree_bad_path`, and with no fuel the
validation does not end; in both cases the object left behind has the flag on. -/
theorem ConfigIsEnabled_when_validation_fails :
    ((init.SetNameOfGroup "G").Put "a.b" "" true).ParseOptions
        (some ⟨[("config", ⟨.string, "f.ini"⟩)], false⟩)
        (fun _ => some (node "" [("G", node "" [("x", leaf "1")])])) 2 =
      .raised .ptree_bad_path ∧
    (((init.SetNameOfGroup "G").Put "a.b" "" true).ParseOptionsState
        (some ⟨[("config", ⟨.string, "f.ini"⟩)], false⟩)
        (fun _ => some (node "" [("G", node "" [("x", leaf "1")])])) 2).ConfigIsEnabled =
      true ∧
    ((init.SetNameOfGroup "G").Put "a.b" "" true).ParseOptions
        (some ⟨[("config", ⟨.string, "f.ini"⟩)], false⟩)
        (fun _ => some (node "" [("G", node "" [("x", leaf "1")])])) 0 = .outOfFuel ∧
    (((init.SetNameOfGroup "G").Put "a.b" "" true).ParseOptionsState
        (some ⟨[("config", ⟨.string, "f.ini"⟩)], false⟩)
        (fun _ => some (node "" [("G", node "" [("x", leaf "1")])])) 0).ConfigIsEnabled =
      true := by
  refine ⟨rfl, rfl, rfl, rfl⟩

end OptionsBase

/-! ## C11: the default of an optional option in both modes -/

namespace PTree

theorem splitAll_append_dot (cs : List Char) (h : '.' ∉ cs) :
    splitAll (cs ++ ['.']) = [cs, []] := by
  induction cs with
  | nil => simp [splitAll]
  | cons c cs ih =>
    have hc : c ≠ '.' := fun e => h (by simp [e])
    have hcs : '.' ∉ cs := fun e => h (by simp [e])
    simp [splitAll, hc, ih hcs]

/-- The keys that spell the path of a single name are the name and the name followed
by the separator. -/
theorem fragments_eq_single (k n : String) (hdot : '.' ∉ n.data)
    (h : fragments k = [n]) : k = n ∨ k = n ++ "." := by
  have hinj : Function.Injective String.mk := by
    intro a b hab
    have := congrArg String.data hab
    simpa using this
  rcases forcedFragments_eq k with e | e
  · left
    rw [h] at e
    simp only [forcedFragments] at e
    have h1 : (splitAll k.data).map String.mk = (splitAll n.data).map String.mk := by
      rw [e, splitAll_of_no_dot _ hdot]
      rfl
    apply String.ext
    exact splitAll_injective _ _ (List.map_injective_iff.mpr hinj h1)
  · right
    rw [h] at e
    simp only [forcedFragments] at e
    have h1 : (splitAll k.data).map String.mk =
        (splitAll (n.data ++ ['.'])).map String.mk := by
      rw [e, splitAll_append_dot _ hdot]
      rfl
    apply String.ext
    rw [splitAll_injective _ _ (List.map_injective_iff.mpr hinj h1)]
    rfl

end PTree

/-- The walk over a schema of leaves that `get<bool>` can read returns, whatever the
parsed tree holds. -/
theorem checkLoop_leaves (self : PTree → PTree → String → List String →
      Run PtreeError (String × List String)) (R M : PTree) :
    ∀ (rest : List (String × PTree)) (path : String) (list : List String),
      (∀ e ∈ rest, e.2.empty = true ∧ ∃ b, R.getBool e.1 = .ok b) →
      ∃ list', checkLoop self R M rest path list = .done (path, list') := by
  intro rest
  induction rest with
  | nil => intro path list _; exact ⟨list, rfl⟩
  | cons e rest ih =>
    intro path list h
    obtain ⟨name, tree⟩ := e
    obtain ⟨hleaf, b, hb⟩ := h (name, tree) (List.mem_cons_self _ _)
    have hrest := fun e he => h e (List.mem_cons_of_mem _ he)
    simp only at hleaf hb
    simp only [checkLoop, hleaf, Bool.not_true, Bool.false_eq_true, if_false, Run.bind]
    by_cases hf : (M.find name).isNone = true
    · simp only [hf, if_true, hb, Run.ofExcept]
      cases b with
      | true => simpa using ih path (list ++ [path ++ "." ++ name]) hrest
      | false => simpa using ih path list hrest
    · simp only [hf, if_false]
      exact ih path list hrest

namespace OptionsBase

theorem lookup_given_none {α : Type} (n : String) (f : String × String → Option α)
    (parsed : List (String × String)) (h : parsed.lookup n = none) :
    List.lookup n (parsed.filterMap fun e => (f e).map fun a => (e.1, a)) = none := by
  induction parsed with
  | nil => rfl
  | cons e rest ih =>
    obtain ⟨a, b⟩ := e
    have hb : (n == a) = false := by
      cases hb : n == a with
      | false => rfl
      | true => simp [List.lookup, hb] at h
    have hrest : rest.lookup n = none := by simpa [List.lookup, hb] using h
    rw [List.filterMap_cons]
    cases hfe : f (a, b) with
    | none => simpa [hfe] using ih hrest
    | some x =>
      simp only [hfe, Option.map_some', List.lookup, hb]
      exact ih hrest

/-- The default the store step adds for a name that was not given. -/
theorem lookup_defaults (parsed : List (String × String)) (n : String)
    (hn : parsed.lookup n = none) (desc : List OptionDescription) :
    List.lookup n (desc.filterMap fun od =>
        if (parsed.lookup od.longName).isSome then none
        else od.defaultText.map fun text => (od.longName, (⟨od.type, text⟩ : VmValue))) =
      (desc.find? fun od => od.longName == n && od.defaultText.isSome).bind
        fun od => od.defaultText.map fun text => (⟨od.type, text⟩ : VmValue) := by
  induction desc with
  | nil => rfl
  | cons od rest ih =>
    by_cases hname : od.longName = n
    · rw [List.filterMap_cons]
      simp only [hname, hn, Option.isSome_none, Bool.false_eq_true, if_false]
      cases hd : od.defaultText with
      | none =>
        simp only [Option.map_none', List.find?_cons, hname, hd, beq_self_eq_true,
          Option.isSome_none, Bool.and_false]
        exact ih
      | some text =>
        simp [List.find?_cons, hname, hd, List.lookup]
    · have hb : (od.longName == n) = false := by simpa using hname
      have hb' : (n == od.longName) = false := by simpa using fun e : n = od.longName => hname e.symm
      rw [List.filterMap_cons]
      simp only [List.find?_cons, hb, Bool.false_and]
      split
      · exact ih
      · rename_i x heq
        split at heq
        · cases heq
        · cases hd : od.defaultText with
          | none => simp [hd] at heq
          | some text =>
            simp only [hd, Option.map_some', Option.some.injEq] at heq
            subst heq
            simp only [List.lookup, hb']
            exact ih

/-- What the variables hold, after the store step, under a name that was not given:
the default of the option of that name, with the type of the option. -/
theorem store_lookup_not_given (lexical : ValueType → String → Bool)
    (desc : List OptionDescription) (parsed : List (String × String)) (cl : CommandLine)
    (n : String) (hcl : store lexical desc parsed = some cl) (hn : parsed.lookup n = none) :
    cl.vm.lookup n =
      (desc.find? fun od => od.longName == n && od.defaultText.isSome).bind
        fun od => od.defaultText.map fun text => (⟨od.type, text⟩ : VmValue) := by
  simp only [store] at hcl
  split at hcl
  · simp only [Option.some.injEq] at hcl
    rw [← hcl]
    simp only [List.lookup_append]
    have hgiven := lookup_given_none n
      (fun e => (desc.find? fun od => od.longName == e.1).map fun od =>
        (⟨od.type, e.2⟩ : VmValue)) parsed hn
    simp only [Option.map_map, Function.comp_def] at hgiven
    rw [hgiven]
    simp only [Option.none_or]
    exact lookup_defaults parsed n hn desc
  · cases hcl

theorem store_help (lexical : ValueType → String → Bool)
    (desc : List OptionDescription) (parsed : List (String × String)) (cl : CommandLine)
    (hcl : store lexical desc parsed = some cl) :
    cl.help = (parsed.lookup "help").isSome := by
  simp only [store] at hcl
  split at hcl
  · simp only [Option.some.injEq] at hcl
    rw [← hcl]
  · cases hcl

end OptionsBase

namespace OptionsBase

/-- In config-file mode on a file that has the group, `ParseOptions` of
`ReferenceOptions` returns, and the object holds the overlay of the group onto the
defaults. -/
theorem ReferenceOptions_config_run (cl : CommandLine) (file group : PTree) (fuel : Nat)
    (hhelp : cl.help = false) (hcfg : (cl.vm.lookup "config").isSome = true)
    (hfind : file.find "REFERENCE" = some group) :
    ∃ b s, ReferenceOptions.ParseOptions (some cl) (fun _ => some file) (fuel + 1) =
        .done (b, s) ∧
      s.m_ConfigIsEnabled = true ∧
      s.m_ParsedPtree = mergeDefaults ReferenceOptions.m_PtreeOfDefaultValues group := by
  have hg : file.getChild "REFERENCE" = .ok group := by
    rw [getChild_simple file "REFERENCE" (by decide) (by decide), hfind]
  have hname : ReferenceOptions.m_NameOfGroup = "REFERENCE" := rfl
  obtain ⟨list, hlist⟩ := checkLoop_leaves (checkParsedTree fuel)
    ReferenceOptions.m_PtreeOfRequired
    (mergeDefaults ReferenceOptions.m_PtreeOfDefaultValues group)
    ReferenceOptions.m_PtreeOfRequired.children "REFERENCE" [] (by decide)
  have hcheck : checkParsedTree (fuel + 1) ReferenceOptions.m_PtreeOfRequired
      (mergeDefaults ReferenceOptions.m_PtreeOfDefaultValues group) "REFERENCE" [] =
      .done ("REFERENCE", list) := by
    rw [checkParsedTree]
    have : ReferenceOptions.m_PtreeOfRequired.empty = false := by decide
    simp only [this, Bool.false_eq_true, if_false]
    exact hlist
  simp only [ParseOptions, hhelp, hcfg, Bool.false_eq_true, if_false, if_true,
    ParseConfigFile, hname, hfind, Option.isNone_some, hg, Run.ofExcept, Run.bind, hcheck]
  split
  · exact ⟨_, _, rfl, rfl, rfl⟩
  · exact ⟨_, _, rfl, rfl, rfl⟩

/-- C11 fails as stated: a `REFERENCE` section that holds `input`, `output`, `report`
and the key `iterations.` omits the key `iterations`, and `ParseOptions` returns true
on it; the put of `iterations.` lands on the node of `iterations`, so `Get` reads `7`
in config-file mode, while the declared default, which `Get` reads in command-line
mode when the option is not given, is `100`. -/
theorem ReferenceOptions_default_overridden :
    ((node "" [("input", leaf "a.img"), ("output", leaf "b.vtk"), ("report", leaf "r.txt"),
        ("iterations.", leaf "7")]).find "iterations").isNone = true ∧
    (∃ cl s,
      store (fun _ _ => true) ReferenceOptions.m_Description [("config", "ref.ini")] =
        some cl ∧
      ReferenceOptions.ParseOptions (some cl)
        (fun _ => some (node "" [("REFERENCE", node "" [("input", leaf "a.img"),
          ("output", leaf "b.vtk"), ("report", leaf "r.txt"), ("iterations.", leaf "7")])]))
        1 = .done (true, s) ∧
      s.ConfigIsEnabled = true ∧
      s.Get .size_t readSize "iterations" = .ok 7) ∧
    ReferenceOptions.GetDefaultValue readSize "iterations" = .ok 100 ∧
    store (fun _ _ => true) ReferenceOptions.m_Description
      [("input", "a.img"), ("output", "b.vtk")] = some referenceCommandLine ∧
    referenceParsed.Get .size_t readSize "iterations" = .ok 100 := by
  refine ⟨by decide, ⟨_, _, rfl, rfl, rfl, by decide⟩, by decide, rfl, by decide⟩

end OptionsBase

namespace OptionsBase

/-- C11, amended. Same default in both modes for the `ReferenceOptions` schema: for each
of `sigma`, `level`, `factor`, `iterations` and `points`, with `t` the text of the
declared default and `v` what the translator of the option's type reads from it,
`GetDefaultValue` gives `v`; after every command line on which the option is not
given, and `config` is not given or help is requested, `ParseOptions` returns with the
config flag off and `Get` gives `v`; and after every command line that gives `config`,
on a file whose `REFERENCE` section holds the option neither under its name nor under
its name followed by the separator, `ParseOptions` returns with the config flag on and
`Get` gives `v`. -/
theorem ReferenceOptions_same_default {T : Type} (n t : String) (ty : ValueType)
    (hn : (n, ty, t) ∈ [("sigma", ValueType.double, "0"), ("level", ValueType.double, "0"),
      ("factor", ValueType.double, "0.20000000000000001"),
      ("iterations", ValueType.size_t, "100"), ("points", ValueType.size_t, "0")])
    (decode : String → Option T) (v : T) (hv : decode t = some v) :
    ReferenceOptions.GetDefaultValue decode n = .ok v ∧
    (∀ (lexical : ValueType → String → Bool) (parsed : List (String × String))
        (cl : CommandLine) (readIni : String → Option PTree) (fuel : Nat),
      store lexical ReferenceOptions.m_Description parsed = some cl →
      parsed.lookup n = none →
      (parsed.lookup "config" = none ∨ (parsed.lookup "help").isSome = true) →
      ∃ b s, ReferenceOptions.ParseOptions (some cl) readIni fuel = .done (b, s) ∧
        s.ConfigIsEnabled = false ∧ s.Get ty decode n = .ok v) ∧
    (∀ (cl : CommandLine) (file group : PTree) (fuel : Nat),
      cl.help = false → (cl.vm.lookup "config").isSome = true →
      file.find "REFERENCE" = some group →
      group.find n = none → group.find (n ++ ".") = none →
      ∃ b s, ReferenceOptions.ParseOptions (some cl) (fun _ => some file) (fuel + 1) =
          .done (b, s) ∧
        s.ConfigIsEnabled = true ∧ s.Get ty decode n = .ok v) := by
  have hD : dataAt [n] ReferenceOptions.m_PtreeOfDefaultValues = some t := by
    simp only [List.mem_cons, Prod.mk.injEq, List.mem_singleton, List.not_mem_nil,
      or_false] at hn
    rcases hn with ⟨rfl, _, rfl⟩ | ⟨rfl, _, rfl⟩ | ⟨rfl, _, rfl⟩ | ⟨rfl, _, rfl⟩ |
      ⟨rfl, _, rfl⟩ <;> decide
  have hsimple : n ≠ "" ∧ '.' ∉ n.data := by
    simp only [List.mem_cons, Prod.mk.injEq, List.mem_singleton, List.not_mem_nil,
      or_false] at hn
    rcases hn with ⟨rfl, _, _⟩ | ⟨rfl, _, _⟩ | ⟨rfl, _, _⟩ | ⟨rfl, _, _⟩ | ⟨rfl, _, _⟩ <;>
      decide
  have hdef : (ReferenceOptions.m_Description.find? fun od =>
      od.longName == n && od.defaultText.isSome).bind
        (fun od => od.defaultText.map fun text => (⟨od.type, text⟩ : VmValue)) =
      some ⟨ty, t⟩ := by
    simp only [List.mem_cons, Prod.mk.injEq, List.mem_singleton, List.not_mem_nil,
      or_false] at hn
    rcases hn with ⟨rfl, rfl, rfl⟩ | ⟨rfl, rfl, rfl⟩ | ⟨rfl, rfl, rfl⟩ | ⟨rfl, rfl, rfl⟩ |
      ⟨rfl, rfl, rfl⟩ <;> decide
  have hnocfg : (ReferenceOptions.m_Description.find? fun od =>
      od.longName == "config" && od.defaultText.isSome).bind
        (fun od => od.defaultText.map fun text => (⟨od.type, text⟩ : VmValue)) = none := by
    decide
  have hcli : ∀ o : OptionsBase, o.m_ConfigIsEnabled = false →
      o.m_Vm.lookup n = some ⟨ty, t⟩ → o.Get ty decode n = .ok v := by
    intro o hoff hlook
    simp [Get, hoff, findLastOf_none '.' n.data hsimple.2, vmAs, hlook, hv]
  have hwalk : ∀ tree : PTree, dataAt [n] tree = some t →
      ∀ o : OptionsBase, o.m_ConfigIsEnabled = true → o.m_ParsedPtree = tree →
        o.Get ty decode n = .ok v := by
    intro tree htree o hen hp
    simp only [dataAt, Option.map_eq_some'] at htree
    obtain ⟨c, hc, hcd⟩ := htree
    simp [Get, hen, hp, getChildOptional, PTree.fragments_simple n hsimple.1 hsimple.2, hc,
      hcd, hv]
  refine ⟨?_, ?_, ?_⟩
  · simp only [dataAt, Option.map_eq_some'] at hD
    obtain ⟨c, hc, hcd⟩ := hD
    simp [GetDefaultValue, getChildOptional, PTree.fragments_simple n hsimple.1 hsimple.2, hc,
      hcd, hv]
  · intro lexical parsed cl readIni fuel hcl hnot hmode
    have hlook : cl.vm.lookup n = some ⟨ty, t⟩ := by
      rw [store_lookup_not_given lexical _ parsed cl n hcl hnot]
      exact hdef
    have hhelp := store_help lexical _ parsed cl hcl
    cases hh : (parsed.lookup "help").isSome with
    | true =>
      rw [hh] at hhelp
      refine ⟨false, { ReferenceOptions with
        m_Vm := cl.vm
        m_Help := cl.help
        m_Config := ((cl.vm.lookup "config").map VmValue.text).getD ReferenceOptions.m_Config },
        ?_, rfl, ?_⟩
      · simp [ParseOptions, hhelp]
      · exact hcli _ rfl hlook
    | false =>
      rw [hh] at hhelp
      have hc : parsed.lookup "config" = none := by
        rcases hmode with h | h
        · exact h
        · rw [hh] at h; cases h
      have hcfg : cl.vm.lookup "config" = none := by
        rw [store_lookup_not_given lexical _ parsed cl "config" hcl hc]
        exact hnocfg
      refine ⟨true, { ReferenceOptions with
        m_Vm := cl.vm
        m_Help := cl.help
        m_Config := ((cl.vm.lookup "config").map VmValue.text).getD ReferenceOptions.m_Config
        m_ConfigIsEnabled := false },
        ?_, rfl, ?_⟩
      · simp [ParseOptions, hhelp, hcfg]
      · exact hcli _ rfl hlook
  · intro cl file group fuel hhelp hcfg hfind h1 h2
    obtain ⟨b, s, hrun, hen, htree⟩ :=
      ReferenceOptions_config_run cl file group fuel hhelp hcfg hfind
    refine ⟨b, s, hrun, hen, ?_⟩
    apply hwalk _ _ s hen htree
    apply dataAt_mergeDefaults_keep _ _ _ _ hD
    intro e he heq
    have hk := PTree.fragments_eq_single e.1 n hsimple.2 heq.symm
    obtain ⟨x, hx⟩ := lookup_isSome_of_mem (k := e.1) (c := e.2) he
    simp only [PTree.find] at h1 h2
    rcases hk with hk | hk
    · rw [hk, h1] at hx; cases hx
    · rw [hk, h2] at hx; cases hx

/-- C11, amended, on `iterations`: the declared default; the value after a command line
that gives `input` and `output` only, where `input` reads `a.img`; and the value
after a command line that gives `config`, on a file without `iterations`. -/
theorem ReferenceOptions_same_default_witness :
    ReferenceOptions.GetDefaultValue readSize "iterations" = .ok 100 ∧
    referenceParsed.Get .string some "input" = .ok "a.img" ∧
    (∃ b s, ReferenceOptions.ParseOptions (some referenceCommandLine) (fun _ => none) 0 =
        .done (b, s) ∧
      s.ConfigIsEnabled = false ∧ s.Get .size_t readSize "iterations" = .ok 100) ∧
    (∃ b s, ReferenceOptions.ParseOptions
        (some ⟨[("config", ⟨.string, "ref.ini"⟩)], false⟩) (fun _ => some completeIni)
        1 = .done (b, s) ∧
      s.ConfigIsEnabled = true ∧ s.Get .size_t readSize "iterations" = .ok 100) :=
  ⟨(ReferenceOptions_same_default "iterations" "100" .size_t (by decide) readSize 100
      (by decide)).1,
   by decide,
   (ReferenceOptions_same_default "iterations" "100" .size_t (by decide) readSize 100
      (by decide)).2.1 (fun _ _ => true) [("input", "a.img"), ("output", "b.vtk")]
      referenceCommandLine (fun _ => none) 0 rfl (by decide) (Or.inl (by decide)),
   (ReferenceOptions_same_default "iterations" "100" .size_t (by decide) readSize 100
      (by decide)).2.2 ⟨[("config", ⟨.string, "ref.ini"⟩)], false⟩ completeIni
      (.node "" [("input", .leaf "a.img"), ("output", .leaf "b.vtk"), ("report", .leaf "r.txt")])
      0 rfl rfl rfl rfl rfl⟩

end OptionsBase

end ssm
